import Mathlib

/-!
# xorfilter: a shallow embedding of the Go sources and its verification

Machine integers are natural numbers reduced explicitly: `uint64` values modulo
`2^64`, `uint32` values modulo `2^32`, `uint8` values modulo `2^8`.  Go slices are
lists; an index that Go would reject with a run-time panic makes the embedded
function return `Outcome.panic`.
-/



set_option autoImplicit false

namespace XorFilter

/-! ## Data model (`xorfilter_definitions.go`) -/

/-- Common header of every filter: `Seed uint64`, `BlockLength uint32`. -/
structure XorFilterCommon where
  Seed : Nat
  BlockLength : Nat
deriving DecidableEq

/-- The 8-bit filter: the common header together with `Fingerprints []uint8`. -/
structure Xor8 extends XorFilterCommon where
  Fingerprints : List Nat
deriving DecidableEq

/-- Per-slot accumulator: `xormask uint64`, `count uint32`. -/
structure xorset where
  xormask : Nat
  count : Nat
deriving DecidableEq

/-- Result of `geth0h1h2`: the digest and its three block-relative slots. -/
structure hashes where
  h : Nat
  h0 : Nat
  h1 : Nat
  h2 : Nat
deriving DecidableEq

/-- A digest paired with a slot index: `hash uint64`, `index uint32`. -/
structure keyindex where
  hash : Nat
  index : Nat
deriving DecidableEq

/-- How a call of an embedded Go function ends: it returns a value, it stops with
a run-time panic (index out of range), or the loop bound of the embedding is used
up before the Go loop would have stopped. -/
inductive Outcome (α : Type) where
  | ret (a : α) : Outcome α
  | panic : Outcome α
  | timeout : Outcome α
deriving DecidableEq

/-- Sequencing of embedded calls: a panic or a timeout ends the whole computation. -/
def Outcome.bind {α β : Type} (x : Outcome α) (f : α → Outcome β) : Outcome β :=
  match x with
  | .ret a => f a
  | .panic => .panic
  | .timeout => .timeout

instance : Monad Outcome where
  pure := Outcome.ret
  bind := Outcome.bind

/-- The only error value of the package, `ErrTooManyIterations`. -/
inductive Error where
  | ErrTooManyIterations : Error
deriving DecidableEq

deriving instance DecidableEq for Except

/-! ## Hash mixing (`xorfilter.go`, lines 11-44) -/

/-- Go `murmur64`: the 64-bit finalizer, on a `uint64` argument. -/
def murmur64 (h : Nat) : Nat :=
  let h := h ^^^ (h >>> 33)
  let h := (h * 0xff51afd7ed558ccd) % 2 ^ 64
  let h := h ^^^ (h >>> 33)
  let h := (h * 0xc4ceb9fe1a85ec53) % 2 ^ 64
  let h := h ^^^ (h >>> 33)
  h

/-- Go `splitmix64`: returns the random number and the advanced seed state
(the Go function updates `*seed` in place). -/
def splitmix64 (seed : Nat) : Nat × Nat :=
  let seed := (seed + 0x9E3779B97F4A7C15) % 2 ^ 64
  let z := seed
  let z := ((z ^^^ (z >>> 30)) * 0xBF58476D1CE4E5B9) % 2 ^ 64
  let z := ((z ^^^ (z >>> 27)) * 0x94D049BB133111EB) % 2 ^ 64
  (z ^^^ (z >>> 31), seed)

/-- Go `mixsplit`: `murmur64(key + seed)` with the `uint64` sum. -/
def mixsplit (key seed : Nat) : Nat :=
  murmur64 ((key + seed) % 2 ^ 64)

/-- Go `rotl64`: `(n << uint(c&63)) | (n >> uint((-c)&63))`.  On a two's-complement
`int`, `x & 63` is `x` modulo 64. -/
def rotl64 (n : Nat) (c : Int) : Nat :=
  ((n <<< (c % 64).toNat) % 2 ^ 64) ||| (n >>> ((-c) % 64).toNat)

/-- Go `reduce`: `uint32((uint64(hash) * uint64(n)) >> 32)`. -/
def reduce (hash n : Nat) : Nat :=
  (((hash * n) % 2 ^ 64) >>> 32) % 2 ^ 32

/-- Go `fingerprint`: `hash ^ (hash >> 32)`. -/
def fingerprint (hash : Nat) : Nat :=
  hash ^^^ (hash >>> 32)

/-- Go `XorFilterCommon.geth0`. -/
def geth0 (filter : XorFilterCommon) (hash : Nat) : Nat :=
  let r0 := hash % 2 ^ 32
  reduce r0 filter.BlockLength

/-- Go `XorFilterCommon.geth1`. -/
def geth1 (filter : XorFilterCommon) (hash : Nat) : Nat :=
  let r1 := rotl64 hash 21 % 2 ^ 32
  reduce r1 filter.BlockLength

/-- Go `XorFilterCommon.geth2`. -/
def geth2 (filter : XorFilterCommon) (hash : Nat) : Nat :=
  let r2 := rotl64 hash 42 % 2 ^ 32
  reduce r2 filter.BlockLength

/-- Go `XorFilterCommon.geth0h1h2`. -/
def geth0h1h2 (filter : XorFilterCommon) (k : Nat) : hashes :=
  let hash := mixsplit k filter.Seed
  let r0 := hash % 2 ^ 32
  let r1 := rotl64 hash 21 % 2 ^ 32
  let r2 := rotl64 hash 42 % 2 ^ 32
  { h := hash
    h0 := reduce r0 filter.BlockLength
    h1 := reduce r1 filter.BlockLength
    h2 := reduce r2 filter.BlockLength }

/-! ## Query (`xorfilter.go`, lines 46-57) -/

/-- Go `Xor8.Contains`.  The three reads of `Fingerprints` panic when an index is
out of range; the additions are `uint32` additions. -/
def Contains (filter : Xor8) (key : Nat) : Outcome Bool :=
  let hash := mixsplit key filter.Seed
  let f := fingerprint hash % 2 ^ 8
  let r0 := hash % 2 ^ 32
  let r1 := rotl64 hash 21 % 2 ^ 32
  let r2 := rotl64 hash 42 % 2 ^ 32
  let h0 := reduce r0 filter.BlockLength
  let h1 := (reduce r1 filter.BlockLength + filter.BlockLength) % 2 ^ 32
  let h2 := (reduce r2 filter.BlockLength + (2 * filter.BlockLength) % 2 ^ 32) % 2 ^ 32
  match filter.Fingerprints[h0]?, filter.Fingerprints[h1]?, filter.Fingerprints[h2]? with
  | some a, some b, some c => .ret (decide (f = (a ^^^ b ^^^ c)))
  | _, _, _ => .panic

/-! ## Scratch arena (`xorfilter.go`, lines 111-186) -/

/-- Go `DefaultMaxIterations`. -/
def DefaultMaxIterations : Int := 100

/-- Go `Builder`.  `MaxIterations` is a Go `int`. -/
structure Builder where
  MaxIterations : Int
  kiStore : List keyindex
  setStore : List xorset
  RandomNumberGeneratorSeed : Nat
deriving DecidableEq

/-- The zero value `keyindex{}`. -/
def keyindex.zero : keyindex := { hash := 0, index := 0 }

/-- The zero value `xorset{}`. -/
def xorset.zero : xorset := { xormask := 0, count := 0 }

/-- The store after the first lines of Go `Builder.getKeyIndexes`: a fresh zeroed
slice of length `tot` when the old one is shorter, otherwise the old slice with
its first `tot` entries zeroed. -/
def zeroKiStore (kiStore : List keyindex) (tot : Nat) : List keyindex :=
  if kiStore.length < tot then List.replicate tot keyindex.zero
  else List.replicate tot keyindex.zero ++ kiStore.drop tot

/-- The store after the first lines of Go `Builder.getSets`. -/
def zeroSetStore (setStore : List xorset) (tot : Nat) : List xorset :=
  if setStore.length < tot then List.replicate tot xorset.zero
  else List.replicate tot xorset.zero ++ setStore.drop tot

/-- The working slices of one `populateCommon` call.  In Go `stack`, `Q0`, `Q1`,
`Q2` are consecutive disjoint sub-slices of `bld.kiStore` and `sets0`, `sets1`,
`sets2` of `bld.setStore`; `kiRest` and `setRest` are the parts of the two stores
behind them.  The three queue sizes and `stacksize` are the Go locals. -/
structure work where
  stack : List keyindex
  Q0 : List keyindex
  Q1 : List keyindex
  Q2 : List keyindex
  kiRest : List keyindex
  sets0 : List xorset
  sets1 : List xorset
  sets2 : List xorset
  setRest : List xorset
  Q0size : Nat
  Q1size : Nat
  Q2size : Nat
  stacksize : Nat
deriving DecidableEq

/-- Go `Builder.getKeyIndexes` and `Builder.getSets`: zero the stores and carve the
seven working slices out of them. -/
def getWork (bld : Builder) (size blockLength : Nat) : work :=
  let kiStore := zeroKiStore bld.kiStore (size + blockLength * 3)
  let setStore := zeroSetStore bld.setStore (blockLength * 3)
  { stack := kiStore.take size
    Q0 := (kiStore.drop size).take blockLength
    Q1 := (kiStore.drop (size + blockLength)).take blockLength
    Q2 := (kiStore.drop (size + blockLength + blockLength)).take blockLength
    kiRest := kiStore.drop (size + blockLength + blockLength + blockLength)
    sets0 := setStore.take blockLength
    sets1 := (setStore.drop blockLength).take blockLength
    sets2 := (setStore.drop (blockLength + blockLength)).take blockLength
    setRest := setStore.drop (blockLength + blockLength + blockLength)
    Q0size := 0
    Q1size := 0
    Q2size := 0
    stacksize := 0 }

/-- The contents of `bld.kiStore` seen through the working slices. -/
def work.kiStore (w : work) : List keyindex :=
  w.stack ++ w.Q0 ++ w.Q1 ++ w.Q2 ++ w.kiRest

/-- The contents of `bld.setStore` seen through the working slices. -/
def work.setStore (w : work) : List xorset :=
  w.sets0 ++ w.sets1 ++ w.sets2 ++ w.setRest

/-! ## Construction (`xorfilter.go`, lines 88-109 and 188-372) -/

/-- Go `scanCount`, from position `i` of `setsi` on: every slot with a count of one
is written to `Qi[QiSize]`. -/
def scanCountFrom (i : Nat) (setsi : List xorset) (Qi : List keyindex) (QiSize : Nat) :
    Outcome (List keyindex × Nat) :=
  match setsi with
  | [] => .ret (Qi, QiSize)
  | s :: rest =>
    if s.count = 1 then
      if QiSize < Qi.length then
        scanCountFrom (i + 1) rest
          (Qi.set QiSize { hash := s.xormask, index := i % 2 ^ 32 }) (QiSize + 1)
      else .panic
    else scanCountFrom (i + 1) rest Qi QiSize

/-- Go `scanCount`. -/
def scanCount (Qi : List keyindex) (setsi : List xorset) : Outcome (List keyindex × Nat) :=
  scanCountFrom 0 setsi Qi 0

/-- Go `resetSets`. -/
def resetSets (setsi : List xorset) : List xorset :=
  setsi.map fun _ => xorset.zero

/-- The two statements `setsi[hi].xormask ^= h; setsi[hi].count++` of the
accumulation pass. -/
def addKey (setsi : List xorset) (hi h : Nat) : Outcome (List xorset) :=
  match setsi[hi]? with
  | none => .panic
  | some s => .ret (setsi.set hi { xormask := s.xormask ^^^ h, count := (s.count + 1) % 2 ^ 32 })

/-- The accumulation pass `for i := 0; i < size; i++ { ... }` of `populateCommon`. -/
def accumulate (filter : XorFilterCommon) (keys : List Nat) (w : work) : Outcome work :=
  match keys with
  | [] => .ret w
  | k :: rest => do
    let hs := geth0h1h2 filter k
    let sets0 ← addKey w.sets0 hs.h0 hs.h
    let sets1 ← addKey w.sets1 hs.h1 hs.h
    let sets2 ← addKey w.sets2 hs.h2 hs.h
    accumulate filter rest { w with sets0 := sets0, sets1 := sets1, sets2 := sets2 }

/-- The block that the peel loop runs for each of the two other slots of a peeled
key: `setsi[hi].xormask ^= hash; setsi[hi].count--;` and, when the count is now
one, `Qi[Qisize].index = hi; Qi[Qisize].hash = setsi[hi].xormask; Qisize++`. -/
def removeKey (setsi : List xorset) (Qi : List keyindex) (Qisize : Nat) (hi hash : Nat) :
    Outcome (List xorset × List keyindex × Nat) :=
  match setsi[hi]? with
  | none => .panic
  | some s =>
    let s1 : xorset := { xormask := s.xormask ^^^ hash, count := (s.count + (2 ^ 32 - 1)) % 2 ^ 32 }
    let setsi := setsi.set hi s1
    if s1.count = 1 then
      if Qisize < Qi.length then
        .ret (setsi, Qi.set Qisize { hash := s1.xormask, index := hi }, Qisize + 1)
      else .panic
    else .ret (setsi, Qi, Qisize)

/-- One iteration of `for Q0size > 0 { ... }`. -/
def stepQ0 (filter : XorFilterCommon) (w : work) : Outcome work :=
  let Q0size := w.Q0size - 1
  match w.Q0[Q0size]? with
  | none => .panic
  | some keyindexvar =>
    let index := keyindexvar.index
    match w.sets0[index]? with
    | none => .panic
    | some s =>
      if s.count = 0 then .ret { w with Q0size := Q0size }
      else
        let hash := keyindexvar.hash
        let h1 := geth1 filter hash
        let h2 := geth2 filter hash
        if w.stacksize < w.stack.length then do
          let stack := w.stack.set w.stacksize keyindexvar
          let stacksize := w.stacksize + 1
          let (sets1, Q1, Q1size) ← removeKey w.sets1 w.Q1 w.Q1size h1 hash
          let (sets2, Q2, Q2size) ← removeKey w.sets2 w.Q2 w.Q2size h2 hash
          pure { w with Q0size := Q0size, stack := stack, stacksize := stacksize,
                        sets1 := sets1, Q1 := Q1, Q1size := Q1size,
                        sets2 := sets2, Q2 := Q2, Q2size := Q2size }
        else .panic

/-- One iteration of `for Q1size > 0 { ... }`. -/
def stepQ1 (filter : XorFilterCommon) (w : work) : Outcome work :=
  let Q1size := w.Q1size - 1
  match w.Q1[Q1size]? with
  | none => .panic
  | some keyindexvar =>
    let index := keyindexvar.index
    match w.sets1[index]? with
    | none => .panic
    | some s =>
      if s.count = 0 then .ret { w with Q1size := Q1size }
      else
        let hash := keyindexvar.hash
        let h0 := geth0 filter hash
        let h2 := geth2 filter hash
        let keyindexvar : keyindex :=
          { keyindexvar with index := (keyindexvar.index + filter.BlockLength) % 2 ^ 32 }
        if w.stacksize < w.stack.length then do
          let stack := w.stack.set w.stacksize keyindexvar
          let stacksize := w.stacksize + 1
          let (sets0, Q0, Q0size) ← removeKey w.sets0 w.Q0 w.Q0size h0 hash
          let (sets2, Q2, Q2size) ← removeKey w.sets2 w.Q2 w.Q2size h2 hash
          pure { w with Q1size := Q1size, stack := stack, stacksize := stacksize,
                        sets0 := sets0, Q0 := Q0, Q0size := Q0size,
                        sets2 := sets2, Q2 := Q2, Q2size := Q2size }
        else .panic

/-- One iteration of `for Q2size > 0 { ... }`. -/
def stepQ2 (filter : XorFilterCommon) (w : work) : Outcome work :=
  let Q2size := w.Q2size - 1
  match w.Q2[Q2size]? with
  | none => .panic
  | some keyindexvar =>
    let index := keyindexvar.index
    match w.sets2[index]? with
    | none => .panic
    | some s =>
      if s.count = 0 then .ret { w with Q2size := Q2size }
      else
        let hash := keyindexvar.hash
        let h0 := geth0 filter hash
        let h1 := geth1 filter hash
        let keyindexvar : keyindex :=
          { keyindexvar with
            index := (keyindexvar.index + (2 * filter.BlockLength) % 2 ^ 32) % 2 ^ 32 }
        if w.stacksize < w.stack.length then do
          let stack := w.stack.set w.stacksize keyindexvar
          let stacksize := w.stacksize + 1
          let (sets0, Q0, Q0size) ← removeKey w.sets0 w.Q0 w.Q0size h0 hash
          let (sets1, Q1, Q1size) ← removeKey w.sets1 w.Q1 w.Q1size h1 hash
          pure { w with Q2size := Q2size, stack := stack, stacksize := stacksize,
                        sets0 := sets0, Q0 := Q0, Q0size := Q0size,
                        sets1 := sets1, Q1 := Q1, Q1size := Q1size }
        else .panic

/-- The loop `for Q0size > 0 { ... }`, run for at most `fuel` iterations. -/
def drainQ0 (filter : XorFilterCommon) : Nat → work → Outcome work
  | 0, w => if w.Q0size > 0 then .timeout else .ret w
  | fuel + 1, w =>
    if w.Q0size > 0 then (stepQ0 filter w).bind (drainQ0 filter fuel) else .ret w

/-- The loop `for Q1size > 0 { ... }`, run for at most `fuel` iterations. -/
def drainQ1 (filter : XorFilterCommon) : Nat → work → Outcome work
  | 0, w => if w.Q1size > 0 then .timeout else .ret w
  | fuel + 1, w =>
    if w.Q1size > 0 then (stepQ1 filter w).bind (drainQ1 filter fuel) else .ret w

/-- The loop `for Q2size > 0 { ... }`, run for at most `fuel` iterations. -/
def drainQ2 (filter : XorFilterCommon) : Nat → work → Outcome work
  | 0, w => if w.Q2size > 0 then .timeout else .ret w
  | fuel + 1, w =>
    if w.Q2size > 0 then (stepQ2 filter w).bind (drainQ2 filter fuel) else .ret w

/-- The loop `for Q0size+Q1size+Q2size > 0 { ... }`, run for at most `fuel` rounds.
Each inner loop only shrinks its own queue, so its current size bounds its
iterations. -/
def peel (filter : XorFilterCommon) : Nat → work → Outcome work
  | 0, w => if w.Q0size + w.Q1size + w.Q2size > 0 then .timeout else .ret w
  | fuel + 1, w =>
    if w.Q0size + w.Q1size + w.Q2size > 0 then do
      let w ← drainQ0 filter w.Q0size w
      let w ← drainQ1 filter w.Q1size w
      let w ← drainQ2 filter w.Q2size w
      peel filter fuel w
    else .ret w

/-- One pass of the body of the retry loop between the budget test and the
success test: accumulate, scan the three blocks, peel.  A round of the peel loop
takes at least one entry off a queue, and every entry was put there by the scan
(at most `3 * BlockLength`) or by a peeled key (two per key), which bounds the
rounds. -/
def attempt (filter : XorFilterCommon) (keys : List Nat) (w : work) : Outcome work := do
  let w ← accumulate filter keys w
  let (Q0, Q0size) ← scanCount w.Q0 w.sets0
  let (Q1, Q1size) ← scanCount w.Q1 w.sets1
  let (Q2, Q2size) ← scanCount w.Q2 w.sets2
  let w := { w with Q0 := Q0, Q0size := Q0size, Q1 := Q1, Q1size := Q1size,
                    Q2 := Q2, Q2size := Q2size, stacksize := 0 }
  peel filter (Q0size + Q1size + Q2size + 2 * keys.length) w

/-- Go `int` increment `iterations++` on a 64-bit two's-complement `int`. -/
def incInt (i : Int) : Int :=
  (i + 1 + 2 ^ 63) % 2 ^ 64 - 2 ^ 63

/-- The retry loop `for { ... }` of `populateCommon`, run for at most `fuel`
rounds.  It returns the stack or the error, the final seed and generator state,
and the working slices. -/
def retry (keys : List Nat) (maxIterations : Int) (BlockLength : Nat) :
    Nat → Int → Nat → Nat → work → Outcome (Except Error (List keyindex) × Nat × Nat × work)
  | 0, _, _, _, _ => .timeout
  | fuel + 1, iterations, Seed, rng, w =>
    let iterations := incInt iterations
    if iterations > maxIterations then
      .ret (.error .ErrTooManyIterations, Seed, rng, w)
    else
      (attempt { Seed := Seed, BlockLength := BlockLength } keys w).bind fun w =>
        if w.stacksize = keys.length then
          .ret (.ok w.stack, Seed, rng, w)
        else
          let w := { w with sets0 := resetSets w.sets0, sets1 := resetSets w.sets1,
                            sets2 := resetSets w.sets2 }
          let (Seed, rng) := splitmix64 rng
          retry keys maxIterations BlockLength fuel iterations Seed rng w

/-- Go `Builder.populateCommon`.  It returns the stack or the error, the filter
header with its final seed, and the builder as the call leaves it.  The retry
loop stops after `maxIterations` failed attempts, which bounds its rounds. -/
def populateCommon (bld : Builder) (keys : List Nat) (filter : XorFilterCommon) :
    Outcome (Except Error (List keyindex) × XorFilterCommon × Builder) :=
  let size := keys.length
  let rng := if bld.RandomNumberGeneratorSeed = 0 then 1 else bld.RandomNumberGeneratorSeed
  let (Seed, rng) := splitmix64 rng
  let w := getWork bld size filter.BlockLength
  let iterations : Int := 0
  let maxIterations := if bld.MaxIterations = 0 then DefaultMaxIterations else bld.MaxIterations
  (retry keys maxIterations filter.BlockLength (maxIterations.toNat + 1) iterations Seed rng w).bind
    fun (r, Seed, rng, w) =>
      .ret (r, { filter with Seed := Seed },
            { bld with kiStore := w.kiStore, setStore := w.setStore,
                       RandomNumberGeneratorSeed := rng })

/-! ### The capacity computation `32 + uint32(math.Ceil(1.23*float64(size)))`

A non-negative `float64` is a pair `(m, e)` standing for `m * 2^e` with
`m < 2^53`.  Only values between zero and `2^65` occur here, so neither
subnormal numbers nor overflow arise. -/

/-- The number of low bits that have to go for `m` to fit in 53 bits; the first
argument bounds the recursion. -/
def excessBits : Nat → Nat → Nat
  | 0, _ => 0
  | fuel + 1, m => if m < 2 ^ 53 then 0 else excessBits fuel (m / 2) + 1

/-- Round the exact value `m * 2^e` to the nearest `float64`, ties to even. -/
def roundF64 (m : Nat) (e : Int) : Nat × Int :=
  if m < 2 ^ 53 then (m, e)
  else
    let s := excessBits m m
    let q := m >>> s
    let r := m % 2 ^ s
    let half := 2 ^ (s - 1)
    let q := if r > half ∨ (r = half ∧ q % 2 = 1) then q + 1 else q
    (q, e + s)

/-- Go constant `1.23` as a `float64`: `0x3FF3AE147AE147AE`, that is
`0x13AE147AE147AE * 2^-52`. -/
def f64_1_23 : Nat × Int := (0x13AE147AE147AE, -52)

/-- Go `float64(size)` for a non-negative `int`. -/
def f64OfNat (size : Nat) : Nat × Int := roundF64 size 0

/-- Go `float64` multiplication: the exact product, rounded. -/
def f64Mul (x y : Nat × Int) : Nat × Int := roundF64 (x.1 * y.1) (x.2 + y.2)

/-- Go `math.Ceil` on a non-negative `float64`, as an integer. -/
def f64Ceil (x : Nat × Int) : Nat :=
  if 0 ≤ x.2 then x.1 * 2 ^ x.2.toNat
  else (x.1 + 2 ^ (-x.2).toNat - 1) / 2 ^ (-x.2).toNat

/-- The first two statements of Go `Builder.Populate`:
`capacity := 32 + uint32(math.Ceil(1.23*float64(size)))` followed by
`capacity = capacity / 3 * 3`, in `uint32` arithmetic.  The conversion of a
`float64` beyond the `uint32` range keeps the low 32 bits. -/
def capacityFor (size : Nat) : Nat :=
  let capacity := (32 + f64Ceil (f64Mul f64_1_23 (f64OfNat size)) % 2 ^ 32) % 2 ^ 32
  capacity / 3 * 3

/-- The body of the assignment loop of Go `Builder.Populate` for the stack entry
`ki`: read the two other slots, write the slot of `ki`. -/
def assignOne (filter : XorFilterCommon) (ki : keyindex) (Fingerprints : List Nat) :
    Outcome (List Nat) :=
  let val := fingerprint ki.hash % 2 ^ 8
  let i0 := geth0 filter ki.hash
  let i1 := (geth1 filter ki.hash + filter.BlockLength) % 2 ^ 32
  let i2 := (geth2 filter ki.hash + (2 * filter.BlockLength) % 2 ^ 32) % 2 ^ 32
  let other : Option Nat :=
    if ki.index < filter.BlockLength then
      match Fingerprints[i1]?, Fingerprints[i2]? with
      | some a, some b => some (a ^^^ b)
      | _, _ => none
    else if ki.index < (2 * filter.BlockLength) % 2 ^ 32 then
      match Fingerprints[i0]?, Fingerprints[i2]? with
      | some a, some b => some (a ^^^ b)
      | _, _ => none
    else
      match Fingerprints[i0]?, Fingerprints[i1]? with
      | some a, some b => some (a ^^^ b)
      | _, _ => none
  match other with
  | none => .panic
  | some o =>
    if ki.index < Fingerprints.length then .ret (Fingerprints.set ki.index (val ^^^ o))
    else .panic

/-- The assignment pass `for stacksize > 0 { stacksize--; ki := stack[stacksize]; ... }`
of Go `Builder.Populate`, for the current value of `stacksize`. -/
def assign (filter : XorFilterCommon) (stack : List keyindex) :
    Nat → List Nat → Outcome (List Nat)
  | 0, Fingerprints => .ret Fingerprints
  | stacksize + 1, Fingerprints =>
    match stack[stacksize]? with
    | none => .panic
    | some ki => (assignOne filter ki Fingerprints).bind (assign filter stack stacksize)

/-- Go `Builder.Populate`: the filter or the error, and the builder as the call
leaves it. -/
def Builder.Populate (bld : Builder) (keys : List Nat) : Outcome (Except Error Xor8 × Builder) :=
  let size := keys.length
  let capacity := capacityFor size
  let Fingerprints := List.replicate capacity 0
  let filter : XorFilterCommon := { Seed := 0, BlockLength := capacity / 3 }
  (populateCommon bld keys filter).bind fun (r, filter, bld) =>
    match r with
    | .error err => .ret (.error err, bld)
    | .ok stack =>
      (assign filter stack size Fingerprints).bind fun Fingerprints =>
        .ret (.ok { toXorFilterCommon := filter, Fingerprints := Fingerprints }, bld)

/-- Go package-level `Populate`: `var bld Builder; return bld.Populate(keys)`. -/
def Populate (keys : List Nat) : Outcome (Except Error Xor8) :=
  let bld : Builder :=
    { MaxIterations := 0, kiStore := [], setStore := [], RandomNumberGeneratorSeed := 0 }
  (bld.Populate keys).bind fun (r, _) => .ret r

/-! ## Specification-level vocabulary for the peeling proof -/

/-- The block-relative slot of digest `h` in block `b` (0, 1 or 2). -/
def slot (f : XorFilterCommon) : Nat → Nat → Nat
  | 0, h => geth0 f h
  | 1, h => geth1 f h
  | _, h => geth2 f h

/-- Accumulator slice of block `b`. -/
def work.sets (w : work) : Nat → List xorset
  | 0 => w.sets0
  | 1 => w.sets1
  | _ => w.sets2

/-- Pending queue of block `b`. -/
def work.Q (w : work) : Nat → List keyindex
  | 0 => w.Q0
  | 1 => w.Q1
  | _ => w.Q2

/-- Size of the pending queue of block `b`. -/
def work.Qsize (w : work) : Nat → Nat
  | 0 => w.Q0size
  | 1 => w.Q1size
  | _ => w.Q2size

/-- Update of the queue size of block `b`. -/
def work.setQsize (w : work) (n : Nat) : Nat → work
  | 0 => { w with Q0size := n }
  | 1 => { w with Q1size := n }
  | _ => { w with Q2size := n }

/-- Update of accumulators, queue and queue size of block `b`. -/
def work.setBlk (w : work) (s : List xorset) (q : List keyindex) (n : Nat) : Nat → work
  | 0 => { w with sets0 := s, Q0 := q, Q0size := n }
  | 1 => { w with sets1 := s, Q1 := q, Q1size := n }
  | _ => { w with sets2 := s, Q2 := q, Q2size := n }

/-- The index that the loop of block `b` puts on the stack for queue index `i`. -/
def homeIndex (f : XorFilterCommon) : Nat → Nat → Nat
  | 0, i => i
  | 1, i => (i + f.BlockLength) % 2 ^ 32
  | _, i => (i + (2 * f.BlockLength) % 2 ^ 32) % 2 ^ 32

/-- Push an entry on the construction stack. -/
def work.push (w : work) (e : keyindex) : work :=
  { w with stack := w.stack.set w.stacksize e, stacksize := w.stacksize + 1 }

/-- The common shape of `stepQ0`, `stepQ1` and `stepQ2`: block `b` is drained, the
key is removed from blocks `o1` and `o2`. -/
def stepGen (f : XorFilterCommon) (b o1 o2 : Nat) (w : work) : Outcome work :=
  match (w.Q b)[w.Qsize b - 1]? with
  | none => .panic
  | some q =>
    match (w.sets b)[q.index]? with
    | none => .panic
    | some s =>
      if s.count = 0 then .ret (w.setQsize (w.Qsize b - 1) b)
      else if w.stacksize < w.stack.length then
        (removeKey (w.sets o1) (w.Q o1) (w.Qsize o1) (slot f o1 q.hash) q.hash).bind fun r1 =>
        (removeKey (w.sets o2) (w.Q o2) (w.Qsize o2) (slot f o2 q.hash) q.hash).bind fun r2 =>
          .ret ((((w.setQsize (w.Qsize b - 1) b).push
                    { hash := q.hash, index := homeIndex f b q.index }).setBlk
                  r1.1 r1.2.1 r1.2.2 o1).setBlk r2.1 r2.2.1 r2.2.2 o2)
      else .panic

/-- The common shape of `drainQ0`, `drainQ1` and `drainQ2`. -/
def drainGen (f : XorFilterCommon) (b o1 o2 : Nat) : Nat → work → Outcome work
  | 0, w => if w.Qsize b > 0 then .timeout else .ret w
  | fuel + 1, w =>
    if w.Qsize b > 0 then (stepGen f b o1 o2 w).bind (drainGen f b o1 o2 fuel) else .ret w

/-- The three block orders that occur in the source. -/
def Triple (b o1 o2 : Nat) : Prop :=
  (b = 0 ∧ o1 = 1 ∧ o2 = 2) ∨ (b = 1 ∧ o1 = 0 ∧ o2 = 2) ∨ (b = 2 ∧ o1 = 0 ∧ o2 = 1)

/-- How many digests of `L` the slot function `g` sends to slot `i`. -/
def cnt (g : Nat → Nat) : List Nat → Nat → Nat
  | [], _ => 0
  | h :: L, i => (if g h = i then 1 else 0) + cnt g L i

/-- The XOR of the digests of `L` that `g` sends to slot `i`. -/
def msk (g : Nat → Nat) : List Nat → Nat → Nat
  | [], _ => 0
  | h :: L, i => (if g h = i then h else 0) ^^^ msk g L i

/-- The accumulator slice `sets` holds, slot by slot, the mask and count of `L`. -/
def SetsRep (B : Nat) (g : Nat → Nat) (L : List Nat) (sets : List xorset) : Prop :=
  sets.length = B ∧ ∀ i, i < B → sets[i]? = some { xormask := msk g L i, count := cnt g L i }

/-- Invariant of one block during peeling: `R` are the digests not yet peeled, `Pb`
the digests peeled through this block. -/
structure BlockInv (B : Nat) (g : Nat → Nat) (R Pb : List Nat) (sets : List xorset)
    (Q : List keyindex) (n : Nat) : Prop where
  rep : SetsRep B g (R ++ Pb) sets
  qlen : Q.length = B
  nle : n ≤ B
  nodup : ((Q.take n).map keyindex.index).Nodup
  qok : ∀ q ∈ Q.take n, q.index < B ∧ cnt g Pb q.index = 0 ∧ cnt g R q.index ≤ 1 ∧
    (cnt g R q.index = 1 → q.hash = msk g R q.index)
  excl : ∀ h ∈ R, cnt g Pb (g h) = 0

/-- The digests peeled through block `b`; `P` lists the peeled keys as pairs
(block, digest), most recent first. -/
def peeledIn (b : Nat) (P : List (Nat × Nat)) : List Nat :=
  (P.filter fun e => e.1 = b).map fun e => e.2

/-- The stack entry of a key peeled through block `e.1` with digest `e.2`. -/
def entry (f : XorFilterCommon) (e : Nat × Nat) : keyindex :=
  { hash := e.2, index := e.1 * f.BlockLength + slot f e.1 e.2 }

/-- Invariant of the peel loop for the digest list `H`. -/
structure Inv (f : XorFilterCommon) (H : List Nat) (w : work) (R : List Nat)
    (P : List (Nat × Nat)) : Prop where
  stackLen : w.stack.length = H.length
  stackSize : w.stacksize = P.length
  stackTake : w.stack.take w.stacksize = (P.map (entry f)).reverse
  perm : ((P.map fun e => e.2) ++ R).Perm H
  blk3 : ∀ e ∈ P, e.1 < 3
  ord : P.Pairwise fun e1 e2 => slot f e2.1 e1.2 ≠ slot f e2.1 e2.2
  blk : ∀ b, b < 3 →
    BlockInv f.BlockLength (slot f b) R (peeledIn b P) (w.sets b) (w.Q b) (w.Qsize b)

/-- The working slices at the start of an attempt: a stack of `n` entries, three
queues and three zeroed accumulator slices of `B` entries each. -/
def Shape (B n : Nat) (w : work) : Prop :=
  w.stack.length = n ∧
    ∀ b, b < 3 → (w.Q b).length = B ∧ w.sets b = List.replicate B xorset.zero

/-- The digests of the keys under a seed. -/
def digests (keys : List Nat) (Seed : Nat) : List Nat :=
  keys.map fun k => mixsplit k Seed

/-- What a successful attempt leaves on the stack: the entries of a peeling order
`P` (most recent first) of the digests `H`, in which the home slot of a key is not
among the slots of any key peeled after it. -/
def Peeled (f : XorFilterCommon) (H : List Nat) (stack : List keyindex) : Prop :=
  ∃ P : List (Nat × Nat), stack = (P.map (entry f)).reverse ∧
    (P.map fun e => e.2).Perm H ∧ (∀ e ∈ P, e.1 < 3) ∧
    P.Pairwise fun e1 e2 => slot f e2.1 e1.2 ≠ slot f e2.1 e2.2

/-- The assignment pass over a list of stack entries, first entry first. -/
def assignL (f : XorFilterCommon) : List keyindex → List Nat → Outcome (List Nat)
  | [], F => .ret F
  | ki :: rest, F => (assignOne f ki F).bind (assignL f rest)

/-- The slot of digest `h` in block `b`, as an index into `Fingerprints`. -/
def gslot (f : XorFilterCommon) (b h : Nat) : Nat :=
  b * f.BlockLength + slot f b h

/-- The fingerprint array answers "member" for the digest `h`: the XOR of its
three slots is the 8-bit fingerprint of `h`. -/
def Sat (f : XorFilterCommon) (F : List Nat) (h : Nat) : Prop :=
  F.getD (gslot f 0 h) 0 ^^^ F.getD (gslot f 1 h) 0 ^^^ F.getD (gslot f 2 h) 0 =
    fingerprint h % 2 ^ 8

instance (f : XorFilterCommon) (F : List Nat) (h : Nat) : Decidable (Sat f F h) := by
  unfold Sat
  infer_instance

/-- Two states of the working slices agree on everything the construction can
still read: the accumulators, the sizes, the lengths, the filled part of each
queue and the filled part of the stack. -/
structure Sim (w v : work) : Prop where
  stackLen : w.stack.length = v.stack.length
  stackSize : w.stacksize = v.stacksize
  stackTake : w.stack.take w.stacksize = v.stack.take v.stacksize
  blk : ∀ b, b < 3 → w.sets b = v.sets b ∧ w.Qsize b = v.Qsize b ∧
    (w.Q b).length = (v.Q b).length ∧ (w.Q b).take (w.Qsize b) = (v.Q b).take (v.Qsize b)

/-- Two states agree on what an attempt reads at its start: the accumulators and
the lengths of the stack and the queues. -/
def PreSim (w v : work) : Prop :=
  w.stack.length = v.stack.length ∧
    ∀ b, b < 3 → w.sets b = v.sets b ∧ (w.Q b).length = (v.Q b).length

/-- Two outcomes of a step on the working slices agree. -/
def OutSim : Outcome work → Outcome work → Prop
  | .ret w, .ret v => Sim w v
  | .panic, .panic => True
  | .timeout, .timeout => True
  | _, _ => False

/-- The state of the seed generator after `i` calls of `splitmix64` from `rng0`. -/
def rngState (rng0 : Nat) : Nat → Nat
  | 0 => rng0
  | i + 1 => (splitmix64 (rngState rng0 i)).2

/-- The `i`-th output `s_i` of `splitmix64` from the state `rng0`, for `i ≥ 1`. -/
def seedNo (rng0 : Nat) (i : Nat) : Nat :=
  (splitmix64 (rngState rng0 (i - 1))).1

/-- The retry budget of a builder: `DefaultMaxIterations` when the field is zero. -/
def Builder.budget (bld : Builder) : Int :=
  if bld.MaxIterations = 0 then DefaultMaxIterations else bld.MaxIterations

/-- The generator state a builder starts from: one when the field is zero. -/
def Builder.rng0 (bld : Builder) : Nat :=
  if bld.RandomNumberGeneratorSeed = 0 then 1 else bld.RandomNumberGeneratorSeed

/-- Freshly allocated working slices for `n` keys and block length `B`. -/
def freshWork (n B : Nat) : work :=
  getWork { MaxIterations := 0, kiStore := [], setStore := [], RandomNumberGeneratorSeed := 0 } n B

/-- The number of keys that one peeling attempt with the given seed places on the
stack, on fresh working slices. -/
def stackSizeOf (B : Nat) (keys : List Nat) (seed : Nat) : Outcome Nat :=
  (attempt { Seed := seed, BlockLength := B } keys (freshWork keys.length B)).bind
    fun w => .ret w.stacksize

/-- Two results of the retry loop agree: the same error, or stacks with the same
first `n` entries; the same seed and generator state. -/
def RetSim (n : Nat) :
    Outcome (Except Error (List keyindex) × Nat × Nat × work) →
    Outcome (Except Error (List keyindex) × Nat × Nat × work) → Prop
  | .ret (.error e1, S1, g1, _), .ret (.error e2, S2, g2, _) => e1 = e2 ∧ S1 = S2 ∧ g1 = g2
  | .ret (.ok s1, S1, g1, _), .ret (.ok s2, S2, g2, _) =>
    s1.take n = s2.take n ∧ S1 = S2 ∧ g1 = g2
  | .panic, .panic => True
  | .timeout, .timeout => True
  | _, _ => False

/-- What a caller observes of a call of `Builder.Populate`: the returned filter or
error and the seed state the builder is left with. -/
def observe (x : Outcome (Except Error Xor8 × Builder)) : Outcome (Except Error Xor8 × Nat) :=
  x.bind fun r => .ret (r.1, r.2.RandomNumberGeneratorSeed)

/-- What `Builder.Populate` returns to its caller: the filter or the error. -/
def returned (x : Outcome (Except Error Xor8 × Builder)) : Outcome (Except Error Xor8) :=
  x.bind fun r => .ret r.1

/-- One peeling attempt with the given seed places fewer keys on the stack than
there are keys. -/
def AttemptFails (B : Nat) (keys : List Nat) (seed : Nat) : Prop :=
  ∃ m, stackSizeOf B keys seed = .ret m ∧ m < keys.length

/-! ### The membership test as the specification words it

`digest XOR (digest >> 32)` truncated to eight bits; the digest, and the digest
rotated by 21 and by 42, each mapped to a block by `floor(value * blockLength /
2^32)` on its low 32 bits; block 1 offset by `blockLength`, block 2 by
`2 * blockLength`. -/

/-- The low 32 bits of a value. -/
def low32 (x : Nat) : Nat := x % 2 ^ 32

/-- The 64-bit value `d` rotated left by `c` bits, for `0 < c < 64`. -/
def rotl (d c : Nat) : Nat := (d * 2 ^ c) % 2 ^ 64 ||| d / 2 ^ (64 - c)

/-- The digest of a key under the stored seed. -/
def refDigest (filter : Xor8) (key : Nat) : Nat :=
  murmur64 ((key + filter.Seed) % 2 ^ 64)

/-- The probe into block 0. -/
def refIndex0 (filter : Xor8) (key : Nat) : Nat :=
  low32 (refDigest filter key) * filter.BlockLength / 2 ^ 32

/-- The probe into block 1. -/
def refIndex1 (filter : Xor8) (key : Nat) : Nat :=
  filter.BlockLength + low32 (rotl (refDigest filter key) 21) * filter.BlockLength / 2 ^ 32

/-- The probe into block 2. -/
def refIndex2 (filter : Xor8) (key : Nat) : Nat :=
  2 * filter.BlockLength + low32 (rotl (refDigest filter key) 42) * filter.BlockLength / 2 ^ 32

/-- The reference membership test. -/
def ContainsRef (filter : Xor8) (key : Nat) : Prop :=
  filter.Fingerprints.getD (refIndex0 filter key) 0 ^^^
      filter.Fingerprints.getD (refIndex1 filter key) 0 ^^^
      filter.Fingerprints.getD (refIndex2 filter key) 0 =
    (refDigest filter key ^^^ (refDigest filter key >>> 32)) % 2 ^ 8

instance (filter : Xor8) (key : Nat) : Decidable (ContainsRef filter key) := by
  unfold ContainsRef
  infer_instance

/-- A filter of three blocks of `2^31` slots whose third block holds ones: its
block-2 probes lie at and beyond index `2^32`. -/
def wideFilter : Xor8 :=
  { Seed := 0, BlockLength := 2147483648,
    Fingerprints := List.replicate 4294967296 0 ++ List.replicate 2147483648 1 }

/-- The filter that the package-level `Populate` builds from the keys 1 to 5. -/
def scenarioA : Xor8 :=
  { Seed := 10451216379200822465, BlockLength := 13,
    Fingerprints := [113, 198, 0, 0, 0, 0, 0, 0, 0, 184, 0, 0, 0, 0, 0, 0, 0, 0, 0, 0, 22,
      0, 0, 0, 0, 202, 0, 0, 0, 0, 0, 0, 0, 0, 0, 0, 0, 0, 0] }

/-- The filter that the package-level `Populate` builds from no keys. -/
def emptyFilter : Xor8 :=
  { Seed := 10451216379200822465, BlockLength := 10, Fingerprints := List.replicate 30 0 }

/-- The measure that bounds the rounds of the peel loop. -/
def potential (w : work) (n : Nat) : Nat :=
  w.Q0size + w.Q1size + w.Q2size + 2 * (n - w.stacksize)

/-! ## Vocabulary for the properties of digests, peeling order and resources -/

/-- The inverse of `murmur64` on 64-bit values: each xor-shift step of `murmur64`
is its own inverse, and the two multipliers are replaced by their inverses modulo
`2^64`, in the opposite order. -/
def murmur64Inv (h : Nat) : Nat :=
  let h := h ^^^ (h >>> 33)
  let h := (h * 0x9cb4b2f8129337db) % 2 ^ 64
  let h := h ^^^ (h >>> 33)
  let h := (h * 0x4f74430c22a54005) % 2 ^ 64
  let h := h ^^^ (h >>> 33)
  h

/-- The `uint64` keys for which `Contains` answers `true`. -/
def acceptedKeys (filter : Xor8) : Finset Nat :=
  (Finset.range (2 ^ 64)).filter fun k => Contains filter k = .ret true

/-- The digests `H` can be peeled: they can be listed in an order `O`, each with
one of its three blocks, so that no digest later in the order maps to the slot
that an earlier one has in its block. -/
def Peelable (f : XorFilterCommon) (H : List Nat) : Prop :=
  ∃ O : List (Nat × Nat), (O.map fun e => e.2).Perm H ∧ (∀ e ∈ O, e.1 < 3) ∧
    O.Pairwise fun e1 e2 => slot f e1.1 e2.2 ≠ slot f e1.1 e1.2

/-- Every slot of a block that exactly one remaining digest maps to is waiting in
the queue of the block. -/
def QFull (B : Nat) (g : Nat → Nat) (R : List Nat) (Q : List keyindex) (n : Nat) : Prop :=
  ∀ i, i < B → cnt g R i = 1 → ∃ q ∈ Q.take n, q.index = i

/-- The stack entry of a key peeled through block `e.1` with digest `e.2`, with
the `uint32` additions of the source. -/
def entryW (f : XorFilterCommon) (e : Nat × Nat) : keyindex :=
  { hash := e.2, index := homeIndex f e.1 (slot f e.1 e.2) }

/-- Invariant of the peel loop for the digest list `H`, for every `uint32` block
length: the facts of `Inv` and, in addition, that every slot with exactly one
remaining digest is in its queue. -/
structure InvW (f : XorFilterCommon) (H : List Nat) (w : work) (R : List Nat)
    (P : List (Nat × Nat)) : Prop where
  stackLen : w.stack.length = H.length
  stackSize : w.stacksize = P.length
  stackTake : w.stack.take w.stacksize = (P.map (entryW f)).reverse
  perm : ((P.map fun e => e.2) ++ R).Perm H
  blk3 : ∀ e ∈ P, e.1 < 3
  ord : P.Pairwise fun e1 e2 => slot f e2.1 e1.2 ≠ slot f e2.1 e2.2
  blk : ∀ b, b < 3 →
    BlockInv f.BlockLength (slot f b) R (peeledIn b P) (w.sets b) (w.Q b) (w.Qsize b)
  full : ∀ b, b < 3 → QFull f.BlockLength (slot f b) R (w.Q b) (w.Qsize b)

/-- The accesses of one block
`setsi[hi].xormask ^= hash; setsi[hi].count--; if setsi[hi].count == 1 { Qi[Qisize] ... }`
are in order: `hi` is an index of `setsi`, the count is at least one before the
decrement, and when the slot is enqueued the position `Qisize` is an index of
`Qi`.  Both slices have `B` entries. -/
def removeKeySafe (B : Nat) (setsi : List xorset) (Qi : List keyindex) (Qisize hi : Nat) : Prop :=
  setsi.length = B ∧ Qi.length = B ∧ hi < B ∧
    ∃ s, setsi[hi]? = some s ∧ 1 ≤ s.count ∧ (s.count = 2 → Qisize < B)

/-- The accesses of one iteration of the drain loop of block `b` are in order: the
queue entry read is within the queue, its index is within the accumulators, the
waiting slots of the queue are pairwise distinct and, when the key is peeled,
`stack[stacksize]` is within the stack of `n` entries and the two `removeKey`
blocks on the other blocks `o1` and `o2` are in order. -/
def stepSafe (f : XorFilterCommon) (n b o1 o2 : Nat) (w : work) : Prop :=
  w.stack.length = n ∧ (w.Q b).length = f.BlockLength ∧ (w.sets b).length = f.BlockLength ∧
    0 < w.Qsize b ∧ w.Qsize b ≤ f.BlockLength ∧
    (((w.Q b).take (w.Qsize b)).map keyindex.index).Nodup ∧
    ∃ q s, (w.Q b)[w.Qsize b - 1]? = some q ∧ q.index < f.BlockLength ∧
      (w.sets b)[q.index]? = some s ∧
      (s.count ≠ 0 → w.stacksize < n ∧
        removeKeySafe f.BlockLength (w.sets o1) (w.Q o1) (w.Qsize o1) (slot f o1 q.hash) ∧
        removeKeySafe f.BlockLength (w.sets o2) (w.Q o2) (w.Qsize o2) (slot f o2 q.hash))

/-- An entry `(b, w)` of a trace, the drain loop of block `b` starting an iteration
in state `w`, is in order. -/
def traceSafe (f : XorFilterCommon) (n : Nat) (e : Nat × work) : Prop :=
  ∃ o1 o2, Triple e.1 o1 o2 ∧ stepSafe f n e.1 o1 o2 e.2

/-- The states in which the iterations of the drain loop of block `b` start, in
order, each paired with `b`. -/
def drainGenTrace (f : XorFilterCommon) (b o1 o2 : Nat) : Nat → work → List (Nat × work)
  | 0, _ => []
  | fuel + 1, w =>
    if w.Qsize b > 0 then
      (b, w) :: match stepGen f b o1 o2 w with
                | .ret w1 => drainGenTrace f b o1 o2 fuel w1
                | _ => []
    else []

/-- The states in which the iterations of the three drain loops start during the
peel loop, in the order of execution: one entry for each dequeue. -/
def peelTrace (f : XorFilterCommon) : Nat → work → List (Nat × work)
  | 0, _ => []
  | fuel + 1, w =>
    if w.Q0size + w.Q1size + w.Q2size > 0 then
      drainGenTrace f 0 1 2 w.Q0size w ++
        match drainQ0 f w.Q0size w with
        | .ret w1 =>
          drainGenTrace f 1 0 2 w1.Q1size w1 ++
            match drainQ1 f w1.Q1size w1 with
            | .ret w2 =>
              drainGenTrace f 2 0 1 w2.Q2size w2 ++
                match drainQ2 f w2.Q2size w2 with
                | .ret w3 => peelTrace f fuel w3
                | _ => []
            | _ => []
        | _ => []
    else []

/-- The first part of an attempt: the accumulation pass and the three scans, up to
the start of the peel loop. -/
def scanned (filter : XorFilterCommon) (keys : List Nat) (w : work) : Outcome work := do
  let w ← accumulate filter keys w
  let (Q0, Q0size) ← scanCount w.Q0 w.sets0
  let (Q1, Q1size) ← scanCount w.Q1 w.sets1
  let (Q2, Q2size) ← scanCount w.Q2 w.sets2
  pure { w with Q0 := Q0, Q0size := Q0size, Q1 := Q1, Q1size := Q1size,
                Q2 := Q2, Q2size := Q2size, stacksize := 0 }

/-- The dequeues of one attempt: the states in which the iterations of the drain
loops start, in the order of execution. -/
def attemptTrace (filter : XorFilterCommon) (keys : List Nat) (w : work) : List (Nat × work) :=
  match scanned filter keys w with
  | .ret w => peelTrace filter (w.Q0size + w.Q1size + w.Q2size + 2 * keys.length) w
  | _ => []

/-- The slot that the iteration recorded by the trace entry `e` takes off its
queue: the block, and the index of the queue entry that the iteration reads. -/
def dequeued (e : Nat × work) : Nat × Nat :=
  (e.1, ((e.2.Q e.1).getD (e.2.Qsize e.1 - 1) keyindex.zero).index)

/-- The slots `D` (pairs of block and index) are out of play: the count of each is
at most one and none of them is waiting in its queue. -/
def Retired (w : work) (D : List (Nat × Nat)) : Prop :=
  ∀ d ∈ D, d.1 < 3 ∧ (∀ s, (w.sets d.1)[d.2]? = some s → s.count ≤ 1) ∧
    ∀ q ∈ (w.Q d.1).take (w.Qsize d.1), q.index ≠ d.2

/-- The slots of an accumulator slice that can still be enqueued: those with a
count of two or more. -/
def pending (setsi : List xorset) : Nat :=
  setsi.countP fun s => decide (2 ≤ s.count)

/-- A bound on the dequeues still to come: the entries waiting in the three queues
and the slots that can still be enqueued. -/
def dequeuesLeft (w : work) : Nat :=
  w.Q0size + w.Q1size + w.Q2size + (pending w.sets0 + pending w.sets1 + pending w.sets2)

/-- The accumulator slice after the two statements
`setsi[hi].xormask ^= h; setsi[hi].count++` with `hi` in range. -/
def bump (setsi : List xorset) (hi h : Nat) : List xorset :=
  setsi.set hi { xormask := (setsi.getD hi xorset.zero).xormask ^^^ h,
                 count := ((setsi.getD hi xorset.zero).count + 1) % 2 ^ 32 }

/-- The stack that `populateCommon` returns for the keys 1 and 2, from the zero
builder with block length 11. -/
def stackOfTwoKeys : List keyindex :=
  [⟨7639283029843589050, 9⟩, ⟨7178537244092407270, 0⟩]

/-- The builder that `populateCommon` leaves behind for the keys 1 and 2, from the
zero builder with block length 11. -/
def builderAfterTwoKeys : Builder :=
  { MaxIterations := 0
    kiStore := [⟨7639283029843589050, 9⟩, ⟨7178537244092407270, 0⟩,
        ⟨7178537244092407270, 0⟩, ⟨7639283029843589050, 9⟩] ++ List.replicate 9 ⟨0, 0⟩ ++
      [⟨7178537244092407270, 8⟩, ⟨7639283029843589050, 10⟩] ++ List.replicate 9 ⟨0, 0⟩ ++
      [⟨7639283029843589050, 0⟩, ⟨7178537244092407270, 5⟩] ++ List.replicate 9 ⟨0, 0⟩
    setStore := [⟨7178537244092407270, 1⟩] ++ List.replicate 8 ⟨0, 0⟩ ++
      [⟨7639283029843589050, 1⟩] ++ List.replicate 23 ⟨0, 0⟩
    RandomNumberGeneratorSeed := 11400714819323198486 }

@[simp] theorem Outcome.ret_bind {α β : Type} (a : α) (f : α → Outcome β) :
    (Outcome.ret a >>= f) = f a := rfl
@[simp] theorem Outcome.panic_bind {α β : Type} (f : α → Outcome β) :
    ((Outcome.panic : Outcome α) >>= f) = Outcome.panic := rfl
@[simp] theorem Outcome.timeout_bind {α β : Type} (f : α → Outcome β) :
    ((Outcome.timeout : Outcome α) >>= f) = Outcome.timeout := rfl
@[simp] theorem Outcome.pure_eq {α : Type} (a : α) : (pure a : Outcome α) = Outcome.ret a := rfl
@[simp] theorem Outcome.bind_ret_eq {α β : Type} (a : α) (f : α → Outcome β) :
    (Outcome.ret a).bind f = f a := rfl
@[simp] theorem Outcome.bind_panic_eq {α β : Type} (f : α → Outcome β) :
    (Outcome.panic : Outcome α).bind f = Outcome.panic := rfl
@[simp] theorem Outcome.bind_timeout_eq {α β : Type} (f : α → Outcome β) :
    (Outcome.timeout : Outcome α).bind f = Outcome.timeout := rfl

/-! ### Range reduction -/

theorem reduce_eq (hash n : Nat) (hh : hash < 2 ^ 32) (hn : n < 2 ^ 32) :
    reduce hash n = hash * n / 2 ^ 32 := by
  unfold reduce
  have h1 : hash * n < 2 ^ 64 := by
    calc hash * n < 2 ^ 32 * 2 ^ 32 := Nat.mul_lt_mul'' hh hn
      _ = 2 ^ 64 := by norm_num
  rw [Nat.mod_eq_of_lt h1, Nat.shiftRight_eq_div_pow]
  apply Nat.mod_eq_of_lt
  apply Nat.div_lt_of_lt_mul
  calc hash * n < 2 ^ 32 * 2 ^ 32 := Nat.mul_lt_mul'' hh hn
    _ = 2 ^ 32 * 2 ^ 32 := rfl

theorem reduce_lt (hash n : Nat) (hh : hash < 2 ^ 32) (hn : n < 2 ^ 32) (hpos : 0 < n) :
    reduce hash n < n := by
  rw [reduce_eq hash n hh hn]
  apply Nat.div_lt_of_lt_mul
  calc hash * n < 2 ^ 32 * n := Nat.mul_lt_mul_of_pos_right hh hpos

theorem slot_lt (f : XorFilterCommon) (b h : Nat) (hpos : 0 < f.BlockLength)
    (hB : f.BlockLength < 2 ^ 32) : slot f b h < f.BlockLength := by
  have hm : ∀ x : Nat, x % 2 ^ 32 < 2 ^ 32 := fun x => Nat.mod_lt _ (by norm_num)
  unfold slot
  split
  · exact reduce_lt _ _ (hm _) hB hpos
  · exact reduce_lt _ _ (hm _) hB hpos
  · exact reduce_lt _ _ (hm _) hB hpos

/-! ### Counts and masks -/

theorem cnt_append (g : Nat → Nat) (L1 L2 : List Nat) (i : Nat) :
    cnt g (L1 ++ L2) i = cnt g L1 i + cnt g L2 i := by
  induction L1 with
  | nil => simp [cnt]
  | cons h L ih => simp [cnt, ih, Nat.add_assoc]

theorem msk_append (g : Nat → Nat) (L1 L2 : List Nat) (i : Nat) :
    msk g (L1 ++ L2) i = msk g L1 i ^^^ msk g L2 i := by
  induction L1 with
  | nil => simp [msk]
  | cons h L ih => simp [msk, ih, Nat.xor_assoc]

theorem cnt_perm (g : Nat → Nat) {L1 L2 : List Nat} (p : L1.Perm L2) (i : Nat) :
    cnt g L1 i = cnt g L2 i := by
  induction p with
  | nil => rfl
  | cons x _ ih => simp [cnt, ih]
  | swap x y l => simp only [cnt]; omega
  | trans _ _ ih1 ih2 => exact ih1.trans ih2

theorem msk_perm (g : Nat → Nat) {L1 L2 : List Nat} (p : L1.Perm L2) (i : Nat) :
    msk g L1 i = msk g L2 i := by
  induction p with
  | nil => rfl
  | cons x _ ih => simp [msk, ih]
  | swap x y l =>
    simp only [msk]
    rw [← Nat.xor_assoc, ← Nat.xor_assoc, Nat.xor_comm (if g y = i then y else 0)]
  | trans _ _ ih1 ih2 => exact ih1.trans ih2

theorem cnt_le_length (g : Nat → Nat) (L : List Nat) (i : Nat) : cnt g L i ≤ L.length := by
  induction L with
  | nil => simp [cnt]
  | cons h L ih => simp only [cnt, List.length_cons]; split <;> omega

theorem cnt_eq_zero_iff (g : Nat → Nat) (L : List Nat) (i : Nat) :
    cnt g L i = 0 ↔ ∀ h ∈ L, g h ≠ i := by
  induction L with
  | nil => simp [cnt]
  | cons h L ih =>
    simp only [cnt, List.mem_cons, forall_eq_or_imp]
    constructor
    · intro hc
      by_cases hg : g h = i
      · simp [hg] at hc
      · simp only [hg, if_false, Nat.zero_add] at hc
        exact ⟨hg, ih.mp hc⟩
    · rintro ⟨hg, hr⟩
      simp [hg, ih.mpr hr]

theorem msk_eq_zero (g : Nat → Nat) (L : List Nat) (i : Nat) (hc : cnt g L i = 0) :
    msk g L i = 0 := by
  induction L with
  | nil => rfl
  | cons h L ih =>
    simp only [cnt] at hc
    by_cases hg : g h = i
    · simp [hg] at hc
    · simp only [hg, if_false, Nat.zero_add] at hc
      simp [msk, hg, ih hc]

theorem cnt_one (g : Nat → Nat) (L : List Nat) (i : Nat) (hc : cnt g L i = 1) :
    msk g L i ∈ L ∧ g (msk g L i) = i := by
  induction L with
  | nil => simp [cnt] at hc
  | cons h L ih =>
    simp only [cnt] at hc
    by_cases hg : g h = i
    · simp only [hg, if_true] at hc
      have h0 : cnt g L i = 0 := by omega
      simp [msk, hg, msk_eq_zero g L i h0]
    · simp only [hg, if_false, Nat.zero_add] at hc
      obtain ⟨h1, h2⟩ := ih hc
      simp only [msk, hg, if_false, Nat.zero_xor]
      exact ⟨List.mem_cons_of_mem _ h1, h2⟩

theorem cnt_cons_ne (g : Nat → Nat) (x : Nat) (L : List Nat) (i : Nat) (hne : g x ≠ i) :
    cnt g (x :: L) i = cnt g L i := by
  simp [cnt, hne]

theorem msk_cons_ne (g : Nat → Nat) (x : Nat) (L : List Nat) (i : Nat) (hne : g x ≠ i) :
    msk g (x :: L) i = msk g L i := by
  simp [msk, hne]

theorem cnt_cons_self (g : Nat → Nat) (x : Nat) (L : List Nat) :
    cnt g (x :: L) (g x) = 1 + cnt g L (g x) := by
  simp [cnt]

theorem msk_cons_self (g : Nat → Nat) (x : Nat) (L : List Nat) :
    msk g (x :: L) (g x) = x ^^^ msk g L (g x) := by
  simp [msk]

/-! ### Lists -/

theorem nodup_length_le (l : List Nat) (B : Nat) (hnd : l.Nodup) (hlt : ∀ x ∈ l, x < B) :
    l.length ≤ B := by
  have hsub : l.toFinset ⊆ Finset.range B := by
    intro x hx
    simp only [List.mem_toFinset] at hx
    simpa using hlt x hx
  have hc := Finset.card_le_card hsub
  rwa [List.toFinset_card_of_nodup hnd, Finset.card_range] at hc

theorem take_set_succ {α : Type} (l : List α) (n : Nat) (a : α) (h : n < l.length) :
    (l.set n a).take (n + 1) = l.take n ++ [a] := by
  induction l generalizing n with
  | nil => simp at h
  | cons x l ih =>
    cases n with
    | zero => simp
    | succ n =>
      simp only [List.length_cons, Nat.add_lt_add_iff_right] at h
      simp [ih n h]

theorem take_set_self {α : Type} (l : List α) (n : Nat) (a : α) :
    (l.set n a).take n = l.take n := by
  induction l generalizing n with
  | nil => simp
  | cons x l ih =>
    cases n with
    | zero => simp
    | succ n => simp [ih n]

theorem take_pred_append {α : Type} (l : List α) (n : Nat) (hn : 0 < n) (h : n ≤ l.length) :
    ∃ q, l[n - 1]? = some q ∧ l.take n = l.take (n - 1) ++ [q] := by
  obtain ⟨m, rfl⟩ : ∃ m, n = m + 1 := ⟨n - 1, by omega⟩
  have hm : m < l.length := by omega
  refine ⟨l[m], ?_, ?_⟩
  · simp [List.getElem?_eq_getElem hm]
  · rw [List.take_succ]
    simp [List.getElem?_eq_getElem hm]

/-! ### The block invariant -/

section Block

variable {B : Nat} {g : Nat → Nat} {R Pb : List Nat} {sets : List xorset}
  {Q : List keyindex} {n : Nat}

theorem BlockInv.top (inv : BlockInv B g R Pb sets Q n) (hn : 0 < n) :
    ∃ q, Q[n - 1]? = some q ∧ Q.take n = Q.take (n - 1) ++ [q] ∧ q ∈ Q.take n ∧
      ∀ q1 ∈ Q.take (n - 1), q1.index ≠ q.index := by
  obtain ⟨q, h1, h2⟩ := take_pred_append Q n hn (by rw [inv.qlen]; exact inv.nle)
  refine ⟨q, h1, h2, by simp [h2], ?_⟩
  have hnd := inv.nodup
  rw [h2, List.map_append, List.nodup_append] at hnd
  intro q1 hq1 heq
  exact hnd.2.2 (List.mem_map_of_mem _ hq1) (by simp [heq])

theorem BlockInv.pop (inv : BlockInv B g R Pb sets Q n) (hn : 0 < n) :
    BlockInv B g R Pb sets Q (n - 1) := by
  obtain ⟨q, _, h2, _, _⟩ := inv.top hn
  refine ⟨inv.rep, inv.qlen, by have := inv.nle; omega, ?_, ?_, inv.excl⟩
  · have hnd := inv.nodup
    rw [h2, List.map_append, List.nodup_append] at hnd
    exact hnd.1
  · intro q1 hq1
    exact inv.qok q1 (by rw [h2]; exact List.mem_append_left _ hq1)

theorem BlockInv.get (inv : BlockInv B g R Pb sets Q n) (i : Nat) (hi : i < B) :
    sets[i]? = some { xormask := msk g (R ++ Pb) i, count := cnt g (R ++ Pb) i } :=
  inv.rep.2 i hi

/-- Peeling the key at the top of the block's own queue. -/
theorem BlockInv.peel (inv : BlockInv B g R Pb sets Q n) (hn : 0 < n) (q : keyindex)
    (hq : Q[n - 1]? = some q) (hc : cnt g (R ++ Pb) q.index ≠ 0) :
    q.hash ∈ R ∧ g q.hash = q.index ∧ q.index < B ∧
      msk g (R ++ Pb) q.index = q.hash ∧ cnt g (R ++ Pb) q.index = 1 ∧
      BlockInv B g (R.erase q.hash) (q.hash :: Pb) sets Q (n - 1) := by
  obtain ⟨q0, h1, h2, h3, h4⟩ := inv.top hn
  rw [hq] at h1
  cases h1
  obtain ⟨hlt, hp0, hr1, hmask⟩ := inv.qok q h3
  have hcR : cnt g R q.index = 1 := by
    rw [cnt_append, hp0] at hc
    omega
  have hx := hmask hcR
  obtain ⟨hmem, hg⟩ := cnt_one g R q.index hcR
  rw [← hx] at hmem hg
  have hperm : R.Perm (q.hash :: R.erase q.hash) := List.perm_cons_erase hmem
  have hc0 : cnt g (R.erase q.hash) q.index = 0 := by
    have := cnt_perm g hperm q.index
    rw [hcR, ← hg, cnt_cons_self] at this
    rw [← hg]
    omega
  refine ⟨hmem, hg, hlt, ?_, ?_, ?_⟩
  · rw [msk_append, msk_eq_zero g Pb _ hp0, ← hx]
    simp
  · rw [cnt_append, hp0, hcR]
  · have hpop := inv.pop hn
    have hL : (R ++ Pb).Perm (R.erase q.hash ++ q.hash :: Pb) := by
      refine (hperm.append_right Pb).trans ?_
      simpa using (@List.perm_middle _ q.hash (R.erase q.hash) Pb).symm
    refine ⟨⟨inv.rep.1, ?_⟩, inv.qlen, hpop.nle, hpop.nodup, ?_, ?_⟩
    · intro i hi
      rw [inv.rep.2 i hi, msk_perm g hL, cnt_perm g hL]
    · intro q1 hq1
      have hne : q1.index ≠ q.index := h4 q1 hq1
      obtain ⟨a1, a2, a3, a4⟩ := hpop.qok q1 hq1
      have hne2 : g q.hash ≠ q1.index := by rw [hg]; exact fun h => hne h.symm
      have e1 : cnt g R q1.index = cnt g (R.erase q.hash) q1.index := by
        rw [cnt_perm g hperm, cnt_cons_ne g _ _ _ hne2]
      have e2 : msk g R q1.index = msk g (R.erase q.hash) q1.index := by
        rw [msk_perm g hperm, msk_cons_ne g _ _ _ hne2]
      refine ⟨a1, ?_, ?_, ?_⟩
      · rw [cnt_cons_ne g _ _ _ hne2]; exact a2
      · rw [← e1]; exact a3
      · rw [← e1, ← e2]; exact a4
    · intro h hh
      have hhR : h ∈ R := List.mem_of_mem_erase hh
      have hne : g q.hash ≠ g h := by
        intro heq
        have := (cnt_eq_zero_iff g _ _).mp hc0 h hh
        exact this (by rw [← heq, hg])
      rw [cnt_cons_ne g _ _ _ hne]
      exact inv.excl h hhR

/-- Removing a remaining key from one of the two blocks it was not peeled through. -/
theorem BlockInv.removeKey (inv : BlockInv B g R Pb sets Q n) (x : Nat) (hx : x ∈ R)
    (hgx : g x < B) (hlen : (R ++ Pb).length < 2 ^ 32) :
    ∃ sets1 Q1 n1, removeKey sets Q n (g x) x = .ret (sets1, Q1, n1) ∧
      BlockInv B g (R.erase x) Pb sets1 Q1 n1 ∧ n1 ≤ n + 1 ∧ Q1.length = Q.length := by
  have hperm : R.Perm (x :: R.erase x) := List.perm_cons_erase hx
  have hp0 : cnt g Pb (g x) = 0 := inv.excl x hx
  have hcR : cnt g R (g x) = 1 + cnt g (R.erase x) (g x) := by
    rw [cnt_perm g hperm, cnt_cons_self]
  have hmR : msk g R (g x) = x ^^^ msk g (R.erase x) (g x) := by
    rw [msk_perm g hperm, msk_cons_self]
  have hcL : cnt g (R ++ Pb) (g x) = 1 + cnt g (R.erase x ++ Pb) (g x) := by
    rw [cnt_append, cnt_append, hcR]; omega
  have hmL : msk g (R ++ Pb) (g x) ^^^ x = msk g (R.erase x ++ Pb) (g x) := by
    rw [msk_append, msk_append, hmR, msk_eq_zero g Pb _ hp0, Nat.xor_zero, Nat.xor_zero,
      Nat.xor_comm x, Nat.xor_assoc, Nat.xor_self, Nat.xor_zero]
  have hbound : cnt g (R ++ Pb) (g x) < 2 ^ 32 :=
    Nat.lt_of_le_of_lt (cnt_le_length g _ _) hlen
  have hdec : (cnt g (R ++ Pb) (g x) + (2 ^ 32 - 1)) % 2 ^ 32 = cnt g (R.erase x ++ Pb) (g x) := by
    rw [hcL] at hbound ⊢
    omega
  have hne_cnt : ∀ i, g x ≠ i → cnt g (R.erase x ++ Pb) i = cnt g (R ++ Pb) i := by
    intro i hi
    rw [cnt_append, cnt_append, cnt_perm g hperm, cnt_cons_ne g _ _ _ hi]
  have hne_msk : ∀ i, g x ≠ i → msk g (R.erase x ++ Pb) i = msk g (R ++ Pb) i := by
    intro i hi
    rw [msk_append, msk_append, msk_perm g hperm, msk_cons_ne g _ _ _ hi]
  have hneR_cnt : ∀ i, g x ≠ i → cnt g (R.erase x) i = cnt g R i := by
    intro i hi
    rw [cnt_perm g hperm, cnt_cons_ne g _ _ _ hi]
  have hneR_msk : ∀ i, g x ≠ i → msk g (R.erase x) i = msk g R i := by
    intro i hi
    rw [msk_perm g hperm, msk_cons_ne g _ _ _ hi]
  have hget := inv.get (g x) hgx
  have hgxs : g x < sets.length := by rw [inv.rep.1]; exact hgx
  have hrep : SetsRep B g (R.erase x ++ Pb)
      (sets.set (g x) { xormask := msk g (R.erase x ++ Pb) (g x),
                        count := cnt g (R.erase x ++ Pb) (g x) }) := by
    refine ⟨by rw [List.length_set]; exact inv.rep.1, ?_⟩
    intro i hi
    by_cases hij : g x = i
    · subst hij
      rw [List.getElem?_set_self hgxs]
    · rw [List.getElem?_set_ne hij, inv.rep.2 i hi, hne_cnt i hij, hne_msk i hij]
  have hexcl : ∀ h ∈ R.erase x, cnt g Pb (g h) = 0 :=
    fun h hh => inv.excl h (List.mem_of_mem_erase hh)
  have hold : ∀ q ∈ Q.take n, q.index < B ∧ cnt g Pb q.index = 0 ∧
      cnt g (R.erase x) q.index ≤ 1 ∧
      (cnt g (R.erase x) q.index = 1 → q.hash = msk g (R.erase x) q.index) := by
    intro q hq
    obtain ⟨a1, a2, a3, a4⟩ := inv.qok q hq
    by_cases hij : g x = q.index
    · rw [← hij] at a3 ⊢
      have h0 : cnt g (R.erase x) (g x) = 0 := by omega
      rw [← hij] at a1 a2
      exact ⟨a1, a2, by omega, fun h => by omega⟩
    · rw [hneR_cnt _ hij, hneR_msk _ hij]
      exact ⟨a1, a2, a3, a4⟩
  unfold XorFilter.removeKey
  rw [hget]
  simp only [hdec, hmL]
  by_cases hone : cnt g (R.erase x ++ Pb) (g x) = 1
  · have honeR : cnt g (R.erase x) (g x) = 1 := by
      rw [cnt_append, hp0] at hone; exact hone
    have hnotin : g x ∉ (Q.take n).map keyindex.index := by
      intro hmem
      obtain ⟨q, hq, hqi⟩ := List.mem_map.mp hmem
      have := (inv.qok q hq).2.2.1
      rw [hqi] at this
      omega
    have hlt : n < Q.length := by
      have hnd : (g x :: (Q.take n).map keyindex.index).Nodup :=
        List.nodup_cons.mpr ⟨hnotin, inv.nodup⟩
      have hall : ∀ i ∈ (g x :: (Q.take n).map keyindex.index), i < B := by
        intro i hi
        rcases List.mem_cons.mp hi with rfl | hi
        · exact hgx
        · obtain ⟨q, hq, rfl⟩ := List.mem_map.mp hi
          exact (inv.qok q hq).1
      have := nodup_length_le _ B hnd hall
      simp only [List.length_cons, List.length_map, List.length_take] at this
      rw [inv.qlen]
      have := inv.nle
      rw [inv.qlen] at *
      omega
    rw [if_pos hone, if_pos hlt]
    refine ⟨_, _, _, rfl, ?_, Nat.le_refl _, by rw [List.length_set]⟩
    have htake := take_set_succ Q n
      { hash := msk g (R.erase x ++ Pb) (g x), index := g x } hlt
    refine ⟨hrep, by rw [List.length_set]; exact inv.qlen, by rw [← inv.qlen]; omega, ?_, ?_, hexcl⟩
    · rw [htake, List.map_append, List.nodup_append]
      refine ⟨inv.nodup, by simp, ?_⟩
      intro a ha hb
      simp only [List.map_cons, List.map_nil, List.mem_singleton] at hb
      exact hnotin (hb ▸ ha)
    · intro q hq
      rw [htake] at hq
      rcases List.mem_append.mp hq with hq | hq
      · exact hold q hq
      · simp only [List.mem_singleton] at hq
        subst hq
        simp only []
        refine ⟨hgx, hp0, by omega, fun _ => ?_⟩
        rw [msk_append, msk_eq_zero g Pb _ hp0, Nat.xor_zero]
  · rw [if_neg hone]
    exact ⟨_, _, _, rfl, ⟨hrep, inv.qlen, inv.nle, inv.nodup, hold, hexcl⟩, by omega, rfl⟩

end Block

/-! ### The three loops have the common shape -/

set_option maxRecDepth 4000 in
theorem stepQ0_eq (f : XorFilterCommon) (w : work) : stepQ0 f w = stepGen f 0 1 2 w := by
  unfold stepQ0 stepGen
  simp only [work.Q, work.Qsize, work.sets, slot, homeIndex]
  cases h1 : w.Q0[w.Q0size - 1]? with
  | none => rfl
  | some q =>
    simp only []
    cases h2 : w.sets0[q.index]? with
    | none => rfl
    | some s =>
      simp only []
      split
      · rfl
      · split
        · cases h3 : removeKey w.sets1 w.Q1 w.Q1size (geth1 f q.hash) q.hash with
          | ret r1 =>
            obtain ⟨a, b, c⟩ := r1
            simp only [Outcome.ret_bind, Outcome.bind_ret_eq]
            cases h4 : removeKey w.sets2 w.Q2 w.Q2size (geth2 f q.hash) q.hash with
            | ret r2 =>
              obtain ⟨a2, b2, c2⟩ := r2
              rfl
            | panic => rfl
            | timeout => rfl
          | panic => rfl
          | timeout => rfl
        · rfl

set_option maxRecDepth 4000 in
theorem stepQ1_eq (f : XorFilterCommon) (w : work) : stepQ1 f w = stepGen f 1 0 2 w := by
  unfold stepQ1 stepGen
  simp only [work.Q, work.Qsize, work.sets, slot, homeIndex]
  cases h1 : w.Q1[w.Q1size - 1]? with
  | none => rfl
  | some q =>
    simp only []
    cases h2 : w.sets1[q.index]? with
    | none => rfl
    | some s =>
      simp only []
      split
      · rfl
      · split
        · cases h3 : removeKey w.sets0 w.Q0 w.Q0size (geth0 f q.hash) q.hash with
          | ret r1 =>
            obtain ⟨a, b, c⟩ := r1
            simp only [Outcome.ret_bind, Outcome.bind_ret_eq]
            cases h4 : removeKey w.sets2 w.Q2 w.Q2size (geth2 f q.hash) q.hash with
            | ret r2 =>
              obtain ⟨a2, b2, c2⟩ := r2
              rfl
            | panic => rfl
            | timeout => rfl
          | panic => rfl
          | timeout => rfl
        · rfl

set_option maxRecDepth 4000 in
theorem stepQ2_eq (f : XorFilterCommon) (w : work) : stepQ2 f w = stepGen f 2 0 1 w := by
  unfold stepQ2 stepGen
  simp only [work.Q, work.Qsize, work.sets, slot, homeIndex]
  cases h1 : w.Q2[w.Q2size - 1]? with
  | none => rfl
  | some q =>
    simp only []
    cases h2 : w.sets2[q.index]? with
    | none => rfl
    | some s =>
      simp only []
      split
      · rfl
      · split
        · cases h3 : removeKey w.sets0 w.Q0 w.Q0size (geth0 f q.hash) q.hash with
          | ret r1 =>
            obtain ⟨a, b, c⟩ := r1
            simp only [Outcome.ret_bind, Outcome.bind_ret_eq]
            cases h4 : removeKey w.sets1 w.Q1 w.Q1size (geth1 f q.hash) q.hash with
            | ret r2 =>
              obtain ⟨a2, b2, c2⟩ := r2
              rfl
            | panic => rfl
            | timeout => rfl
          | panic => rfl
          | timeout => rfl
        · rfl

/-! ### Frame facts for the block accessors -/

theorem Triple.facts {b o1 o2 : Nat} (t : Triple b o1 o2) :
    b < 3 ∧ o1 < 3 ∧ o2 < 3 ∧ b ≠ o1 ∧ b ≠ o2 ∧ o1 ≠ o2 ∧
      ∀ c, c < 3 → c = b ∨ c = o1 ∨ c = o2 := by
  rcases t with ⟨rfl, rfl, rfl⟩ | ⟨rfl, rfl, rfl⟩ | ⟨rfl, rfl, rfl⟩ <;>
    refine ⟨by omega, by omega, by omega, by omega, by omega, by omega, ?_⟩ <;>
    intro c hc <;> omega

theorem potential_eq (w : work) (n : Nat) {b o1 o2 : Nat} (t : Triple b o1 o2) :
    potential w n = w.Qsize b + w.Qsize o1 + w.Qsize o2 + 2 * (n - w.stacksize) := by
  rcases t with ⟨rfl, rfl, rfl⟩ | ⟨rfl, rfl, rfl⟩ | ⟨rfl, rfl, rfl⟩ <;>
    simp only [potential, work.Qsize] <;> omega

section Frame

variable (w : work) (s : List xorset) (q : List keyindex) (n : Nat) (e : keyindex)

@[simp] theorem setQsize_stack (b : Nat) : (w.setQsize n b).stack = w.stack := by
  unfold work.setQsize; split <;> rfl
@[simp] theorem setQsize_stacksize (b : Nat) : (w.setQsize n b).stacksize = w.stacksize := by
  unfold work.setQsize; split <;> rfl
@[simp] theorem setQsize_sets (b c : Nat) : (w.setQsize n b).sets c = w.sets c := by
  unfold work.setQsize work.sets; split <;> split <;> rfl
@[simp] theorem setQsize_Q (b c : Nat) : (w.setQsize n b).Q c = w.Q c := by
  unfold work.setQsize work.Q; split <;> split <;> rfl
theorem setQsize_Qsize_self (b : Nat) : (w.setQsize n b).Qsize b = n := by
  unfold work.setQsize work.Qsize; split <;> simp_all
theorem setQsize_Qsize_ne (b c : Nat) (hb : b < 3) (hc : c < 3) (hne : c ≠ b) :
    (w.setQsize n b).Qsize c = w.Qsize c := by
  interval_cases b <;> interval_cases c <;> simp_all [work.setQsize, work.Qsize]

@[simp] theorem setBlk_stack (b : Nat) : (w.setBlk s q n b).stack = w.stack := by
  unfold work.setBlk; split <;> rfl
@[simp] theorem setBlk_stacksize (b : Nat) : (w.setBlk s q n b).stacksize = w.stacksize := by
  unfold work.setBlk; split <;> rfl
theorem setBlk_self (b : Nat) :
    (w.setBlk s q n b).sets b = s ∧ (w.setBlk s q n b).Q b = q ∧
      (w.setBlk s q n b).Qsize b = n := by
  unfold work.setBlk work.sets work.Q work.Qsize; split <;> simp_all
theorem setBlk_ne (b c : Nat) (hb : b < 3) (hc : c < 3) (hne : c ≠ b) :
    (w.setBlk s q n b).sets c = w.sets c ∧ (w.setBlk s q n b).Q c = w.Q c ∧
      (w.setBlk s q n b).Qsize c = w.Qsize c := by
  interval_cases b <;> interval_cases c <;>
    simp_all [work.setBlk, work.sets, work.Q, work.Qsize]

@[simp] theorem push_stack : (w.push e).stack = w.stack.set w.stacksize e := rfl
@[simp] theorem push_stacksize : (w.push e).stacksize = w.stacksize + 1 := rfl
@[simp] theorem push_sets (c : Nat) : (w.push e).sets c = w.sets c := by
  unfold work.push work.sets; split <;> rfl
@[simp] theorem push_Q (c : Nat) : (w.push e).Q c = w.Q c := by
  unfold work.push work.Q; split <;> rfl
@[simp] theorem push_Qsize (c : Nat) : (w.push e).Qsize c = w.Qsize c := by
  unfold work.push work.Qsize; split <;> rfl

end Frame

theorem homeIndex_slot (f : XorFilterCommon) (b i : Nat) (hb : b < 3) (hi : i < f.BlockLength)
    (hB : 3 * f.BlockLength ≤ 2 ^ 32) : homeIndex f b i = b * f.BlockLength + i := by
  interval_cases b
  · simp [homeIndex]
  · simp only [homeIndex, Nat.one_mul]
    rw [Nat.mod_eq_of_lt (by omega)]; omega
  · simp only [homeIndex]
    rw [Nat.mod_eq_of_lt (a := 2 * f.BlockLength) (by omega), Nat.mod_eq_of_lt (by omega)]
    omega

theorem peeledIn_cons_self (b x : Nat) (P : List (Nat × Nat)) :
    peeledIn b ((b, x) :: P) = x :: peeledIn b P := by
  simp [peeledIn]

theorem peeledIn_cons_ne (b c x : Nat) (P : List (Nat × Nat)) (hne : b ≠ c) :
    peeledIn c ((b, x) :: P) = peeledIn c P := by
  simp [peeledIn, hne]

theorem mem_peeledIn (e : Nat × Nat) (P : List (Nat × Nat)) (he : e ∈ P) :
    e.2 ∈ peeledIn e.1 P := by
  simp only [peeledIn, List.mem_map, List.mem_filter, decide_eq_true_eq]
  exact ⟨e, ⟨he, rfl⟩, rfl⟩

theorem peeledIn_length_le (b : Nat) (P : List (Nat × Nat)) :
    (peeledIn b P).length ≤ P.length := by
  simp only [peeledIn, List.length_map]
  exact List.length_filter_le _ _

section Step

variable {f : XorFilterCommon} {H : List Nat} {w : work} {R : List Nat} {P : List (Nat × Nat)}

theorem Inv.length_eq (inv : Inv f H w R P) : P.length + R.length = H.length := by
  have := inv.perm.length_eq
  simpa using this

theorem Inv.len_bound (inv : Inv f H w R P) (b : Nat) :
    (R ++ peeledIn b P).length ≤ H.length := by
  have h1 := inv.length_eq
  have h2 := peeledIn_length_le b P
  simp only [List.length_append]
  omega

/-- One iteration of a drain loop keeps the invariant, takes one entry off the
drained queue and lowers the potential. -/
theorem stepGen_inv (hpos : 0 < f.BlockLength) (hB : 3 * f.BlockLength ≤ 2 ^ 32)
    (hH : H.length < 2 ^ 32) {b o1 o2 : Nat} (t : Triple b o1 o2)
    (inv : Inv f H w R P) (hq : 0 < w.Qsize b) :
    ∃ w1 R1 P1, stepGen f b o1 o2 w = .ret w1 ∧ Inv f H w1 R1 P1 ∧
      w1.Qsize b = w.Qsize b - 1 ∧ potential w1 H.length + 1 ≤ potential w H.length ∧
      w1.kiRest = w.kiRest ∧ w1.setRest = w.setRest := by
  obtain ⟨hb3, ho1, ho2, hbo1, hbo2, ho12, hall⟩ := t.facts
  have hBlt : f.BlockLength < 2 ^ 32 := by omega
  have invb := inv.blk b hb3
  obtain ⟨q, hqtop, _, hqmem, _⟩ := invb.top hq
  have hidx := (invb.qok q hqmem).1
  have hget := invb.get q.index hidx
  unfold stepGen
  rw [hqtop]
  simp only []
  rw [hget]
  simp only []
  by_cases hc : cnt (slot f b) (R ++ peeledIn b P) q.index = 0
  · rw [if_pos hc]
    refine ⟨_, R, P, rfl, ?_, setQsize_Qsize_self _ _ _, ?_, ?_, ?_⟩
    · refine ⟨by simpa using inv.stackLen, by simpa using inv.stackSize,
        by simpa using inv.stackTake, inv.perm, inv.blk3, inv.ord, ?_⟩
      intro c hc3
      by_cases hcb : c = b
      · subst hcb
        rw [setQsize_sets, setQsize_Q, setQsize_Qsize_self]
        exact invb.pop hq
      · rw [setQsize_sets, setQsize_Q, setQsize_Qsize_ne _ _ _ _ hb3 hc3 hcb]
        exact inv.blk c hc3
    · rw [potential_eq _ _ t, potential_eq w _ t, setQsize_Qsize_self,
        setQsize_Qsize_ne _ _ _ _ hb3 ho1 (Ne.symm hbo1),
        setQsize_Qsize_ne _ _ _ _ hb3 ho2 (Ne.symm hbo2), setQsize_stacksize]
      omega
    · unfold work.setQsize; split <;> rfl
    · unfold work.setQsize; split <;> rfl
  · rw [if_neg hc]
    obtain ⟨hxR, hgx, _, _, _, invb1⟩ := invb.peel hq q hqtop hc
    have hlenPR := inv.length_eq
    have hRpos : 0 < R.length := List.length_pos_of_mem hxR
    have hstk : w.stacksize < w.stack.length := by
      rw [inv.stackSize, inv.stackLen]; omega
    rw [if_pos hstk]
    -- the two other blocks
    have inv1 := inv.blk o1 ho1
    have inv2 := inv.blk o2 ho2
    obtain ⟨s1, q1, n1, hr1, binv1, hn1, _⟩ := inv1.removeKey q.hash hxR
      (slot_lt f o1 q.hash hpos hBlt) (Nat.lt_of_le_of_lt (inv.len_bound o1) hH)
    obtain ⟨s2, q2, n2, hr2, binv2, hn2, _⟩ := inv2.removeKey q.hash hxR
      (slot_lt f o2 q.hash hpos hBlt) (Nat.lt_of_le_of_lt (inv.len_bound o2) hH)
    rw [hr1, Outcome.bind_ret_eq, hr2, Outcome.bind_ret_eq]
    simp only []
    have hperm : R.Perm (q.hash :: R.erase q.hash) := List.perm_cons_erase hxR
    refine ⟨_, R.erase q.hash, (b, q.hash) :: P, rfl, ?_, ?_, ?_, ?_, ?_⟩
    · refine ⟨?_, ?_, ?_, ?_, ?_, ?_, ?_⟩
      · simpa using inv.stackLen
      · simpa using inv.stackSize
      · simp only [setBlk_stack, setBlk_stacksize, push_stack, push_stacksize, setQsize_stack,
          setQsize_stacksize]
        rw [take_set_succ _ _ _ hstk, inv.stackTake]
        simp only [List.map_cons, List.reverse_cons, entry]
        rw [homeIndex_slot f b q.index hb3 hidx hB, hgx]
      · simp only [List.map_cons, List.cons_append]
        refine List.Perm.trans ?_ inv.perm
        refine List.Perm.trans (@List.perm_middle _ q.hash (P.map fun e => e.2) (R.erase q.hash)).symm ?_
        exact List.Perm.append_left _ hperm.symm
      · intro e he
        rcases List.mem_cons.mp he with rfl | he
        · exact hb3
        · exact inv.blk3 e he
      · refine List.pairwise_cons.mpr ⟨?_, inv.ord⟩
        intro e he
        have h0 := (inv.blk e.1 (inv.blk3 e he)).excl q.hash hxR
        have := (cnt_eq_zero_iff _ _ _).mp h0 e.2 (mem_peeledIn e P he)
        exact fun heq => this heq.symm
      · intro c hc3
        rcases hall c hc3 with rfl | rfl | rfl
        · rw [(setBlk_ne _ _ _ _ _ _ ho2 hb3 hbo2).1, (setBlk_ne _ _ _ _ _ _ ho2 hb3 hbo2).2.1,
            (setBlk_ne _ _ _ _ _ _ ho2 hb3 hbo2).2.2,
            (setBlk_ne _ _ _ _ _ _ ho1 hb3 hbo1).1, (setBlk_ne _ _ _ _ _ _ ho1 hb3 hbo1).2.1,
            (setBlk_ne _ _ _ _ _ _ ho1 hb3 hbo1).2.2, push_sets, push_Q, push_Qsize,
            setQsize_sets, setQsize_Q, setQsize_Qsize_self, peeledIn_cons_self]
          exact invb1
        · rw [(setBlk_ne _ _ _ _ _ _ ho2 ho1 ho12).1, (setBlk_ne _ _ _ _ _ _ ho2 ho1 ho12).2.1,
            (setBlk_ne _ _ _ _ _ _ ho2 ho1 ho12).2.2,
            (setBlk_self _ _ _ _ _).1, (setBlk_self _ _ _ _ _).2.1, (setBlk_self _ _ _ _ _).2.2,
            peeledIn_cons_ne _ _ _ _ hbo1]
          exact binv1
        · rw [(setBlk_self _ _ _ _ _).1, (setBlk_self _ _ _ _ _).2.1, (setBlk_self _ _ _ _ _).2.2,
            peeledIn_cons_ne _ _ _ _ hbo2]
          exact binv2
    · rw [(setBlk_ne _ _ _ _ _ _ ho2 hb3 hbo2).2.2, (setBlk_ne _ _ _ _ _ _ ho1 hb3 hbo1).2.2,
        push_Qsize, setQsize_Qsize_self]
    · rw [potential_eq _ _ t, potential_eq w _ t]
      rw [(setBlk_ne _ _ _ _ _ _ ho2 hb3 hbo2).2.2, (setBlk_ne _ _ _ _ _ _ ho1 hb3 hbo1).2.2,
        push_Qsize, setQsize_Qsize_self,
        (setBlk_ne _ _ _ _ _ _ ho2 ho1 ho12).2.2, (setBlk_self _ _ _ _ _).2.2,
        (setBlk_self _ _ _ _ _).2.2]
      simp only [setBlk_stacksize, push_stacksize, setQsize_stacksize]
      have : w.stacksize < H.length := by rw [inv.stackSize]; omega
      omega
    · unfold work.setBlk work.push work.setQsize; split <;> split <;> split <;> rfl
    · unfold work.setBlk work.push work.setQsize; split <;> split <;> split <;> rfl

end Step

theorem drainQ0_eq (f : XorFilterCommon) (fuel : Nat) (w : work) :
    drainQ0 f fuel w = drainGen f 0 1 2 fuel w := by
  induction fuel generalizing w with
  | zero => rfl
  | succ n ih =>
    have hfun : drainQ0 f n = drainGen f 0 1 2 n := funext ih
    simp only [drainQ0, drainGen, stepQ0_eq, work.Qsize, hfun]

theorem drainQ1_eq (f : XorFilterCommon) (fuel : Nat) (w : work) :
    drainQ1 f fuel w = drainGen f 1 0 2 fuel w := by
  induction fuel generalizing w with
  | zero => rfl
  | succ n ih =>
    have hfun : drainQ1 f n = drainGen f 1 0 2 n := funext ih
    simp only [drainQ1, drainGen, stepQ1_eq, work.Qsize, hfun]

theorem drainQ2_eq (f : XorFilterCommon) (fuel : Nat) (w : work) :
    drainQ2 f fuel w = drainGen f 2 0 1 fuel w := by
  induction fuel generalizing w with
  | zero => rfl
  | succ n ih =>
    have hfun : drainQ2 f n = drainGen f 2 0 1 n := funext ih
    simp only [drainQ2, drainGen, stepQ2_eq, work.Qsize, hfun]

section Loops

variable {f : XorFilterCommon} {H : List Nat}

/-- A drain loop started with its queue size as bound empties its queue, keeps the
invariant and lowers the potential by the number of entries it took. -/
theorem drainGen_inv (hpos : 0 < f.BlockLength) (hB : 3 * f.BlockLength ≤ 2 ^ 32)
    (hH : H.length < 2 ^ 32) {b o1 o2 : Nat} (t : Triple b o1 o2) (fuel : Nat)
    {w : work} {R : List Nat} {P : List (Nat × Nat)}
    (inv : Inv f H w R P) (hq : w.Qsize b ≤ fuel) :
    ∃ w1 R1 P1, drainGen f b o1 o2 fuel w = .ret w1 ∧ Inv f H w1 R1 P1 ∧
      w1.Qsize b = 0 ∧ potential w1 H.length + w.Qsize b ≤ potential w H.length ∧
      (w.Qsize b = 0 → w1 = w) ∧
      w1.kiRest = w.kiRest ∧ w1.setRest = w.setRest := by
  induction fuel generalizing w R P with
  | zero =>
    have h0 : w.Qsize b = 0 := by omega
    refine ⟨w, R, P, ?_, inv, h0, by omega, fun _ => rfl, rfl, rfl⟩
    simp [drainGen, h0]
  | succ n ih =>
    by_cases h0 : w.Qsize b = 0
    · refine ⟨w, R, P, ?_, inv, h0, by omega, fun _ => rfl, rfl, rfl⟩
      simp [drainGen, h0]
    · have hq0 : 0 < w.Qsize b := Nat.pos_of_ne_zero h0
      obtain ⟨w1, R1, P1, hs, inv1, hqs, hpot, hk, hs2⟩ := stepGen_inv hpos hB hH t inv hq0
      obtain ⟨w2, R2, P2, hd, inv2, hq2, hpot2, _, hk2, hs3⟩ := ih inv1 (by omega)
      refine ⟨w2, R2, P2, ?_, inv2, hq2, by omega, fun h => absurd h h0,
        hk2.trans hk, hs3.trans hs2⟩
      simp only [drainGen, hq0, if_true, hs, Outcome.bind_ret_eq, hd]

/-- The peel loop, started with the potential as bound, ends with three empty
queues and keeps the invariant. -/
theorem peel_inv (hpos : 0 < f.BlockLength) (hB : 3 * f.BlockLength ≤ 2 ^ 32)
    (hH : H.length < 2 ^ 32) (fuel : Nat)
    {w : work} {R : List Nat} {P : List (Nat × Nat)}
    (inv : Inv f H w R P) (hfuel : potential w H.length ≤ fuel) :
    ∃ w1 R1 P1, peel f fuel w = .ret w1 ∧ Inv f H w1 R1 P1 ∧
      w1.Q0size + w1.Q1size + w1.Q2size = 0 ∧
      w1.kiRest = w.kiRest ∧ w1.setRest = w.setRest := by
  induction fuel generalizing w R P with
  | zero =>
    have h0 : w.Q0size + w.Q1size + w.Q2size = 0 := by
      simp only [potential] at hfuel; omega
    refine ⟨w, R, P, ?_, inv, h0, rfl, rfl⟩
    simp [peel, h0]
  | succ n ih =>
    by_cases h0 : w.Q0size + w.Q1size + w.Q2size = 0
    · refine ⟨w, R, P, ?_, inv, h0, rfl, rfl⟩
      simp [peel, h0]
    · have hsum : w.Q0size + w.Q1size + w.Q2size > 0 := Nat.pos_of_ne_zero h0
      obtain ⟨w1, R1, P1, hd1, inv1, _, hp1, he1, hk1, hs1⟩ :=
        drainGen_inv hpos hB hH (Or.inl ⟨rfl, rfl, rfl⟩) (w.Qsize 0) inv (Nat.le_refl _)
      obtain ⟨w2, R2, P2, hd2, inv2, _, hp2, he2, hk2, hs2⟩ :=
        drainGen_inv hpos hB hH (Or.inr (Or.inl ⟨rfl, rfl, rfl⟩)) (w1.Qsize 1) inv1 (Nat.le_refl _)
      obtain ⟨w3, R3, P3, hd3, inv3, _, hp3, he3, hk3, hs3⟩ :=
        drainGen_inv hpos hB hH (Or.inr (Or.inr ⟨rfl, rfl, rfl⟩)) (w2.Qsize 2) inv2 (Nat.le_refl _)
      have hdec : potential w3 H.length + 1 ≤ potential w H.length := by
        by_cases a0 : w.Qsize 0 = 0
        · have e1 := he1 a0
          subst e1
          by_cases a1 : w1.Qsize 1 = 0
          · have e2 := he2 a1
            subst e2
            have a2 : 0 < w2.Qsize 2 := by
              simp only [work.Qsize] at a0 a1 ⊢
              omega
            omega
          · omega
        · omega
      obtain ⟨w4, R4, P4, hp4, inv4, hz4, hk4, hs4⟩ := ih inv3 (by omega)
      refine ⟨w4, R4, P4, ?_, inv4, hz4, by rw [hk4, hk3, hk2, hk1],
        by rw [hs4, hs3, hs2, hs1]⟩
      simp only [work.Qsize] at hd1 hd2 hd3
      simp only [peel, hsum, if_true, drainQ0_eq, drainQ1_eq, drainQ2_eq, Outcome.ret_bind, hd1,
        hd2, hd3, hp4, bind_pure_comp]

end Loops

/-! ### Accumulation pass and scan -/

theorem SetsRep.perm {B : Nat} {g : Nat → Nat} {L1 L2 : List Nat} {sets : List xorset}
    (h : SetsRep B g L1 sets) (p : L1.Perm L2) : SetsRep B g L2 sets :=
  ⟨h.1, fun i hi => by rw [h.2 i hi, msk_perm g p, cnt_perm g p]⟩

theorem SetsRep.zero (B : Nat) (g : Nat → Nat) :
    SetsRep B g [] (List.replicate B xorset.zero) := by
  refine ⟨by simp, fun i hi => ?_⟩
  simp [List.getElem?_replicate, hi, xorset.zero, msk, cnt]

theorem addKey_spec {B : Nat} {g : Nat → Nat} {L : List Nat} {sets : List xorset}
    (h : SetsRep B g L sets) (x : Nat) (hx : g x < B) (hL : L.length + 1 < 2 ^ 32) :
    ∃ sets1, addKey sets (g x) x = .ret sets1 ∧ SetsRep B g (x :: L) sets1 := by
  unfold addKey
  rw [h.2 _ hx]
  refine ⟨_, rfl, by rw [List.length_set]; exact h.1, fun i hi => ?_⟩
  have hc := cnt_le_length g L (g x)
  by_cases hij : g x = i
  · subst hij
    simp only []
    rw [List.getElem?_set_self (by rw [h.1]; exact hx), cnt_cons_self, msk_cons_self,
      Nat.xor_comm, Nat.mod_eq_of_lt (by omega), Nat.add_comm]
  · rw [List.getElem?_set_ne hij, h.2 i hi, cnt_cons_ne g _ _ _ hij, msk_cons_ne g _ _ _ hij]

theorem geth0h1h2_eq (f : XorFilterCommon) (k : Nat) :
    geth0h1h2 f k = { h := mixsplit k f.Seed, h0 := slot f 0 (mixsplit k f.Seed),
                      h1 := slot f 1 (mixsplit k f.Seed), h2 := slot f 2 (mixsplit k f.Seed) } :=
  rfl

/-- The digests of the keys under the seed of `f`. -/
theorem accumulate_spec (f : XorFilterCommon) (hpos : 0 < f.BlockLength)
    (hB : f.BlockLength < 2 ^ 32) (keys : List Nat) (L : List Nat) (w : work)
    (hL : L.length + keys.length < 2 ^ 32)
    (hrep : ∀ b, b < 3 → SetsRep f.BlockLength (slot f b) L (w.sets b)) :
    ∃ w1, accumulate f keys w = .ret w1 ∧
      (∀ b, b < 3 → SetsRep f.BlockLength (slot f b)
        (keys.map (fun k => mixsplit k f.Seed) ++ L) (w1.sets b)) ∧
      w1.stack = w.stack ∧ w1.Q0 = w.Q0 ∧ w1.Q1 = w.Q1 ∧ w1.Q2 = w.Q2 ∧
      w1.kiRest = w.kiRest ∧ w1.setRest = w.setRest := by
  induction keys generalizing L w with
  | nil => exact ⟨w, rfl, by simpa using hrep, rfl, rfl, rfl, rfl, rfl, rfl⟩
  | cons k rest ih =>
    simp only [List.length_cons] at hL
    obtain ⟨s0, e0, r0⟩ := addKey_spec (hrep 0 (by omega)) (mixsplit k f.Seed)
      (slot_lt f 0 _ hpos hB) (by omega)
    obtain ⟨s1, e1, r1⟩ := addKey_spec (hrep 1 (by omega)) (mixsplit k f.Seed)
      (slot_lt f 1 _ hpos hB) (by omega)
    obtain ⟨s2, e2, r2⟩ := addKey_spec (hrep 2 (by omega)) (mixsplit k f.Seed)
      (slot_lt f 2 _ hpos hB) (by omega)
    simp only [work.sets] at e0 e1 e2
    obtain ⟨w1, hw1, hrep1, hst⟩ := ih (mixsplit k f.Seed :: L)
      { w with sets0 := s0, sets1 := s1, sets2 := s2 } (by simp only [List.length_cons]; omega)
      (by
        intro b hb
        interval_cases b
        · exact r0
        · exact r1
        · exact r2)
    refine ⟨w1, ?_, ?_, hst⟩
    · simp only [accumulate, geth0h1h2_eq, e0, e1, e2, Outcome.ret_bind, hw1]
    · intro b hb
      refine (hrep1 b hb).perm ?_
      simp only [List.map_cons, List.cons_append]
      exact List.perm_middle

theorem scanCountFrom_spec {B : Nat} {g : Nat → Nat} {R : List Nat} {sets : List xorset}
    (hrep : SetsRep B g R sets) (hB : B < 2 ^ 32) (pre suffix : List xorset)
    (hsets : sets = pre ++ suffix) (Q : List keyindex) (n : Nat) (hQ : Q.length = B)
    (hn : n ≤ pre.length) (hnd : ((Q.take n).map keyindex.index).Nodup)
    (hok : ∀ q ∈ Q.take n, q.index < pre.length ∧ cnt g R q.index ≤ 1 ∧
      (cnt g R q.index = 1 → q.hash = msk g R q.index)) :
    ∃ Q1 n1, scanCountFrom pre.length suffix Q n = .ret (Q1, n1) ∧
      BlockInv B g R [] sets Q1 n1 := by
  induction suffix generalizing pre Q n with
  | nil =>
    have hlen : pre.length = B := by rw [← hrep.1, hsets]; simp
    refine ⟨Q, n, rfl, ?_⟩
    refine ⟨by simpa using hrep, hQ, by omega, hnd, ?_, fun _ _ => rfl⟩
    intro q hq
    obtain ⟨a1, a2, a3⟩ := hok q hq
    exact ⟨by omega, rfl, a2, a3⟩
  | cons s rest ih =>
    have hlen : pre.length + (rest.length + 1) = B := by rw [← hrep.1, hsets]; simp
    have hi : pre.length < B := by omega
    have hs : sets[pre.length]? = some s := by
      rw [hsets, List.getElem?_append_right (Nat.le_refl _)]; simp
    have hs2 := hrep.2 _ hi
    rw [hs] at hs2
    have hs3 : s = { xormask := msk g R pre.length, count := cnt g R pre.length } :=
      Option.some.inj hs2
    have hsets2 : sets = (pre ++ [s]) ++ rest := by rw [hsets]; simp
    unfold scanCountFrom
    by_cases hc : s.count = 1
    · have hnQ : n < Q.length := by omega
      rw [if_pos hc, if_pos hnQ]
      have htake := take_set_succ Q n
        { hash := s.xormask, index := pre.length % 2 ^ 32 } hnQ
      have hmod : pre.length % 2 ^ 32 = pre.length := Nat.mod_eq_of_lt (by omega)
      have := ih (pre ++ [s]) hsets2 (Q.set n { hash := s.xormask, index := pre.length % 2 ^ 32 })
        (n + 1) (by rw [List.length_set]; exact hQ) (by simp; omega)
        (by
          rw [htake, List.map_append, List.nodup_append]
          refine ⟨hnd, by simp, ?_⟩
          intro a ha hb
          simp only [List.map_cons, List.map_nil, List.mem_singleton] at hb
          obtain ⟨q, hq, rfl⟩ := List.mem_map.mp ha
          have := (hok q hq).1
          omega)
        (by
          intro q hq
          rw [htake] at hq
          rcases List.mem_append.mp hq with hq | hq
          · obtain ⟨a1, a2, a3⟩ := hok q hq
            exact ⟨by simp; omega, a2, a3⟩
          · simp only [List.mem_singleton] at hq
            subst hq
            simp only [hmod]
            rw [hs3] at hc ⊢
            simp only [] at hc
            exact ⟨by simp, by omega, fun _ => rfl⟩)
      simpa using this
    · rw [if_neg hc]
      have := ih (pre ++ [s]) hsets2 Q n hQ (by simp; omega) hnd
        (by
          intro q hq
          obtain ⟨a1, a2, a3⟩ := hok q hq
          exact ⟨by simp; omega, a2, a3⟩)
      simpa using this

theorem scanCount_spec {B : Nat} {g : Nat → Nat} {R : List Nat} {sets : List xorset}
    (hrep : SetsRep B g R sets) (hB : B < 2 ^ 32) (Q : List keyindex) (hQ : Q.length = B) :
    ∃ Q1 n1, scanCount Q sets = .ret (Q1, n1) ∧ BlockInv B g R [] sets Q1 n1 := by
  have := scanCountFrom_spec hrep hB [] sets rfl Q 0 hQ (Nat.le_refl _) (by simp) (by simp)
  simpa [scanCount] using this

/-! ### One attempt -/

theorem Shape.of_getWork (bld : Builder) (n B : Nat) : Shape B n (getWork bld n B) := by
  have hki : ∀ (l : List keyindex) (tot : Nat),
      (zeroKiStore l tot).take tot = List.replicate tot keyindex.zero := by
    intro l tot
    unfold zeroKiStore
    split
    · simp
    · rw [List.take_append_of_le_length (by simp)]
      simp
  have hset : ∀ (l : List xorset) (tot : Nat),
      (zeroSetStore l tot).take tot = List.replicate tot xorset.zero := by
    intro l tot
    unfold zeroSetStore
    split
    · simp
    · rw [List.take_append_of_le_length (by simp)]
      simp
  have hkl : ∀ (l : List keyindex) (tot : Nat), tot ≤ (zeroKiStore l tot).length := by
    intro l tot
    have := congrArg List.length (hki l tot)
    simp only [List.length_take, List.length_replicate] at this
    omega
  have hsl : ∀ (l : List xorset) (tot : Nat), tot ≤ (zeroSetStore l tot).length := by
    intro l tot
    have := congrArg List.length (hset l tot)
    simp only [List.length_take, List.length_replicate] at this
    omega
  have hk := hkl bld.kiStore (n + B * 3)
  have hs := hsl bld.setStore (B * 3)
  have hsub : ∀ (a : Nat), a + B ≤ B * 3 →
      ((zeroSetStore bld.setStore (B * 3)).drop a).take B = List.replicate B xorset.zero := by
    intro a ha
    have h1 : ((zeroSetStore bld.setStore (B * 3)).drop a).take B =
        (((zeroSetStore bld.setStore (B * 3)).take (B * 3)).drop a).take B := by
      rw [List.drop_take, List.take_take]
      congr 1
      omega
    rw [h1, hset]
    simp only [List.drop_replicate, List.take_replicate]
    congr 1
    omega
  refine ⟨by simp only [getWork, List.length_take]; omega, ?_⟩
  intro b hb
  interval_cases b
  · refine ⟨by simp only [work.Q, getWork, List.length_take, List.length_drop]; omega, ?_⟩
    have := hsub 0 (by omega)
    simpa [work.sets, getWork] using this
  · refine ⟨by simp only [work.Q, getWork, List.length_take, List.length_drop]; omega, ?_⟩
    have := hsub B (by omega)
    simpa [work.sets, getWork] using this
  · refine ⟨by simp only [work.Q, getWork, List.length_take, List.length_drop]; omega, ?_⟩
    have := hsub (B + B) (by omega)
    simpa [work.sets, getWork] using this

section Attempt

variable {f : XorFilterCommon} {keys : List Nat} {w : work}

/-- An attempt on well-shaped working slices returns, with the peel invariant for
the digests of the keys and with three empty queues. -/
theorem attempt_spec (hpos : 0 < f.BlockLength) (hB : 3 * f.BlockLength ≤ 2 ^ 32)
    (hn : keys.length < 2 ^ 32) (hw : Shape f.BlockLength keys.length w) :
    ∃ w1 R P, attempt f keys w = .ret w1 ∧ Inv f (digests keys f.Seed) w1 R P ∧
      w1.Q0size + w1.Q1size + w1.Q2size = 0 ∧
      w1.kiRest = w.kiRest ∧ w1.setRest = w.setRest := by
  have hBlt : f.BlockLength < 2 ^ 32 := by omega
  have hHlen : (digests keys f.Seed).length = keys.length := by simp [digests]
  obtain ⟨wa, hacc, hrep, hst, hq0, hq1, hq2, hk, hs⟩ :=
    accumulate_spec f hpos hBlt keys [] w (by simpa using hn)
      (fun b hb => by rw [(hw.2 b hb).2]; exact SetsRep.zero _ _)
  have hrep1 : ∀ b, b < 3 → SetsRep f.BlockLength (slot f b) (digests keys f.Seed) (wa.sets b) :=
    fun b hb => by simpa [digests] using hrep b hb
  obtain ⟨Q0, n0, hs0, b0⟩ := scanCount_spec (hrep1 0 (by omega)) hBlt wa.Q0
    (by rw [hq0]; exact (hw.2 0 (by omega)).1)
  obtain ⟨Q1, n1, hs1, b1⟩ := scanCount_spec (hrep1 1 (by omega)) hBlt wa.Q1
    (by rw [hq1]; exact (hw.2 1 (by omega)).1)
  obtain ⟨Q2, n2, hs2, b2⟩ := scanCount_spec (hrep1 2 (by omega)) hBlt wa.Q2
    (by rw [hq2]; exact (hw.2 2 (by omega)).1)
  simp only [work.sets] at hs0 hs1 hs2 b0 b1 b2
  have inv0 : Inv f (digests keys f.Seed)
      { wa with Q0 := Q0, Q0size := n0, Q1 := Q1, Q1size := n1, Q2 := Q2, Q2size := n2,
                stacksize := 0 } (digests keys f.Seed) [] := by
    refine ⟨by simp only []; rw [hst, hw.1, hHlen], rfl, by simp, by simp, by simp,
      List.Pairwise.nil, ?_⟩
    intro b hb
    interval_cases b
    · exact b0
    · exact b1
    · exact b2
  obtain ⟨w1, R1, P1, hp, inv1, hz, hk1, hs1'⟩ :=
    peel_inv hpos hB (by rw [hHlen]; exact hn) (n0 + n1 + n2 + 2 * keys.length) inv0
      (by simp only [potential, hHlen]; omega)
  refine ⟨w1, R1, P1, ?_, inv1, hz, by rw [hk1]; exact hk, by rw [hs1']; exact hs⟩
  simp only [attempt, hacc, Outcome.ret_bind, hs0, hs1, hs2, hp]

end Attempt

theorem Inv.shape_after {f : XorFilterCommon} {H : List Nat} {w : work} {R : List Nat}
    {P : List (Nat × Nat)} (inv : Inv f H w R P) :
    Shape f.BlockLength H.length
      { w with sets0 := resetSets w.sets0, sets1 := resetSets w.sets1,
               sets2 := resetSets w.sets2 } := by
  have hr : ∀ (s : List xorset), s.length = f.BlockLength →
      resetSets s = List.replicate f.BlockLength xorset.zero := by
    intro s hs
    unfold resetSets
    rw [← hs]
    exact List.map_const' s xorset.zero
  refine ⟨inv.stackLen, ?_⟩
  intro b hb
  have hbi := inv.blk b hb
  interval_cases b
  · exact ⟨hbi.qlen, hr _ hbi.rep.1⟩
  · exact ⟨hbi.qlen, hr _ hbi.rep.1⟩
  · exact ⟨hbi.qlen, hr _ hbi.rep.1⟩

theorem Inv.peeled {f : XorFilterCommon} {H : List Nat} {w : work} {R : List Nat}
    {P : List (Nat × Nat)} (inv : Inv f H w R P) (hs : w.stacksize = H.length) :
    Peeled f H w.stack := by
  have hlen := inv.length_eq
  have hR : R = [] := by
    apply List.eq_nil_of_length_eq_zero
    have := inv.stackSize
    omega
  refine ⟨P, ?_, ?_, inv.blk3, inv.ord⟩
  · have := inv.stackTake
    rw [hs, ← inv.stackLen, List.take_length] at this
    exact this
  · have := inv.perm
    rw [hR] at this
    simpa using this

theorem Inv.hashes_nodup {f : XorFilterCommon} {H : List Nat} {w : work} {R : List Nat}
    {P : List (Nat × Nat)} (inv : Inv f H w R P) : (P.map fun e => e.2).Nodup := by
  unfold List.Nodup
  rw [List.pairwise_map]
  refine inv.ord.imp ?_
  intro a b hab heq
  exact hab (by rw [heq])

/-- With a repeated digest no attempt fills the stack. -/
theorem Inv.not_full_of_dup {f : XorFilterCommon} {H : List Nat} {w : work} {R : List Nat}
    {P : List (Nat × Nat)} (inv : Inv f H w R P) (hdup : ¬ H.Nodup) :
    w.stacksize ≠ H.length := by
  intro hs
  obtain ⟨P1, _, hperm, _, hord⟩ := inv.peeled hs
  apply hdup
  refine (List.Perm.nodup_iff hperm).mp ?_
  unfold List.Nodup
  rw [List.pairwise_map]
  refine hord.imp ?_
  intro a b hab heq
  exact hab (by rw [heq])

/-! ### The assignment pass -/

theorem assign_eq_assignL (f : XorFilterCommon) (stack : List keyindex) (k : Nat)
    (hk : k ≤ stack.length) (F : List Nat) :
    assign f stack k F = assignL f (stack.take k).reverse F := by
  induction k generalizing F with
  | zero => simp [assign, assignL]
  | succ n ih =>
    have hn : n < stack.length := by omega
    have hfun : assign f stack n = assignL f (stack.take n).reverse :=
      funext fun F => ih (by omega) F
    rw [List.take_succ, List.getElem?_eq_getElem hn]
    simp only [assign, List.getElem?_eq_getElem hn, Option.toList_some, List.reverse_append,
      List.reverse_cons, List.reverse_nil, List.nil_append, List.singleton_append, assignL, hfun]

section Slots

variable (f : XorFilterCommon) (hpos : 0 < f.BlockLength) (hB : 3 * f.BlockLength ≤ 2 ^ 32)
include hpos hB

theorem gslot_lt (b h : Nat) (hb : b < 3) : gslot f b h < 3 * f.BlockLength := by
  have := slot_lt f b h hpos (by omega)
  unfold gslot
  interval_cases b <;> omega

theorem gslot_inj (b c h k : Nat) (hb : b < 3) (hc : c < 3)
    (heq : gslot f b h = gslot f c k) : b = c ∧ slot f b h = slot f c k := by
  have h1 := slot_lt f b h hpos (by omega)
  have h2 := slot_lt f c k hpos (by omega)
  unfold gslot at heq
  interval_cases b <;> interval_cases c <;> omega

omit hpos hB in
theorem probe0 (h : Nat) : geth0 f h = gslot f 0 h := by
  simp [gslot, slot]

theorem probe1 (h : Nat) : (geth1 f h + f.BlockLength) % 2 ^ 32 = gslot f 1 h := by
  have := slot_lt f 1 h hpos (by omega)
  simp only [slot] at this
  simp only [gslot, slot, Nat.one_mul]
  rw [Nat.mod_eq_of_lt (by omega)]
  omega

theorem probe2 (h : Nat) :
    (geth2 f h + (2 * f.BlockLength) % 2 ^ 32) % 2 ^ 32 = gslot f 2 h := by
  have := slot_lt f 2 h hpos (by omega)
  simp only [slot] at this
  simp only [gslot, slot]
  rw [Nat.mod_eq_of_lt (a := 2 * f.BlockLength) (by omega), Nat.mod_eq_of_lt (by omega)]
  omega

theorem probe2a (h : Nat) : (geth2 f h + 2 * f.BlockLength) % 2 ^ 32 = gslot f 2 h := by
  have := probe2 f hpos hB h
  rwa [Nat.mod_eq_of_lt (a := 2 * f.BlockLength) (by omega)] at this

end Slots

theorem getD_set_self (F : List Nat) (i v : Nat) (hi : i < F.length) :
    (F.set i v).getD i 0 = v := by
  simp [List.getD_eq_getElem?_getD, hi]

theorem getD_set_ne (F : List Nat) (i j v : Nat) (hne : i ≠ j) :
    (F.set i v).getD j 0 = F.getD j 0 := by
  simp [List.getD_eq_getElem?_getD, List.getElem?_set_ne hne]

theorem getElem?_eq_some_getD (F : List Nat) (i : Nat) (hi : i < F.length) :
    F[i]? = some (F.getD i 0) := by
  simp [List.getD_eq_getElem?_getD, hi]

/-- Writing a slot that is none of the three slots of `h` keeps the answer for `h`. -/
theorem Sat.set {f : XorFilterCommon} {F : List Nat} {h : Nat} (hs : Sat f F h) (i v : Nat)
    (h0 : i ≠ gslot f 0 h) (h1 : i ≠ gslot f 1 h) (h2 : i ≠ gslot f 2 h) :
    Sat f (F.set i v) h := by
  unfold Sat at hs ⊢
  rw [getD_set_ne F i _ v h0, getD_set_ne F i _ v h1, getD_set_ne F i _ v h2]
  exact hs

theorem xor3_a (a b c : Nat) : (a ^^^ (b ^^^ c)) ^^^ b ^^^ c = a := by
  rw [Nat.xor_assoc, Nat.xor_assoc, Nat.xor_self, Nat.xor_zero]

theorem xor3_b (a b c : Nat) : b ^^^ (a ^^^ (b ^^^ c)) ^^^ c = a := by
  rw [Nat.xor_comm b, xor3_a]

theorem xor3_c (a b c : Nat) : b ^^^ c ^^^ (a ^^^ (b ^^^ c)) = a := by
  rw [Nat.xor_comm, ← Nat.xor_assoc]
  exact xor3_a a b c

/-- The loop body for the entry of a key peeled through block `b`: it writes the
home slot of the key and makes the array answer "member" for it. -/
theorem assignOne_spec (f : XorFilterCommon) (hpos : 0 < f.BlockLength)
    (hB : 3 * f.BlockLength ≤ 2 ^ 32) (b h : Nat) (hb : b < 3) (F : List Nat)
    (hF : F.length = 3 * f.BlockLength) :
    ∃ v, assignOne f (entry f (b, h)) F = .ret (F.set (gslot f b h) v) ∧
      Sat f (F.set (gslot f b h) v) h := by
  have l0 := gslot_lt f hpos hB 0 h (by omega)
  have l1 := gslot_lt f hpos hB 1 h (by omega)
  have l2 := gslot_lt f hpos hB 2 h (by omega)
  have s0 := slot_lt f 0 h hpos (by omega)
  have s1 := slot_lt f 1 h hpos (by omega)
  have s2 := slot_lt f 2 h hpos (by omega)
  have e0 := getElem?_eq_some_getD F _ (by rw [hF]; exact l0)
  have e1 := getElem?_eq_some_getD F _ (by rw [hF]; exact l1)
  have e2 := getElem?_eq_some_getD F _ (by rw [hF]; exact l2)
  have n01 : gslot f 0 h ≠ gslot f 1 h := fun e => by
    have := (gslot_inj f hpos hB 0 1 h h (by omega) (by omega) e).1; omega
  have n02 : gslot f 0 h ≠ gslot f 2 h := fun e => by
    have := (gslot_inj f hpos hB 0 2 h h (by omega) (by omega) e).1; omega
  have n12 : gslot f 1 h ≠ gslot f 2 h := fun e => by
    have := (gslot_inj f hpos hB 1 2 h h (by omega) (by omega) e).1; omega
  have m2 : (2 * f.BlockLength) % 2 ^ 32 = 2 * f.BlockLength := Nat.mod_eq_of_lt (by omega)
  have hg : b * f.BlockLength + slot f b h = gslot f b h := rfl
  unfold assignOne
  simp only [entry, hg, probe0 f, probe1 f hpos hB, m2, probe2a f hpos hB, e0, e1, e2]
  interval_cases b
  · have c1 : gslot f 0 h < f.BlockLength := by unfold gslot; omega
    have c3 : gslot f 0 h < F.length := by omega
    simp only [c1, c3, if_true]
    refine ⟨_, rfl, ?_⟩
    unfold Sat
    rw [getD_set_self F _ _ (by omega), getD_set_ne F _ _ _ n01, getD_set_ne F _ _ _ n02]
    exact xor3_a _ _ _
  · have c1 : ¬ (gslot f 1 h < f.BlockLength) := by unfold gslot; omega
    have c2 : gslot f 1 h < 2 * f.BlockLength := by unfold gslot; omega
    have c3 : gslot f 1 h < F.length := by omega
    simp only [c1, c2, c3, if_true, if_false]
    refine ⟨_, rfl, ?_⟩
    unfold Sat
    rw [getD_set_self F _ _ (by omega), getD_set_ne F _ _ _ n01.symm,
      getD_set_ne F _ _ _ n12]
    exact xor3_b _ _ _
  · have c1 : ¬ (gslot f 2 h < f.BlockLength) := by unfold gslot; omega
    have c2 : ¬ (gslot f 2 h < 2 * f.BlockLength) := by unfold gslot; omega
    have c3 : gslot f 2 h < F.length := by omega
    simp only [c1, c2, c3, if_true, if_false]
    refine ⟨_, rfl, ?_⟩
    unfold Sat
    rw [getD_set_self F _ _ (by omega), getD_set_ne F _ _ _ n02.symm,
      getD_set_ne F _ _ _ n12.symm]
    exact xor3_c _ _ _

/-- The assignment pass over a peeling order: afterwards the array answers "member"
for every digest of the order and for every digest settled before. -/
theorem assignL_spec (f : XorFilterCommon) (hpos : 0 < f.BlockLength)
    (hB : 3 * f.BlockLength ≤ 2 ^ 32) (todo : List (Nat × Nat)) (done : List Nat)
    (F : List Nat) (hF : F.length = 3 * f.BlockLength)
    (hb : ∀ e ∈ todo, e.1 < 3)
    (hord : todo.Pairwise fun e1 e2 => slot f e2.1 e1.2 ≠ slot f e2.1 e2.2)
    (hdone : ∀ d ∈ done, Sat f F d)
    (hsep : ∀ d ∈ done, ∀ e ∈ todo, slot f e.1 d ≠ slot f e.1 e.2) :
    ∃ F1, assignL f (todo.map (entry f)) F = .ret F1 ∧ F1.length = 3 * f.BlockLength ∧
      (∀ d ∈ done, Sat f F1 d) ∧ ∀ e ∈ todo, Sat f F1 e.2 := by
  induction todo generalizing done F with
  | nil => exact ⟨F, rfl, hF, hdone, by simp⟩
  | cons e rest ih =>
    obtain ⟨b, h⟩ := e
    have hb3 : b < 3 := hb (b, h) (List.mem_cons_self _ _)
    obtain ⟨v, hv, hsat⟩ := assignOne_spec f hpos hB b h hb3 F hF
    rw [List.pairwise_cons] at hord
    have hkeep : ∀ d, slot f b d ≠ slot f b h → Sat f F d →
        Sat f (F.set (gslot f b h) v) d := by
      intro d hne hs
      refine hs.set _ _ ?_ ?_ ?_ <;>
      · intro heq
        have := gslot_inj f hpos hB _ _ _ _ hb3 (by omega) heq
        obtain ⟨rfl, h2⟩ := this
        exact hne h2.symm
    obtain ⟨F1, hF1, hlen, hd1, hr1⟩ := ih (h :: done) (F.set (gslot f b h) v)
      (by rw [List.length_set]; exact hF)
      (fun e he => hb e (List.mem_cons_of_mem _ he)) hord.2
      (by
        intro d hd
        rcases List.mem_cons.mp hd with rfl | hd
        · exact hsat
        · exact hkeep d (hsep d hd (b, h) (List.mem_cons_self _ _)) (hdone d hd))
      (by
        intro d hd e he
        rcases List.mem_cons.mp hd with rfl | hd
        · exact hord.1 e he
        · exact hsep d hd e (List.mem_cons_of_mem _ he))
    refine ⟨F1, ?_, hlen, fun d hd => hd1 d (List.mem_cons_of_mem _ hd), ?_⟩
    · simp only [List.map_cons, assignL, hv, Outcome.bind_ret_eq, hF1]
    · intro e he
      rcases List.mem_cons.mp he with rfl | he
      · exact hd1 h (List.mem_cons_self _ _)
      · exact hr1 e he

/-- The assignment pass on the stack of a successful attempt. -/
theorem assign_peeled (f : XorFilterCommon) (hpos : 0 < f.BlockLength)
    (hB : 3 * f.BlockLength ≤ 2 ^ 32) (H : List Nat) (stack : List keyindex)
    (hp : Peeled f H stack) (F : List Nat) (hF : F.length = 3 * f.BlockLength) :
    ∃ F1, assign f stack H.length F = .ret F1 ∧ F1.length = 3 * f.BlockLength ∧
      ∀ h ∈ H, Sat f F1 h := by
  obtain ⟨P, hst, hperm, hb, hord⟩ := hp
  have hlen : stack.length = H.length := by
    rw [hst, List.length_reverse, List.length_map, ← hperm.length_eq, List.length_map]
  obtain ⟨F1, h1, h2, _, h4⟩ := assignL_spec f hpos hB P [] F hF hb hord (by simp) (by simp)
  refine ⟨F1, ?_, h2, ?_⟩
  · rw [assign_eq_assignL f stack _ (by omega), ← hlen, List.take_length, hst,
      List.reverse_reverse]
    exact h1
  · intro h hh
    have := hperm.mem_iff.mpr hh
    obtain ⟨e, he, rfl⟩ := List.mem_map.mp this
    exact h4 e he

/-- On an array of `3 * BlockLength` entries `Contains` returns, and its answer is
whether the array satisfies the membership equation of the digest. -/
theorem Contains_eq (filter : Xor8) (hpos : 0 < filter.BlockLength)
    (hB : 3 * filter.BlockLength ≤ 2 ^ 32)
    (hF : filter.Fingerprints.length = 3 * filter.BlockLength) (key : Nat) :
    Contains filter key = .ret (decide (Sat filter.toXorFilterCommon filter.Fingerprints
      (mixsplit key filter.Seed))) := by
  have l0 := gslot_lt filter.toXorFilterCommon hpos hB 0 (mixsplit key filter.Seed) (by omega)
  have l1 := gslot_lt filter.toXorFilterCommon hpos hB 1 (mixsplit key filter.Seed) (by omega)
  have l2 := gslot_lt filter.toXorFilterCommon hpos hB 2 (mixsplit key filter.Seed) (by omega)
  have e0 := getElem?_eq_some_getD filter.Fingerprints _ (by rw [hF]; exact l0)
  have e1 := getElem?_eq_some_getD filter.Fingerprints _ (by rw [hF]; exact l1)
  have e2 := getElem?_eq_some_getD filter.Fingerprints _ (by rw [hF]; exact l2)
  have p0 := probe0 filter.toXorFilterCommon (mixsplit key filter.Seed)
  have p1 := probe1 filter.toXorFilterCommon hpos hB (mixsplit key filter.Seed)
  have p2 := probe2 filter.toXorFilterCommon hpos hB (mixsplit key filter.Seed)
  simp only [geth0, geth1, geth2] at p0 p1 p2
  unfold Contains
  simp only [p0, p1, p2, e0, e1, e2, Sat]
  congr 1
  simp only [decide_eq_decide]
  exact ⟨fun h => h.symm, fun h => h.symm⟩

/-! ### The retry loop and `Populate`: what a returned filter satisfies -/

theorem digests_length (keys : List Nat) (Seed : Nat) :
    (digests keys Seed).length = keys.length := by
  simp [digests]

/-- Whatever stack the retry loop returns comes from a successful attempt under the
seed it returns. -/
theorem retry_ok (keys : List Nat) (M : Int) (B : Nat) (hpos : 0 < B) (hB : 3 * B ≤ 2 ^ 32)
    (hn : keys.length < 2 ^ 32) (fuel : Nat) (it : Int) (Seed rng : Nat) (w : work)
    (hw : Shape B keys.length w) (stack : List keyindex) (S g : Nat) (w1 : work)
    (h : retry keys M B fuel it Seed rng w = .ret (.ok stack, S, g, w1)) :
    Peeled { Seed := S, BlockLength := B } (digests keys S) stack := by
  induction fuel generalizing it Seed rng w with
  | zero => simp [retry] at h
  | succ n ih =>
    unfold retry at h
    simp only [] at h
    split at h
    · simp at h
    · obtain ⟨wa, R, P, ha, inv, _, _, _⟩ :=
        @attempt_spec { Seed := Seed, BlockLength := B } keys w hpos hB hn hw
      rw [ha, Outcome.bind_ret_eq] at h
      split at h
      · rename_i hfull
        simp only [Outcome.ret.injEq, Prod.mk.injEq, Except.ok.injEq] at h
        obtain ⟨rfl, rfl, rfl, rfl⟩ := h
        exact inv.peeled (by rw [digests_length]; exact hfull)
      · have hsh := inv.shape_after
        rw [digests_length] at hsh
        exact ih _ _ _ _ hsh h

/-- With an empty block the first key already indexes out of range. -/
theorem attempt_panic (f : XorFilterCommon) (k : Nat)
    (rest : List Nat) (w : work) (hw : w.sets0 = []) : attempt f (k :: rest) w = .panic := by
  simp [attempt, accumulate, addKey, hw]

theorem retry_zero (keys : List Nat) (hk : keys ≠ []) (M : Int) (fuel : Nat) (it : Int)
    (Seed rng : Nat) (w : work) (hw : w.sets0 = []) (stack : List keyindex) (S g : Nat)
    (w1 : work) : retry keys M 0 fuel it Seed rng w ≠ .ret (.ok stack, S, g, w1) := by
  obtain ⟨k, rest, rfl⟩ := List.exists_cons_of_ne_nil hk
  cases fuel with
  | zero => simp [retry]
  | succ n =>
    unfold retry
    simp only []
    split
    · simp
    · rw [attempt_panic _ k rest w hw]
      simp

theorem capacityFor_lt (n : Nat) : capacityFor n < 2 ^ 32 := by
  unfold capacityFor
  simp only []
  have h : (32 + f64Ceil (f64Mul f64_1_23 (f64OfNat n)) % 2 ^ 32) % 2 ^ 32 < 2 ^ 32 :=
    Nat.mod_lt _ (by norm_num)
  omega

theorem capacityFor_div (n : Nat) : 3 * (capacityFor n / 3) = capacityFor n := by
  unfold capacityFor
  simp only []
  omega

theorem capacityFor_zero : capacityFor 0 = 30 := by decide

/-- The home slots of a peeling order are pairwise distinct, so there are at most
`3 * BlockLength` of them. -/
theorem Peeled.length_le {f : XorFilterCommon} {H : List Nat} {stack : List keyindex}
    (hp : Peeled f H stack) (hpos : 0 < f.BlockLength) (hB : 3 * f.BlockLength ≤ 2 ^ 32) :
    H.length ≤ 3 * f.BlockLength ∧
      ((stack.map keyindex.index).Nodup ∧ ∀ ki ∈ stack, ki.index < 3 * f.BlockLength) := by
  obtain ⟨P, hst, hperm, hb, hord⟩ := hp
  have hnd : (P.map fun e => gslot f e.1 e.2).Nodup := by
    unfold List.Nodup
    rw [List.pairwise_map]
    have hord2 : P.Pairwise fun e1 e2 =>
        (e1.1 < 3 ∧ e2.1 < 3) ∧ slot f e2.1 e1.2 ≠ slot f e2.1 e2.2 := by
      rw [List.pairwise_iff_getElem] at hord ⊢
      intro i j hi hj hij
      exact ⟨⟨hb _ (List.getElem_mem _), hb _ (List.getElem_mem _)⟩, hord i j hi hj hij⟩
    refine hord2.imp ?_
    intro a b hab heq
    obtain ⟨h1, h2⟩ := gslot_inj f hpos hB _ _ _ _ hab.1.1 hab.1.2 heq
    apply hab.2
    rw [← h2, h1]
  have hlt : ∀ x ∈ (P.map fun e => gslot f e.1 e.2), x < 3 * f.BlockLength := by
    intro x hx
    obtain ⟨e, he, rfl⟩ := List.mem_map.mp hx
    exact gslot_lt f hpos hB _ _ (hb e he)
  have hlen := nodup_length_le _ _ hnd hlt
  have hidx : stack.map keyindex.index = (P.map fun e => gslot f e.1 e.2).reverse := by
    rw [hst, List.map_reverse, List.map_map]
    rfl
  refine ⟨?_, ?_, ?_⟩
  · rw [← hperm.length_eq]
    simpa using hlen
  · rw [hidx]
    exact List.nodup_reverse.mpr hnd
  · intro ki hki
    have : ki.index ∈ stack.map keyindex.index := List.mem_map_of_mem _ hki
    rw [hidx] at this
    exact hlt _ (List.mem_reverse.mp this)

theorem populateCommon_ok (bld : Builder) (keys : List Nat) (f0 : XorFilterCommon)
    (hn : keys.length < 2 ^ 32) (hB : 3 * f0.BlockLength ≤ 2 ^ 32)
    (hcap : keys = [] → 0 < f0.BlockLength)
    (stack : List keyindex) (f1 : XorFilterCommon) (bld1 : Builder)
    (h : populateCommon bld keys f0 = .ret (.ok stack, f1, bld1)) :
    0 < f0.BlockLength ∧ f1.BlockLength = f0.BlockLength ∧
      Peeled f1 (digests keys f1.Seed) stack := by
  unfold populateCommon at h
  simp only [] at h
  have hw := Shape.of_getWork bld keys.length f0.BlockLength
  generalize hM : (if bld.MaxIterations = 0 then DefaultMaxIterations else bld.MaxIterations) = M
    at h
  generalize hrng : splitmix64
    (if bld.RandomNumberGeneratorSeed = 0 then 1 else bld.RandomNumberGeneratorSeed) = sr at h
  obtain ⟨Seed, rng⟩ := sr
  simp only [] at h
  cases hr : retry keys M f0.BlockLength (M.toNat + 1) 0 Seed rng
      (getWork bld keys.length f0.BlockLength) with
  | panic => rw [hr] at h; simp at h
  | timeout => rw [hr] at h; simp at h
  | ret x =>
    obtain ⟨r, S, g, w1⟩ := x
    rw [hr] at h
    simp only [Outcome.bind_ret_eq, Outcome.ret.injEq, Prod.mk.injEq] at h
    obtain ⟨rfl, rfl, rfl⟩ := h
    have hpos : 0 < f0.BlockLength := by
      by_contra hz
      have hz0 : f0.BlockLength = 0 := by omega
      have hk : keys ≠ [] := fun hk => hz (hcap hk)
      rw [hz0] at hr hw
      refine retry_zero keys hk M _ _ _ _ _ ?_ _ _ _ _ hr
      have := (hw.2 0 (by omega)).2
      simpa [work.sets] using this
    refine ⟨hpos, rfl, ?_⟩
    exact retry_ok keys M f0.BlockLength hpos hB hn _ _ _ _ _ hw _ _ _ _ hr

/-- Every returned filter: its block length is positive and as computed from the
number of keys, its array has three blocks, the keys fit, and the array satisfies
the membership equation of the digest of every key. -/
theorem Populate_ok (bld : Builder) (keys : List Nat) (hn : keys.length < 2 ^ 32)
    (filter : Xor8) (bld1 : Builder) (h : bld.Populate keys = .ret (.ok filter, bld1)) :
    0 < filter.BlockLength ∧ filter.BlockLength = capacityFor keys.length / 3 ∧
      filter.Fingerprints.length = 3 * filter.BlockLength ∧
      3 * filter.BlockLength < 2 ^ 32 ∧ keys.length ≤ 3 * filter.BlockLength ∧
      ∀ k ∈ keys, Sat filter.toXorFilterCommon filter.Fingerprints (mixsplit k filter.Seed) := by
  unfold Builder.Populate at h
  simp only [] at h
  have hc1 := capacityFor_lt keys.length
  have hc2 := capacityFor_div keys.length
  cases hp : populateCommon bld keys { Seed := 0, BlockLength := capacityFor keys.length / 3 } with
  | panic => rw [hp] at h; simp at h
  | timeout => rw [hp] at h; simp at h
  | ret x =>
    obtain ⟨r, f1, b1⟩ := x
    rw [hp] at h
    simp only [Outcome.bind_ret_eq] at h
    cases r with
    | error e => simp at h
    | ok stack =>
      simp only [] at h
      obtain ⟨hpos, hbl, hpeeled⟩ := populateCommon_ok bld keys _ hn (by simp only []; omega)
        (by
          intro hk
          rw [hk]
          simp only [List.length_nil, capacityFor_zero]
          decide) stack f1 b1 hp
      simp only [] at hpos hbl
      have hpos1 : 0 < f1.BlockLength := by rw [hbl]; exact hpos
      have hB1 : 3 * f1.BlockLength ≤ 2 ^ 32 := by rw [hbl]; omega
      obtain ⟨F1, ha, hlen, hsat⟩ := assign_peeled f1 hpos1 hB1 (digests keys f1.Seed) stack hpeeled
        (List.replicate (capacityFor keys.length) 0) (by rw [List.length_replicate, hbl, hc2])
      rw [digests_length] at ha
      rw [ha] at h
      simp only [Outcome.bind_ret_eq, Outcome.ret.injEq, Prod.mk.injEq, Except.ok.injEq] at h
      obtain ⟨rfl, rfl⟩ := h
      have hle := (hpeeled.length_le hpos1 hB1).1
      rw [digests_length] at hle
      refine ⟨hpos1, hbl, hlen, by rw [hbl]; omega, hle, ?_⟩
      intro k hk
      exact hsat _ (List.mem_map_of_mem _ hk)

/-! ### The capacity: `math.Ceil(1.23*float64(size))` against the exact product -/

theorem excessBits_le (k : Nat) : ∀ (fuel m : Nat), m < 2 ^ (53 + k) → excessBits fuel m ≤ k := by
  induction k with
  | zero =>
    intro fuel m hm
    cases fuel with
    | zero => simp [excessBits]
    | succ f =>
      have hm2 : m < 2 ^ 53 := hm
      simp only [excessBits, hm2, if_true, Nat.le_refl]
  | succ k ih =>
    intro fuel m hm
    cases fuel with
    | zero => simp [excessBits]
    | succ f =>
      simp only [excessBits]
      split
      · omega
      · have : m / 2 < 2 ^ (53 + k) := by
          have h2 : 2 ^ (53 + (k + 1)) = 2 * 2 ^ (53 + k) := by
            rw [← Nat.add_assoc, Nat.pow_succ]; omega
          omega
        have := ih f (m / 2) this
        omega

/-- Rounding to a multiple of `2^s` does not pass a multiple of `2^s` above. -/
theorem round_le (P s Y : Nat) (h : P ≤ Y * 2 ^ s) :
    (if P % 2 ^ s > 2 ^ (s - 1) ∨ (P % 2 ^ s = 2 ^ (s - 1) ∧ (P >>> s) % 2 = 1)
      then P >>> s + 1 else P >>> s) ≤ Y := by
  have hp : 0 < 2 ^ s := Nat.two_pow_pos _
  have hh : 0 < 2 ^ (s - 1) := Nat.two_pow_pos _
  rw [Nat.shiftRight_eq_div_pow]
  have hq : P / 2 ^ s ≤ Y := by
    apply Nat.div_le_of_le_mul
    rw [Nat.mul_comm]; exact h
  have hdm := Nat.div_add_mod P (2 ^ s)
  split
  · rename_i hr
    have hrpos : 0 < P % 2 ^ s := by
      rcases hr with hr | hr
      · omega
      · omega
    by_contra hcon
    have heq : P / 2 ^ s = Y := by omega
    rw [heq, Nat.mul_comm] at hdm
    omega
  · exact hq

/-- Rounding to a multiple of `2^s` passes every multiple of `2^s` that lies more
than half a step below. -/
theorem round_gt (P s Y : Nat) (h : Y * 2 ^ s + 2 ^ (s - 1) < P) :
    Y < (if P % 2 ^ s > 2 ^ (s - 1) ∨ (P % 2 ^ s = 2 ^ (s - 1) ∧ (P >>> s) % 2 = 1)
      then P >>> s + 1 else P >>> s) := by
  have hp : 0 < 2 ^ s := Nat.two_pow_pos _
  rw [Nat.shiftRight_eq_div_pow]
  have hdm := Nat.div_add_mod P (2 ^ s)
  have hr := Nat.mod_lt P hp
  have hq : Y ≤ P / 2 ^ s := by
    rw [Nat.le_div_iff_mul_le hp]
    exact Nat.le_of_lt (Nat.lt_of_le_of_lt (Nat.le_add_right _ _) h)
  have hh : 0 < 2 ^ (s - 1) := Nat.two_pow_pos _
  by_cases hY : Y = P / 2 ^ s
  · have hgt : P % 2 ^ s > 2 ^ (s - 1) := by
      rw [← hY, Nat.mul_comm] at hdm
      omega
    rw [if_pos (Or.inl hgt)]
    omega
  · split <;> omega

theorem ceil_div_eq (q D T : Nat) (hD : 0 < D) (hT : 0 < T) (h1 : (T - 1) * D < q)
    (h2 : q ≤ T * D) : (q + D - 1) / D = T := by
  apply Nat.div_eq_of_lt_le
  · have : T * D = (T - 1) * D + D := by
      conv_lhs => rw [show T = (T - 1) + 1 by omega, Nat.add_mul, Nat.one_mul]
    omega
  · have : (T + 1) * D = T * D + D := by rw [Nat.add_mul, Nat.one_mul]
    omega

theorem f64OfNat_small (n : Nat) (hn : n < 2 ^ 53) : f64OfNat n = (n, 0) := by
  unfold f64OfNat roundF64
  rw [if_pos hn]

/-- For fewer than `2^32` keys the `float64` computation `math.Ceil(1.23*float64(n))`
gives the ceiling of the exact product `123*n/100`. -/
theorem ceil_1_23 (n : Nat) (hn : n < 2 ^ 32) :
    f64Ceil (f64Mul f64_1_23 (f64OfNat n)) = (123 * n + 99) / 100 := by
  rw [f64OfNat_small n (by omega)]
  by_cases h0 : n = 0
  · subst h0
    decide
  have hT : 0 < (123 * n + 99) / 100 := by omega
  have hU : 0x13AE147AE147AE * n ≤ (123 * n + 99) / 100 * 2 ^ 52 := by omega
  have hL : ((123 * n + 99) / 100 - 1) * 2 ^ 52 + 2 ^ 31 < 0x13AE147AE147AE * n := by omega
  simp only [f64Mul, f64_1_23, roundF64]
  split
  · -- the product is exact
    simp only [f64Ceil]
    rw [if_neg (by decide)]
    have : (-(-52 + (0 : Int))).toNat = 52 := by decide
    rw [this]
    refine ceil_div_eq _ _ _ (by norm_num) hT ?_ ?_
    · omega
    · omega
  · -- the product is rounded
    have hP : 0x13AE147AE147AE * n < 2 ^ (53 + 32) := by
      have : (2 : Nat) ^ (53 + 32) = 2 ^ 85 := by norm_num
      rw [this]
      omega
    have hs := excessBits_le 32 (0x13AE147AE147AE * n) (0x13AE147AE147AE * n) hP
    generalize excessBits (0x13AE147AE147AE * n) (0x13AE147AE147AE * n) = s at hs ⊢
    have hpow : 2 ^ (52 - s) * 2 ^ s = 2 ^ 52 := by
      rw [← Nat.pow_add]
      congr 1
      omega
    have hhalf : 2 ^ (s - 1) ≤ 2 ^ 31 := Nat.pow_le_pow_right (by norm_num) (by omega)
    simp only [f64Ceil]
    have hneg : ¬ (0 : Int) ≤ -52 + 0 + (s : Int) := by omega
    rw [if_neg hneg]
    have hexp : (-(-52 + 0 + (s : Int))).toNat = 52 - s := by omega
    rw [hexp]
    refine ceil_div_eq _ _ _ (Nat.two_pow_pos _) hT ?_ ?_
    · apply round_gt
      rw [Nat.mul_assoc, hpow]
      omega
    · apply round_le
      rw [Nat.mul_assoc, hpow]
      exact hU

/-- The capacity for fewer than `2^32` keys, in terms of the exact product. -/
theorem capacityFor_eq (n : Nat) (hn : n < 2 ^ 32) :
    capacityFor n = (32 + (123 * n + 99) / 100) % 2 ^ 32 / 3 * 3 := by
  unfold capacityFor
  simp only [ceil_1_23 n hn]
  congr 2
  omega

/-! ### The construction reads only the filled parts of its buffers -/

theorem OutSim.bind {x y : Outcome work} {F G : work → Outcome work} (h : OutSim x y)
    (hFG : ∀ w v, Sim w v → OutSim (F w) (G v)) : OutSim (x.bind F) (y.bind G) := by
  cases x <;> cases y <;> simp_all [OutSim, Outcome.bind]

theorem removeKey_sim (sets : List xorset) (Q Q1 : List keyindex) (n hi hash : Nat)
    (hlen : Q.length = Q1.length) (htake : Q.take n = Q1.take n) :
    (∃ s q q1 m, removeKey sets Q n hi hash = .ret (s, q, m) ∧
        removeKey sets Q1 n hi hash = .ret (s, q1, m) ∧ q.length = q1.length ∧
        q.take m = q1.take m ∧ q.length = Q.length) ∨
      (removeKey sets Q n hi hash = .panic ∧ removeKey sets Q1 n hi hash = .panic) := by
  unfold removeKey
  cases hs : sets[hi]? with
  | none => exact Or.inr ⟨rfl, rfl⟩
  | some s =>
    simp only []
    split
    · by_cases hn : n < Q.length
      · have hn1 : n < Q1.length := by omega
        rw [if_pos hn, if_pos hn1]
        refine Or.inl ⟨_, _, _, _, rfl, rfl, by simp [hlen], ?_, by simp⟩
        rw [take_set_succ _ _ _ hn, take_set_succ _ _ _ hn1, htake]
      · have hn1 : ¬ n < Q1.length := by omega
        rw [if_neg hn, if_neg hn1]
        exact Or.inr ⟨rfl, rfl⟩
    · exact Or.inl ⟨_, _, _, _, rfl, rfl, hlen, htake, rfl⟩

theorem take_getElem?_pred {α : Type} (l l1 : List α) (n : Nat) (hn : 0 < n)
    (h : l.take n = l1.take n) : l[n - 1]? = l1[n - 1]? := by
  have h1 : (l.take n)[n - 1]? = l[n - 1]? := List.getElem?_take_of_lt (by omega)
  have h2 : (l1.take n)[n - 1]? = l1[n - 1]? := List.getElem?_take_of_lt (by omega)
  rw [← h1, ← h2, h]

theorem take_pred_of_take {α : Type} (l l1 : List α) (n : Nat)
    (h : l.take n = l1.take n) : l.take (n - 1) = l1.take (n - 1) := by
  have := congrArg (List.take (n - 1)) h
  simpa [List.take_take, Nat.min_eq_left (Nat.sub_le n 1)] using this

theorem stepGen_sim (f : XorFilterCommon) {b o1 o2 : Nat} (t : Triple b o1 o2) {w v : work}
    (h : Sim w v) (hq : 0 < w.Qsize b) :
    OutSim (stepGen f b o1 o2 w) (stepGen f b o1 o2 v) := by
  obtain ⟨hb3, ho1, ho2, hbo1, hbo2, ho12, hall⟩ := t.facts
  obtain ⟨hsb, hqb, hlb, htb⟩ := h.blk b hb3
  obtain ⟨hs1, hq1, hl1, ht1⟩ := h.blk o1 ho1
  obtain ⟨hs2, hq2, hl2, ht2⟩ := h.blk o2 ho2
  have htop : (w.Q b)[w.Qsize b - 1]? = (v.Q b)[v.Qsize b - 1]? := by
    rw [← hqb]
    rw [← hqb] at htb
    exact take_getElem?_pred _ _ _ hq htb
  have hpop : (w.Q b).take (w.Qsize b - 1) = (v.Q b).take (v.Qsize b - 1) := by
    rw [← hqb]
    rw [← hqb] at htb
    exact take_pred_of_take _ _ _ htb
  unfold stepGen
  rw [← htop, ← hsb]
  cases hgq : (w.Q b)[w.Qsize b - 1]? with
  | none => simp [OutSim]
  | some q =>
    simp only []
    cases hgs : (w.sets b)[q.index]? with
    | none => simp [OutSim]
    | some s =>
      simp only []
      split
      · -- the entry is skipped
        refine ⟨by simpa using h.stackLen, by simpa using h.stackSize,
          by simpa using h.stackTake, ?_⟩
        intro c hc
        obtain ⟨a1, a2, a3, a4⟩ := h.blk c hc
        by_cases hcb : c = b
        · subst hcb
          simp only [setQsize_sets, setQsize_Q, setQsize_Qsize_self]
          exact ⟨a1, by omega, a3, hpop⟩
        · simp only [setQsize_sets, setQsize_Q, setQsize_Qsize_ne _ _ _ _ hb3 hc hcb]
          exact ⟨a1, a2, a3, a4⟩
      · rw [← h.stackSize, ← h.stackLen]
        split
        · rename_i hstk
          rw [← hs1, ← hq1, ← hs2, ← hq2]
          rw [← hq1] at ht1
          rw [← hq2] at ht2
          rcases removeKey_sim (w.sets o1) (w.Q o1) (v.Q o1) (w.Qsize o1) (slot f o1 q.hash)
            q.hash hl1 ht1 with ⟨s1, q1, q1', m1, e1, e1', l1, t1, _⟩ | ⟨e1, e1'⟩
          · rw [e1, e1']
            simp only [Outcome.bind_ret_eq]
            rcases removeKey_sim (w.sets o2) (w.Q o2) (v.Q o2) (w.Qsize o2) (slot f o2 q.hash)
              q.hash hl2 ht2 with ⟨s2, q2, q2', m2, e2, e2', l2, t2, _⟩ | ⟨e2, e2'⟩
            · rw [e2, e2']
              simp only [Outcome.bind_ret_eq, OutSim]
              refine ⟨by simpa using h.stackLen, by simpa using h.stackSize, ?_, ?_⟩
              · simp only [setBlk_stack, setBlk_stacksize, push_stack, push_stacksize,
                  setQsize_stack, setQsize_stacksize]
                have hstk1 : v.stacksize < v.stack.length := by
                  rw [← h.stackSize, ← h.stackLen]; exact hstk
                rw [take_set_succ _ _ _ hstk, take_set_succ _ _ _ hstk1, h.stackTake]
              · intro c hc
                rcases hall c hc with rfl | rfl | rfl
                · rw [(setBlk_ne _ _ _ _ _ _ ho2 hb3 hbo2).1,
                    (setBlk_ne _ _ _ _ _ _ ho2 hb3 hbo2).2.1,
                    (setBlk_ne _ _ _ _ _ _ ho2 hb3 hbo2).2.2,
                    (setBlk_ne _ _ _ _ _ _ ho1 hb3 hbo1).1,
                    (setBlk_ne _ _ _ _ _ _ ho1 hb3 hbo1).2.1,
                    (setBlk_ne _ _ _ _ _ _ ho1 hb3 hbo1).2.2,
                    (setBlk_ne _ _ _ _ _ _ ho2 hb3 hbo2).1,
                    (setBlk_ne _ _ _ _ _ _ ho2 hb3 hbo2).2.1,
                    (setBlk_ne _ _ _ _ _ _ ho2 hb3 hbo2).2.2,
                    (setBlk_ne _ _ _ _ _ _ ho1 hb3 hbo1).1,
                    (setBlk_ne _ _ _ _ _ _ ho1 hb3 hbo1).2.1,
                    (setBlk_ne _ _ _ _ _ _ ho1 hb3 hbo1).2.2]
                  simp only [push_sets, push_Q, push_Qsize, setQsize_sets, setQsize_Q,
                    setQsize_Qsize_self]
                  exact ⟨hsb, by omega, hlb, hpop⟩
                · rw [(setBlk_ne _ _ _ _ _ _ ho2 ho1 ho12).1,
                    (setBlk_ne _ _ _ _ _ _ ho2 ho1 ho12).2.1,
                    (setBlk_ne _ _ _ _ _ _ ho2 ho1 ho12).2.2,
                    (setBlk_ne _ _ _ _ _ _ ho2 ho1 ho12).1,
                    (setBlk_ne _ _ _ _ _ _ ho2 ho1 ho12).2.1,
                    (setBlk_ne _ _ _ _ _ _ ho2 ho1 ho12).2.2,
                    (setBlk_self _ _ _ _ _).1, (setBlk_self _ _ _ _ _).2.1,
                    (setBlk_self _ _ _ _ _).2.2, (setBlk_self _ _ _ _ _).1,
                    (setBlk_self _ _ _ _ _).2.1, (setBlk_self _ _ _ _ _).2.2]
                  exact ⟨rfl, rfl, l1, t1⟩
                · rw [(setBlk_self _ _ _ _ _).1, (setBlk_self _ _ _ _ _).2.1,
                    (setBlk_self _ _ _ _ _).2.2, (setBlk_self _ _ _ _ _).1,
                    (setBlk_self _ _ _ _ _).2.1, (setBlk_self _ _ _ _ _).2.2]
                  exact ⟨rfl, rfl, l2, t2⟩
            · rw [e2, e2']
              simp [OutSim]
          · rw [e1, e1']
            simp [OutSim]
        · simp [OutSim]

theorem drainGen_sim (f : XorFilterCommon) {b o1 o2 : Nat} (t : Triple b o1 o2) (fuel : Nat)
    {w v : work} (h : Sim w v) :
    OutSim (drainGen f b o1 o2 fuel w) (drainGen f b o1 o2 fuel v) := by
  have hb3 := t.facts.1
  induction fuel generalizing w v with
  | zero =>
    have hq := (h.blk b hb3).2.1
    simp only [drainGen, ← hq]
    split
    · trivial
    · exact h
  | succ n ih =>
    have hq := (h.blk b hb3).2.1
    simp only [drainGen, ← hq]
    split
    · rename_i hpos
      exact (stepGen_sim f t h hpos).bind fun w1 v1 h1 => ih h1
    · exact h

theorem Sim.sizes {w v : work} (h : Sim w v) :
    w.Q0size = v.Q0size ∧ w.Q1size = v.Q1size ∧ w.Q2size = v.Q2size :=
  ⟨(h.blk 0 (by omega)).2.1, (h.blk 1 (by omega)).2.1, (h.blk 2 (by omega)).2.1⟩

theorem peel_sim (f : XorFilterCommon) (fuel : Nat) {w v : work} (h : Sim w v) :
    OutSim (peel f fuel w) (peel f fuel v) := by
  induction fuel generalizing w v with
  | zero =>
    obtain ⟨a0, a1, a2⟩ := h.sizes
    simp only [peel, ← a0, ← a1, ← a2]
    split
    · trivial
    · exact h
  | succ n ih =>
    obtain ⟨a0, a1, a2⟩ := h.sizes
    simp only [peel, ← a0, ← a1, ← a2]
    split
    · simp only [drainQ0_eq, drainQ1_eq, drainQ2_eq]
      have d0 := drainGen_sim f (Or.inl ⟨rfl, rfl, rfl⟩) w.Q0size h
      refine OutSim.bind d0 ?_
      intro w1 v1 h1
      have e1 := h1.sizes.2.1
      rw [← e1]
      have d1 := drainGen_sim f (Or.inr (Or.inl ⟨rfl, rfl, rfl⟩)) w1.Q1size h1
      refine OutSim.bind d1 ?_
      intro w2 v2 h2
      have e2 := h2.sizes.2.2
      rw [← e2]
      have d2 := drainGen_sim f (Or.inr (Or.inr ⟨rfl, rfl, rfl⟩)) w2.Q2size h2
      refine OutSim.bind d2 ?_
      intro w3 v3 h3
      exact ih h3
    · exact h

theorem scanCountFrom_sim (sets : List xorset) (i : Nat) (Q Q1 : List keyindex) (n : Nat)
    (hlen : Q.length = Q1.length) (htake : Q.take n = Q1.take n) :
    (∃ q q1 m, scanCountFrom i sets Q n = .ret (q, m) ∧ scanCountFrom i sets Q1 n = .ret (q1, m) ∧
        q.length = q1.length ∧ q.take m = q1.take m) ∨
      (scanCountFrom i sets Q n = .panic ∧ scanCountFrom i sets Q1 n = .panic) := by
  induction sets generalizing i Q Q1 n with
  | nil => exact Or.inl ⟨Q, Q1, n, rfl, rfl, hlen, htake⟩
  | cons s rest ih =>
    unfold scanCountFrom
    split
    · by_cases hn : n < Q.length
      · have hn1 : n < Q1.length := by omega
        rw [if_pos hn, if_pos hn1]
        apply ih
        · simp [hlen]
        · rw [take_set_succ _ _ _ hn, take_set_succ _ _ _ hn1, htake]
      · have hn1 : ¬ n < Q1.length := by omega
        rw [if_neg hn, if_neg hn1]
        exact Or.inr ⟨rfl, rfl⟩
    · exact ih _ _ _ _ hlen htake

theorem accumulate_sim (f : XorFilterCommon) (keys : List Nat) {w v : work}
    (h : PreSim w v) :
    (∃ w1 v1, accumulate f keys w = .ret w1 ∧ accumulate f keys v = .ret v1 ∧ PreSim w1 v1 ∧
        w1.stack = w.stack ∧ v1.stack = v.stack ∧
        w1.Q0 = w.Q0 ∧ w1.Q1 = w.Q1 ∧ w1.Q2 = w.Q2 ∧
        v1.Q0 = v.Q0 ∧ v1.Q1 = v.Q1 ∧ v1.Q2 = v.Q2) ∨
      (accumulate f keys w = .panic ∧ accumulate f keys v = .panic) := by
  induction keys generalizing w v with
  | nil => exact Or.inl ⟨w, v, rfl, rfl, h, rfl, rfl, rfl, rfl, rfl, rfl, rfl, rfl⟩
  | cons k rest ih =>
    have e0 : w.sets0 = v.sets0 := (h.2 0 (by omega)).1
    have e1 : w.sets1 = v.sets1 := (h.2 1 (by omega)).1
    have e2 : w.sets2 = v.sets2 := (h.2 2 (by omega)).1
    have l0 := (h.2 0 (by omega)).2
    have l1 := (h.2 1 (by omega)).2
    have l2 := (h.2 2 (by omega)).2
    simp only [accumulate, ← e0, ← e1, ← e2]
    cases h0 : addKey w.sets0 (geth0h1h2 f k).h0 (geth0h1h2 f k).h with
    | panic => exact Or.inr ⟨rfl, rfl⟩
    | timeout => simp [addKey] at h0; split at h0 <;> simp at h0
    | ret s0 =>
      cases h1 : addKey w.sets1 (geth0h1h2 f k).h1 (geth0h1h2 f k).h with
      | panic => exact Or.inr ⟨rfl, rfl⟩
      | timeout => simp [addKey] at h1; split at h1 <;> simp at h1
      | ret s1 =>
        cases h2 : addKey w.sets2 (geth0h1h2 f k).h2 (geth0h1h2 f k).h with
        | panic => exact Or.inr ⟨rfl, rfl⟩
        | timeout => simp [addKey] at h2; split at h2 <;> simp at h2
        | ret s2 =>
          simp only [Outcome.ret_bind]
          have hp : PreSim { w with sets0 := s0, sets1 := s1, sets2 := s2 }
              { v with sets0 := s0, sets1 := s1, sets2 := s2 } := by
            refine ⟨h.1, ?_⟩
            intro b hb
            interval_cases b
            · exact ⟨rfl, l0⟩
            · exact ⟨rfl, l1⟩
            · exact ⟨rfl, l2⟩
          rcases ih hp with ⟨w1, v1, a1, a2, a3, a4⟩ | ⟨a1, a2⟩
          · exact Or.inl ⟨w1, v1, a1, a2, a3, a4⟩
          · exact Or.inr ⟨a1, a2⟩

theorem attempt_sim (f : XorFilterCommon) (keys : List Nat) {w v : work} (h : PreSim w v) :
    OutSim (attempt f keys w) (attempt f keys v) := by
  unfold attempt
  rcases accumulate_sim f keys h with
    ⟨w1, v1, a1, a2, hp, st1, st2, q0, q1, q2, r0, r1, r2⟩ | ⟨a1, a2⟩
  · rw [a1, a2]
    simp only [Outcome.ret_bind]
    have e0 : w1.sets0 = v1.sets0 := (hp.2 0 (by omega)).1
    have e1 : w1.sets1 = v1.sets1 := (hp.2 1 (by omega)).1
    have e2 : w1.sets2 = v1.sets2 := (hp.2 2 (by omega)).1
    have l0 : w1.Q0.length = v1.Q0.length := (hp.2 0 (by omega)).2
    have l1 : w1.Q1.length = v1.Q1.length := (hp.2 1 (by omega)).2
    have l2 : w1.Q2.length = v1.Q2.length := (hp.2 2 (by omega)).2
    rw [← e0, ← e1, ← e2]
    unfold scanCount
    rcases scanCountFrom_sim w1.sets0 0 w1.Q0 v1.Q0 0 l0 (by simp) with
      ⟨a, a', m0, c0, c0', d0, t0⟩ | ⟨c0, c0'⟩
    · rw [c0, c0']
      simp only [Outcome.ret_bind]
      rcases scanCountFrom_sim w1.sets1 0 w1.Q1 v1.Q1 0 l1 (by simp) with
        ⟨b, b', m1, c1, c1', d1, t1⟩ | ⟨c1, c1'⟩
      · rw [c1, c1']
        simp only [Outcome.ret_bind]
        rcases scanCountFrom_sim w1.sets2 0 w1.Q2 v1.Q2 0 l2 (by simp) with
          ⟨c, c', m2, c2, c2', d2, t2⟩ | ⟨c2, c2'⟩
        · rw [c2, c2']
          simp only [Outcome.ret_bind]
          apply peel_sim
          refine ⟨hp.1, rfl, by simp, ?_⟩
          intro b hb
          interval_cases b
          · exact ⟨rfl, rfl, d0, t0⟩
          · exact ⟨rfl, rfl, d1, t1⟩
          · exact ⟨rfl, rfl, d2, t2⟩
        · rw [c2, c2']
          trivial
      · rw [c1, c1']
        trivial
    · rw [c0, c0']
      trivial
  · rw [a1, a2]
    trivial

/-! ### The retry loop -/

theorem Sim.preSim_reset {w v : work} (h : Sim w v) :
    PreSim { w with sets0 := resetSets w.sets0, sets1 := resetSets w.sets1,
                    sets2 := resetSets w.sets2 }
      { v with sets0 := resetSets v.sets0, sets1 := resetSets v.sets1,
               sets2 := resetSets v.sets2 } := by
  refine ⟨h.stackLen, ?_⟩
  intro b hb
  have hb' := h.blk b hb
  interval_cases b
  · exact ⟨by simp only [work.sets] at hb' ⊢; rw [hb'.1], hb'.2.2.1⟩
  · exact ⟨by simp only [work.sets] at hb' ⊢; rw [hb'.1], hb'.2.2.1⟩
  · exact ⟨by simp only [work.sets] at hb' ⊢; rw [hb'.1], hb'.2.2.1⟩

theorem retry_sim (keys : List Nat) (M : Int) (B : Nat) (fuel : Nat) (it : Int)
    (Seed rng : Nat) {w v : work} (h : PreSim w v) :
    RetSim keys.length (retry keys M B fuel it Seed rng w) (retry keys M B fuel it Seed rng v) := by
  induction fuel generalizing it Seed rng w v with
  | zero => simp [retry, RetSim]
  | succ n ih =>
    unfold retry
    simp only []
    split
    · simp [RetSim]
    · have ha := attempt_sim { Seed := Seed, BlockLength := B } keys h
      cases h1 : attempt { Seed := Seed, BlockLength := B } keys w with
      | panic =>
        cases h2 : attempt { Seed := Seed, BlockLength := B } keys v <;>
          simp_all [OutSim, RetSim]
      | timeout =>
        cases h2 : attempt { Seed := Seed, BlockLength := B } keys v <;>
          simp_all [OutSim, RetSim]
      | ret w1 =>
        cases h2 : attempt { Seed := Seed, BlockLength := B } keys v with
        | panic => simp_all [OutSim]
        | timeout => simp_all [OutSim]
        | ret v1 =>
          rw [h1, h2] at ha
          have hs : Sim w1 v1 := ha
          simp only [Outcome.bind_ret_eq, ← hs.stackSize]
          split
          · rename_i hfull
            have := hs.stackTake
            rw [← hs.stackSize, hfull] at this
            simp only [RetSim, and_self, and_true]
            exact this
          · exact ih _ _ _ hs.preSim_reset

theorem Shape.preSim {B n : Nat} {w v : work} (hw : Shape B n w) (hv : Shape B n v) :
    PreSim w v := by
  refine ⟨by rw [hw.1, hv.1], ?_⟩
  intro b hb
  exact ⟨by rw [(hw.2 b hb).2, (hv.2 b hb).2], by rw [(hw.2 b hb).1, (hv.2 b hb).1]⟩

/-- On well-shaped working slices an attempt places on the stack what it places
there on fresh ones, and never more than there are keys. -/
theorem attempt_stackSize (f : XorFilterCommon) (keys : List Nat) (hpos : 0 < f.BlockLength)
    (hB : 3 * f.BlockLength ≤ 2 ^ 32) (hn : keys.length < 2 ^ 32) (w : work)
    (hw : Shape f.BlockLength keys.length w) :
    ∃ w1 R P, attempt f keys w = .ret w1 ∧ Inv f (digests keys f.Seed) w1 R P ∧
      stackSizeOf f.BlockLength keys f.Seed = .ret w1.stacksize ∧ w1.stacksize ≤ keys.length := by
  obtain ⟨w1, R, P, h1, inv, _, _, _⟩ := attempt_spec hpos hB hn hw
  have hfresh : Shape f.BlockLength keys.length (freshWork keys.length f.BlockLength) :=
    Shape.of_getWork _ _ _
  obtain ⟨v1, R1, P1, h2, _, _, _, _⟩ := attempt_spec hpos hB hn hfresh
  have hs := attempt_sim f keys (hw.preSim hfresh)
  rw [h1, h2] at hs
  have hs' : Sim w1 v1 := hs
  refine ⟨w1, R, P, h1, inv, ?_, ?_⟩
  · unfold stackSizeOf
    have : ({ Seed := f.Seed, BlockLength := f.BlockLength } : XorFilterCommon) = f := rfl
    rw [this, h2, Outcome.bind_ret_eq, hs'.stackSize]
  · have := inv.length_eq
    rw [digests_length] at this
    rw [inv.stackSize]
    omega

theorem incInt_eq (i : Int) (h0 : 0 ≤ i) (h1 : i < 2 ^ 63 - 1) : incInt i = i + 1 := by
  unfold incInt
  omega

theorem incInt_le (i : Int) : incInt i ≤ 2 ^ 63 - 1 := by
  unfold incInt
  omega

theorem seedNo_succ (rng0 k : Nat) :
    splitmix64 (rngState rng0 (k + 1)) = (seedNo rng0 (k + 2), rngState rng0 (k + 2)) := by
  simp [seedNo, rngState]

/-- The retry loop after `k` failed attempts: it reports the error when every
remaining attempt within the budget fails, and otherwise returns the stack of the
first attempt that fills it, with that attempt's seed. -/
theorem retry_spec (keys : List Nat) (M : Int) (B : Nat) (rng0 : Nat) (hpos : 0 < B)
    (hB : 3 * B ≤ 2 ^ 32) (hn : keys.length < 2 ^ 32) (hM : M < 2 ^ 63 - 1)
    (fuel k : Nat) (w : work) (hw : Shape B keys.length w) (hk : (k : Int) < 2 ^ 63 - 1)
    (hfuel : (M - k).toNat < fuel) :
    ((∀ i : Nat, k < i → (i : Int) ≤ M → stackSizeOf B keys (seedNo rng0 i) ≠ .ret keys.length) →
      ∃ S g w1, retry keys M B fuel k (seedNo rng0 (k + 1)) (rngState rng0 (k + 1)) w =
        .ret (.error .ErrTooManyIterations, S, g, w1)) ∧
    (∀ t : Nat, k < t → (t : Int) ≤ M →
      stackSizeOf B keys (seedNo rng0 t) = .ret keys.length →
      (∀ i : Nat, k < i → i < t → stackSizeOf B keys (seedNo rng0 i) ≠ .ret keys.length) →
      ∃ stack w1, retry keys M B fuel k (seedNo rng0 (k + 1)) (rngState rng0 (k + 1)) w =
          .ret (.ok stack, seedNo rng0 t, rngState rng0 t, w1) ∧
        Peeled { Seed := seedNo rng0 t, BlockLength := B } (digests keys (seedNo rng0 t)) stack) := by
  induction fuel generalizing k w with
  | zero => omega
  | succ n ih =>
    have hinc : incInt k = k + 1 := incInt_eq k (by omega) hk
    unfold retry
    simp only [hinc]
    by_cases hover : (k : Int) + 1 > M
    · rw [if_pos hover]
      refine ⟨fun _ => ⟨_, _, _, rfl⟩, ?_⟩
      intro t ht htM
      omega
    · rw [if_neg hover]
      obtain ⟨w1, R, P, ha, inv, hsz, hle⟩ :=
        attempt_stackSize { Seed := seedNo rng0 (k + 1), BlockLength := B } keys hpos hB hn w hw
      simp only [] at hsz
      rw [ha, Outcome.bind_ret_eq]
      by_cases hfull : w1.stacksize = keys.length
      · rw [if_pos hfull]
        rw [hfull] at hsz
        constructor
        · intro hall
          exact absurd hsz (hall (k + 1) (by omega) (by push_cast; omega))
        · intro t ht htM hfill hbefore
          have htk : t = k + 1 := by
            by_contra hne
            exact hbefore (k + 1) (by omega) (by omega) hsz
          subst htk
          refine ⟨_, _, rfl, ?_⟩
          exact inv.peeled (by rw [digests_length]; exact hfull)
      · rw [if_neg hfull]
        have hsh := inv.shape_after
        rw [digests_length] at hsh
        simp only [] at hsh
        have hk1 : ((k + 1 : Nat) : Int) < 2 ^ 63 - 1 := by push_cast; omega
        have hf1 : (M - ((k + 1 : Nat) : Int)).toNat < n := by push_cast; omega
        obtain ⟨ih1, ih2⟩ := ih (k + 1) _ hsh hk1 hf1
        rw [seedNo_succ]
        simp only []
        have hcast : ((k : Int) + 1) = ((k + 1 : Nat) : Int) := by push_cast; rfl
        rw [hcast]
        constructor
        · intro hall
          exact ih1 (fun i hi hiM => hall i (by omega) hiM)
        · intro t ht htM hfill hbefore
          have hne : t ≠ k + 1 := by
            intro heq
            subst heq
            rw [hsz] at hfill
            simp only [Outcome.ret.injEq] at hfill
            exact hfull hfill
          exact ih2 t (by omega) htM hfill (fun i hi hit => hbefore i (by omega) hit)

/-! ### `Builder.Populate` in terms of the retry loop -/

/-- The builder as a call of `populateCommon` leaves it. -/
theorem Populate_eq (bld : Builder) (keys : List Nat) :
    bld.Populate keys =
      (retry keys bld.budget (capacityFor keys.length / 3) (bld.budget.toNat + 1) 0
          (seedNo bld.rng0 1) (rngState bld.rng0 1)
          (getWork bld keys.length (capacityFor keys.length / 3))).bind fun x =>
        match x.1 with
        | .error err =>
          .ret (.error err, { bld with kiStore := x.2.2.2.kiStore, setStore := x.2.2.2.setStore,
                                       RandomNumberGeneratorSeed := x.2.2.1 })
        | .ok stack =>
          (assign { Seed := x.2.1, BlockLength := capacityFor keys.length / 3 } stack keys.length
              (List.replicate (capacityFor keys.length) 0)).bind fun Fingerprints =>
            .ret (.ok { Seed := x.2.1, BlockLength := capacityFor keys.length / 3,
                        Fingerprints := Fingerprints },
                  { bld with kiStore := x.2.2.2.kiStore, setStore := x.2.2.2.setStore,
                             RandomNumberGeneratorSeed := x.2.2.1 }) := by
  unfold Builder.Populate populateCommon
  have hs : splitmix64 bld.rng0 = (seedNo bld.rng0 1, rngState bld.rng0 1) := by
    simp [seedNo, rngState]
  simp only [Builder.budget, Builder.rng0] at hs ⊢
  rw [hs]
  simp only []
  cases retry keys (if bld.MaxIterations = 0 then DefaultMaxIterations else bld.MaxIterations)
      (capacityFor keys.length / 3)
      ((if bld.MaxIterations = 0 then DefaultMaxIterations else bld.MaxIterations).toNat + 1) 0
      (seedNo (if bld.RandomNumberGeneratorSeed = 0 then 1 else bld.RandomNumberGeneratorSeed) 1)
      (rngState (if bld.RandomNumberGeneratorSeed = 0 then 1 else bld.RandomNumberGeneratorSeed) 1)
      (getWork bld keys.length (capacityFor keys.length / 3)) with
  | panic => rfl
  | timeout => rfl
  | ret x =>
    obtain ⟨r, S, g, w⟩ := x
    cases r <;> rfl

theorem assignOne_length (f : XorFilterCommon) (ki : keyindex) (F F1 : List Nat)
    (h : assignOne f ki F = .ret F1) : F1.length = F.length := by
  unfold assignOne at h
  simp only [] at h
  split at h
  · simp at h
  · split at h
    · simp only [Outcome.ret.injEq] at h
      rw [← h, List.length_set]
    · simp at h

theorem assign_length (f : XorFilterCommon) (stack : List keyindex) (k : Nat) (F F1 : List Nat)
    (h : assign f stack k F = .ret F1) : F1.length = F.length := by
  induction k generalizing F with
  | zero =>
    simp only [assign, Outcome.ret.injEq] at h
    rw [h]
  | succ n ih =>
    simp only [assign] at h
    split at h
    · simp at h
    · rename_i ki _
      cases h1 : assignOne f ki F with
      | panic => rw [h1] at h; simp at h
      | timeout => rw [h1] at h; simp at h
      | ret F2 =>
        rw [h1, Outcome.bind_ret_eq] at h
        rw [ih F2 h, assignOne_length f ki F F2 h1]

/-- The stack entries that the assignment pass reads are the first `k`. -/
theorem assign_take (f : XorFilterCommon) (stack stack1 : List keyindex) (k : Nat)
    (h : stack.take k = stack1.take k) (F : List Nat) :
    assign f stack k F = assign f stack1 k F := by
  induction k generalizing F with
  | zero => rfl
  | succ n ih =>
    have h1 : stack[n]? = stack1[n]? := by
      have := take_getElem?_pred stack stack1 (n + 1) (by omega) h
      simpa using this
    have h2 : stack.take n = stack1.take n := by
      have := take_pred_of_take stack stack1 (n + 1) h
      simpa using this
    have hfun : assign f stack n = assign f stack1 n := funext fun F => ih h2 F
    simp only [assign, h1, hfun]

/-- Shape of every returned filter, for key lists of any length. -/
theorem Populate_shape (bld : Builder) (keys : List Nat) (filter : Xor8) (bld1 : Builder)
    (h : bld.Populate keys = .ret (.ok filter, bld1)) :
    0 < filter.BlockLength ∧ filter.BlockLength = capacityFor keys.length / 3 ∧
      filter.Fingerprints.length = 3 * filter.BlockLength ∧
      3 * filter.BlockLength < 2 ^ 32 := by
  rw [Populate_eq] at h
  have hc1 := capacityFor_lt keys.length
  have hc2 := capacityFor_div keys.length
  cases hr : retry keys bld.budget (capacityFor keys.length / 3) (bld.budget.toNat + 1) 0
      (seedNo bld.rng0 1) (rngState bld.rng0 1)
      (getWork bld keys.length (capacityFor keys.length / 3)) with
  | panic => rw [hr] at h; simp at h
  | timeout => rw [hr] at h; simp at h
  | ret x =>
    obtain ⟨r, S, g, w⟩ := x
    rw [hr] at h
    cases r with
    | error e => simp at h
    | ok stack =>
      simp only [Outcome.bind_ret_eq] at h
      cases ha : assign { Seed := S, BlockLength := capacityFor keys.length / 3 } stack
          keys.length (List.replicate (capacityFor keys.length) 0) with
      | panic => rw [ha] at h; simp at h
      | timeout => rw [ha] at h; simp at h
      | ret F =>
        rw [ha] at h
        simp only [Outcome.bind_ret_eq, Outcome.ret.injEq, Prod.mk.injEq, Except.ok.injEq] at h
        obtain ⟨rfl, _⟩ := h
        have hlen := assign_length _ _ _ _ _ ha
        simp only [List.length_replicate] at hlen
        have hpos : 0 < capacityFor keys.length / 3 := by
          by_contra hz
          have hz0 : capacityFor keys.length / 3 = 0 := by omega
          have hk : keys ≠ [] := by
            intro hk
            rw [hk] at hz0
            simp only [List.length_nil, capacityFor_zero] at hz0
            omega
          rw [hz0] at hr
          refine retry_zero keys hk _ _ _ _ _ _ ?_ _ _ _ _ hr
          have := ((Shape.of_getWork bld keys.length 0).2 0 (by omega)).2
          simpa [work.sets] using this
        exact ⟨hpos, rfl, by simp only []; omega, by simp only []; omega⟩

/-! ### `Builder.Populate`: outcome in terms of the attempts -/

theorem digests_not_nodup (keys : List Nat) (Seed : Nat) (h : ¬ keys.Nodup) :
    ¬ (digests keys Seed).Nodup :=
  fun hd => h (List.Nodup.of_map _ hd)

/-- With a repeated key no attempt fills the stack, whatever the seed. -/
theorem stackSizeOf_dup (B : Nat) (keys : List Nat) (hpos : 0 < B) (hB : 3 * B ≤ 2 ^ 32)
    (hn : keys.length < 2 ^ 32) (hdup : ¬ keys.Nodup) (seed : Nat) :
    stackSizeOf B keys seed ≠ .ret keys.length := by
  obtain ⟨w1, R, P, _, inv, hsz, _⟩ :=
    attempt_stackSize { Seed := seed, BlockLength := B } keys hpos hB hn
      (freshWork keys.length B) (Shape.of_getWork _ _ _)
  simp only [] at hsz
  rw [hsz]
  intro heq
  simp only [Outcome.ret.injEq] at heq
  have := inv.not_full_of_dup (digests_not_nodup keys seed hdup)
  rw [digests_length] at this
  exact this heq

/-- With the largest budget an `int` can hold, the retry loop never stops when
every attempt fails. -/
theorem retry_timeout (keys : List Nat) (B : Nat) (hpos : 0 < B) (hB : 3 * B ≤ 2 ^ 32)
    (hn : keys.length < 2 ^ 32)
    (hfail : ∀ seed, stackSizeOf B keys seed ≠ .ret keys.length)
    (fuel : Nat) (it : Int) (Seed rng : Nat) (w : work) (hw : Shape B keys.length w) :
    retry keys (2 ^ 63 - 1) B fuel it Seed rng w = .timeout := by
  induction fuel generalizing it Seed rng w with
  | zero => rfl
  | succ n ih =>
    unfold retry
    simp only []
    rw [if_neg (by have := incInt_le it; omega)]
    obtain ⟨w1, R, P, ha, inv, hsz, _⟩ :=
      attempt_stackSize { Seed := Seed, BlockLength := B } keys hpos hB hn w hw
    simp only [] at hsz
    rw [ha, Outcome.bind_ret_eq]
    have hne : w1.stacksize ≠ keys.length := by
      intro heq
      rw [heq] at hsz
      exact hfail Seed hsz
    rw [if_neg hne]
    have hsh := inv.shape_after
    rw [digests_length] at hsh
    exact ih _ _ _ _ hsh

/-- The outcome of `Builder.Populate` in terms of the attempts within the budget. -/
theorem Populate_spec (bld : Builder) (keys : List Nat) (hn : keys.length < 2 ^ 32)
    (hcap : 3 ≤ capacityFor keys.length) (hM : bld.budget < 2 ^ 63 - 1) :
    ((∀ i : Nat, 1 ≤ i → (i : Int) ≤ bld.budget →
        stackSizeOf (capacityFor keys.length / 3) keys (seedNo bld.rng0 i) ≠ .ret keys.length) →
      ∃ bld1, bld.Populate keys = .ret (.error .ErrTooManyIterations, bld1)) ∧
    (∀ t : Nat, 1 ≤ t → (t : Int) ≤ bld.budget →
      stackSizeOf (capacityFor keys.length / 3) keys (seedNo bld.rng0 t) = .ret keys.length →
      (∀ i : Nat, 1 ≤ i → i < t →
        stackSizeOf (capacityFor keys.length / 3) keys (seedNo bld.rng0 i) ≠ .ret keys.length) →
      ∃ filter bld1, bld.Populate keys = .ret (.ok filter, bld1) ∧
        filter.Seed = seedNo bld.rng0 t ∧
        bld1.RandomNumberGeneratorSeed = rngState bld.rng0 t) := by
  have hc1 := capacityFor_lt keys.length
  have hc2 := capacityFor_div keys.length
  have hpos : 0 < capacityFor keys.length / 3 := by omega
  have hB : 3 * (capacityFor keys.length / 3) ≤ 2 ^ 32 := by omega
  obtain ⟨h1, h2⟩ := retry_spec keys bld.budget (capacityFor keys.length / 3) bld.rng0 hpos hB hn
    hM (bld.budget.toNat + 1) 0 (getWork bld keys.length (capacityFor keys.length / 3))
    (Shape.of_getWork _ _ _) (by norm_num) (by simp)
  simp only [Nat.cast_zero, Nat.zero_add] at h1 h2
  constructor
  · intro hall
    obtain ⟨S, g, w1, hr⟩ := h1 (fun i hi hiM => hall i (by omega) hiM)
    rw [Populate_eq, hr]
    exact ⟨_, rfl⟩
  · intro t ht htM hfill hbefore
    obtain ⟨stack, w1, hr, hpeeled⟩ := h2 t (by omega) htM hfill
      (fun i hi hit => hbefore i (by omega) hit)
    obtain ⟨F1, ha, _, _⟩ := assign_peeled _ hpos hB _ stack hpeeled
      (List.replicate (capacityFor keys.length) 0) (by rw [List.length_replicate, hc2])
    rw [digests_length] at ha
    rw [Populate_eq, hr]
    simp only [Outcome.bind_ret_eq, ha]
    exact ⟨_, _, rfl, rfl, rfl⟩

/-- With an empty block and a non-empty key list the first attempt panics. -/
theorem Populate_panic (bld : Builder) (keys : List Nat) (hk : keys ≠ [])
    (hc : capacityFor keys.length = 0) (hM : 1 ≤ bld.budget) :
    bld.Populate keys = .panic := by
  obtain ⟨k, rest, rfl⟩ := List.exists_cons_of_ne_nil hk
  rw [Populate_eq, hc]
  have hsets : (getWork bld (k :: rest).length (0 / 3)).sets0 = [] := by
    have := ((Shape.of_getWork bld (k :: rest).length 0).2 0 (by omega)).2
    simpa [work.sets] using this
  unfold retry
  simp only []
  have h1 : incInt 0 = 1 := by decide
  rw [h1, if_neg (by omega), attempt_panic _ k rest _ hsets]
  rfl

/-- `Builder.Populate` reads neither the contents of the stores nor anything but
`MaxIterations` and `RandomNumberGeneratorSeed` of the builder. -/
theorem Populate_observe (b1 b2 : Builder) (keys : List Nat)
    (hM : b1.MaxIterations = b2.MaxIterations)
    (hR : b1.RandomNumberGeneratorSeed = b2.RandomNumberGeneratorSeed) :
    observe (b1.Populate keys) = observe (b2.Populate keys) := by
  have hb : b1.budget = b2.budget := by simp [Builder.budget, hM]
  have hr : b1.rng0 = b2.rng0 := by simp [Builder.rng0, hR]
  rw [Populate_eq, Populate_eq, hb, hr]
  have hsim := retry_sim keys b2.budget (capacityFor keys.length / 3) (b2.budget.toNat + 1) 0
    (seedNo b2.rng0 1) (rngState b2.rng0 1)
    ((Shape.of_getWork b1 keys.length (capacityFor keys.length / 3)).preSim
      (Shape.of_getWork b2 keys.length (capacityFor keys.length / 3)))
  generalize retry keys b2.budget (capacityFor keys.length / 3) (b2.budget.toNat + 1) 0
    (seedNo b2.rng0 1) (rngState b2.rng0 1)
    (getWork b1 keys.length (capacityFor keys.length / 3)) = x1 at hsim ⊢
  generalize retry keys b2.budget (capacityFor keys.length / 3) (b2.budget.toNat + 1) 0
    (seedNo b2.rng0 1) (rngState b2.rng0 1)
    (getWork b2 keys.length (capacityFor keys.length / 3)) = x2 at hsim ⊢
  cases x1 with
  | panic => cases x2 <;> simp_all [RetSim, observe]
  | timeout => cases x2 <;> simp_all [RetSim, observe]
  | ret r1 =>
    cases x2 with
    | panic => simp [RetSim] at hsim
    | timeout => simp [RetSim] at hsim
    | ret r2 =>
      obtain ⟨e1, S1, g1, w1⟩ := r1
      obtain ⟨e2, S2, g2, w2⟩ := r2
      cases e1 with
      | error a1 =>
        cases e2 with
        | error a2 =>
          simp only [RetSim] at hsim
          obtain ⟨_, rfl, rfl⟩ := hsim
          cases a1
          cases a2
          rfl
        | ok s2 => simp [RetSim] at hsim
      | ok s1 =>
        cases e2 with
        | error a2 => simp [RetSim] at hsim
        | ok s2 =>
          simp only [RetSim] at hsim
          obtain ⟨ht, rfl, rfl⟩ := hsim
          simp only [Outcome.bind_ret_eq]
          rw [assign_take _ s1 s2 _ ht]
          cases assign { Seed := S1, BlockLength := capacityFor keys.length / 3 } s2 keys.length
              (List.replicate (capacityFor keys.length) 0) <;> rfl

/-! ### Auxiliary facts for the claims -/

theorem returned_ok (x : Outcome (Except Error Xor8 × Builder)) (filter : Xor8)
    (h : returned x = .ret (.ok filter)) : ∃ bld1, x = .ret (.ok filter, bld1) := by
  unfold returned at h
  cases x with
  | panic => simp at h
  | timeout => simp at h
  | ret r =>
    obtain ⟨a, b⟩ := r
    simp only [Outcome.bind_ret_eq, Outcome.ret.injEq] at h
    exact ⟨b, by rw [h]⟩

theorem rotl64_21 (d : Nat) : rotl64 d 21 = rotl d 21 := by
  have h1 : ((21 : Int) % 64).toNat = 21 := by decide
  have h2 : ((-(21 : Int)) % 64).toNat = 43 := by decide
  simp only [rotl64, rotl, h1, h2, Nat.shiftLeft_eq, Nat.shiftRight_eq_div_pow]

theorem rotl64_42 (d : Nat) : rotl64 d 42 = rotl d 42 := by
  have h1 : ((42 : Int) % 64).toNat = 42 := by decide
  have h2 : ((-(42 : Int)) % 64).toNat = 22 := by decide
  simp only [rotl64, rotl, h1, h2, Nat.shiftLeft_eq, Nat.shiftRight_eq_div_pow]

/-- The probes of the reference test are the slots of the construction, block by
block. -/
theorem refIndex_eq (filter : Xor8) (key : Nat) (hBL : filter.BlockLength < 2 ^ 32) :
    refIndex0 filter key = geth0 filter.toXorFilterCommon (mixsplit key filter.Seed) ∧
      refIndex1 filter key =
        filter.BlockLength + geth1 filter.toXorFilterCommon (mixsplit key filter.Seed) ∧
      refIndex2 filter key =
        2 * filter.BlockLength + geth2 filter.toXorFilterCommon (mixsplit key filter.Seed) := by
  have hm : ∀ x : Nat, x % 2 ^ 32 < 2 ^ 32 := fun x => Nat.mod_lt _ (by norm_num)
  refine ⟨?_, ?_, ?_⟩
  · simp only [refIndex0, refDigest, low32, geth0, mixsplit]
    rw [reduce_eq _ _ (hm _) hBL]
  · simp only [refIndex1, refDigest, low32, geth1, mixsplit]
    rw [reduce_eq _ _ (hm _) hBL, rotl64_21]
  · simp only [refIndex2, refDigest, low32, geth2, mixsplit]
    rw [reduce_eq _ _ (hm _) hBL, rotl64_42]

/-- Every attempt returns a stack size, at most the number of keys. -/
theorem stackSizeOf_ret (B : Nat) (keys : List Nat) (hpos : 0 < B) (hB : 3 * B ≤ 2 ^ 32)
    (hn : keys.length < 2 ^ 32) (seed : Nat) :
    ∃ m, stackSizeOf B keys seed = .ret m ∧ m ≤ keys.length := by
  obtain ⟨w1, R, P, _, inv, hsz, hle⟩ :=
    attempt_stackSize { Seed := seed, BlockLength := B } keys hpos hB hn
      (freshWork keys.length B) (Shape.of_getWork _ _ _)
  exact ⟨w1.stacksize, hsz, hle⟩

theorem attemptFails_iff (B : Nat) (keys : List Nat) (hpos : 0 < B) (hB : 3 * B ≤ 2 ^ 32)
    (hn : keys.length < 2 ^ 32) (seed : Nat) :
    AttemptFails B keys seed ↔ stackSizeOf B keys seed ≠ .ret keys.length := by
  obtain ⟨m, hm, hle⟩ := stackSizeOf_ret B keys hpos hB hn seed
  unfold AttemptFails
  rw [hm]
  constructor
  · rintro ⟨m1, h1, h2⟩ h3
    simp only [Outcome.ret.injEq] at h1 h3
    omega
  · intro h
    refine ⟨m, rfl, ?_⟩
    have : m ≠ keys.length := fun e => h (by rw [e])
    omega

theorem getD_replicate_zero (n i : Nat) : (List.replicate n 0).getD i 0 = 0 := by
  rw [List.getD_eq_getElem?_getD, List.getElem?_replicate]
  split <;> rfl

/-- With the largest budget an `int` can hold and only failing attempts,
`Builder.Populate` uses up any bound on its retry loop. -/
theorem Populate_timeout (bld : Builder) (keys : List Nat) (hn : keys.length < 2 ^ 32)
    (hcap : 3 ≤ capacityFor keys.length) (hM : bld.budget = 2 ^ 63 - 1)
    (hfail : ∀ seed, stackSizeOf (capacityFor keys.length / 3) keys seed ≠ .ret keys.length) :
    bld.Populate keys = .timeout := by
  have hc1 := capacityFor_lt keys.length
  have hc2 := capacityFor_div keys.length
  rw [Populate_eq, hM, retry_timeout keys _ (by omega) (by omega) hn hfail _ _ _ _ _
    (Shape.of_getWork _ _ _)]
  rfl

/-- Every key of the list is answered "member" by a returned filter. -/
theorem Populate_contains (bld : Builder) (keys : List Nat) (hn : keys.length < 2 ^ 32)
    (filter : Xor8) (bld1 : Builder) (h : bld.Populate keys = .ret (.ok filter, bld1)) :
    ∀ k ∈ keys, Contains filter k = .ret true := by
  obtain ⟨hpos, _, hlen, hB, _, hsat⟩ := Populate_ok bld keys hn filter bld1 h
  intro k hk
  rw [Contains_eq filter hpos (by omega) hlen k]
  simp [hsat k hk]

theorem returned_of_eq (x : Outcome (Except Error Xor8 × Builder)) (r : Except Error Xor8)
    (b : Builder) (h : x = .ret (r, b)) : returned x = .ret r := by
  rw [h]
  rfl

/-! ## The claims -/

/-- C1. No false negatives: whenever `Builder.Populate` returns a filter for a list
of fewer than `2^32` keys, from any builder state, `Contains` returns `true` for
every key of the list, and the XOR of the three fingerprints at the slots of the
key equals the low eight bits of `fingerprint (mixsplit k Seed)`.  The list need
not be assumed duplicate-free: no filter is returned for a list with a repeated
key. -/
theorem no_false_negatives (bld : Builder) (keys : List Nat) (filter : Xor8)
    (hn : keys.length < 2 ^ 32) (h : returned (bld.Populate keys) = .ret (.ok filter)) :
    ∀ k ∈ keys, Contains filter k = .ret true ∧
      filter.Fingerprints.getD (geth0 filter.toXorFilterCommon (mixsplit k filter.Seed)) 0 ^^^
        filter.Fingerprints.getD
          (geth1 filter.toXorFilterCommon (mixsplit k filter.Seed) + filter.BlockLength) 0 ^^^
        filter.Fingerprints.getD
          (geth2 filter.toXorFilterCommon (mixsplit k filter.Seed) + 2 * filter.BlockLength) 0 =
        fingerprint (mixsplit k filter.Seed) % 2 ^ 8 := by
  obtain ⟨bld1, h1⟩ := returned_ok _ _ h
  obtain ⟨hpos, _, hlen, hB, _, hsat⟩ := Populate_ok bld keys hn filter bld1 h1
  intro k hk
  have hs := hsat k hk
  refine ⟨?_, ?_⟩
  · rw [Contains_eq filter hpos (by omega) hlen k]
    simp [hs]
  · have := hs
    unfold Sat gslot slot at this
    simpa [Nat.add_comm] using this

/-- C1, at the keys 10, 20, 30 and a builder with budget 3 and seed state 12345. -/
theorem no_false_negatives_witness :
    [10, 20, 30].length < 2 ^ 32 ∧
    returned (Builder.Populate
        { MaxIterations := 3, kiStore := [], setStore := [], RandomNumberGeneratorSeed := 12345 }
        [10, 20, 30]) =
      .ret (.ok { Seed := 2454886589211414944, BlockLength := 12,
                  Fingerprints := [0, 140, 0, 0, 0, 190, 0, 0, 0, 145, 0, 0, 0, 0, 0, 0, 0, 0, 0, 0,
                    0, 0, 0, 0, 0, 0, 0, 0, 0, 0, 0, 0, 0, 0, 0, 0] }) ∧
    ∀ k ∈ [10, 20, 30],
      Contains { Seed := 2454886589211414944, BlockLength := 12,
                 Fingerprints := [0, 140, 0, 0, 0, 190, 0, 0, 0, 145, 0, 0, 0, 0, 0, 0, 0, 0, 0, 0,
                    0, 0, 0, 0, 0, 0, 0, 0, 0, 0, 0, 0, 0, 0, 0, 0] } k = .ret true ∧
      ([0, 140, 0, 0, 0, 190, 0, 0, 0, 145, 0, 0, 0, 0, 0, 0, 0, 0, 0, 0,
          0, 0, 0, 0, 0, 0, 0, 0, 0, 0, 0, 0, 0, 0, 0, 0] : List Nat).getD
          (geth0 { Seed := 2454886589211414944, BlockLength := 12 }
            (mixsplit k 2454886589211414944)) 0 ^^^
        ([0, 140, 0, 0, 0, 190, 0, 0, 0, 145, 0, 0, 0, 0, 0, 0, 0, 0, 0, 0,
          0, 0, 0, 0, 0, 0, 0, 0, 0, 0, 0, 0, 0, 0, 0, 0] : List Nat).getD
          (geth1 { Seed := 2454886589211414944, BlockLength := 12 }
            (mixsplit k 2454886589211414944) + 12) 0 ^^^
        ([0, 140, 0, 0, 0, 190, 0, 0, 0, 145, 0, 0, 0, 0, 0, 0, 0, 0, 0, 0,
          0, 0, 0, 0, 0, 0, 0, 0, 0, 0, 0, 0, 0, 0, 0, 0] : List Nat).getD
          (geth2 { Seed := 2454886589211414944, BlockLength := 12 }
            (mixsplit k 2454886589211414944) + 2 * 12) 0 =
        fingerprint (mixsplit k 2454886589211414944) % 2 ^ 8 :=
  ⟨by decide, by decide!,
    no_false_negatives
      { MaxIterations := 3, kiStore := [], setStore := [], RandomNumberGeneratorSeed := 12345 }
      [10, 20, 30] _ (by decide) (by decide!)⟩

/-- C2 (amended). `Contains` equals its reference definition: for every filter with
`BlockLength < 2^32` whose three reference probes are in range and whose block-2
probe is below `2^32` (so that the `uint32` additions of `Contains` do not wrap),
and every key, `Contains` returns, and returns `true` exactly when the XOR of the
fingerprints at the three reference probes is the low eight bits of
`d ^ (d >> 32)`; and the three probes are `geth0`, `geth1`, `geth2` of the digest
plus the block offsets, the slots construction uses. -/
theorem contains_eq_reference (filter : Xor8) (key : Nat)
    (hBL : filter.BlockLength < 2 ^ 32)
    (h0 : refIndex0 filter key < filter.Fingerprints.length)
    (h1 : refIndex1 filter key < filter.Fingerprints.length)
    (h2 : refIndex2 filter key < filter.Fingerprints.length)
    (h32 : refIndex2 filter key < 2 ^ 32) :
    Contains filter key = .ret (decide (ContainsRef filter key)) ∧
      refIndex0 filter key = geth0 filter.toXorFilterCommon (mixsplit key filter.Seed) ∧
      refIndex1 filter key =
        filter.BlockLength + geth1 filter.toXorFilterCommon (mixsplit key filter.Seed) ∧
      refIndex2 filter key =
        2 * filter.BlockLength + geth2 filter.toXorFilterCommon (mixsplit key filter.Seed) := by
  obtain ⟨e0, e1, e2⟩ := refIndex_eq filter key hBL
  refine ⟨?_, e0, e1, e2⟩
  have hm : ∀ x : Nat, x % 2 ^ 32 < 2 ^ 32 := fun x => Nat.mod_lt _ (by norm_num)
  have hr1 : geth1 filter.toXorFilterCommon (mixsplit key filter.Seed) ≤ filter.BlockLength := by
    unfold geth1
    by_cases hz : filter.BlockLength = 0
    · rw [hz, reduce_eq _ _ (hm _) (by norm_num)]
      simp
    · exact Nat.le_of_lt (reduce_lt _ _ (hm _) hBL (by omega))
  have g0 := getElem?_eq_some_getD filter.Fingerprints _ h0
  have g1 := getElem?_eq_some_getD filter.Fingerprints _ h1
  have g2 := getElem?_eq_some_getD filter.Fingerprints _ h2
  have p1 : (geth1 filter.toXorFilterCommon (mixsplit key filter.Seed) + filter.BlockLength) %
      2 ^ 32 = refIndex1 filter key := by
    rw [e1, Nat.mod_eq_of_lt (by omega)]; omega
  have p2 : (geth2 filter.toXorFilterCommon (mixsplit key filter.Seed) +
      (2 * filter.BlockLength) % 2 ^ 32) % 2 ^ 32 = refIndex2 filter key := by
    rw [e2, Nat.mod_eq_of_lt (a := 2 * filter.BlockLength) (by omega),
      Nat.mod_eq_of_lt (by omega)]
    omega
  simp only [geth0, geth1, geth2] at e0 p1 p2
  unfold Contains
  simp only [← e0, p1, p2, g0, g1, g2]
  congr 1
  simp only [decide_eq_decide, ContainsRef, refDigest, fingerprint, mixsplit]
  exact ⟨fun h => h.symm, fun h => h.symm⟩

/-- C2 (amended), at the filter built from the keys 1 to 5 and the key 3. -/
theorem contains_eq_reference_witness :
    (scenarioA.BlockLength < 2 ^ 32 ∧
      refIndex0 scenarioA 3 < scenarioA.Fingerprints.length ∧
      refIndex1 scenarioA 3 < scenarioA.Fingerprints.length ∧
      refIndex2 scenarioA 3 < scenarioA.Fingerprints.length ∧
      refIndex2 scenarioA 3 < 2 ^ 32) ∧
    Contains scenarioA 3 = .ret (decide (ContainsRef scenarioA 3)) ∧
    refIndex0 scenarioA 3 = geth0 scenarioA.toXorFilterCommon (mixsplit 3 scenarioA.Seed) ∧
    refIndex1 scenarioA 3 =
      scenarioA.BlockLength + geth1 scenarioA.toXorFilterCommon (mixsplit 3 scenarioA.Seed) ∧
    refIndex2 scenarioA 3 =
      2 * scenarioA.BlockLength + geth2 scenarioA.toXorFilterCommon (mixsplit 3 scenarioA.Seed) :=
  ⟨by decide!, contains_eq_reference scenarioA 3 (by decide!) (by decide!) (by decide!)
    (by decide!) (by decide!)⟩

/-- `Contains` in terms of the three bytes it reads. -/
theorem Contains_of_get (filter : Xor8) (key a b c : Nat)
    (h0 : filter.Fingerprints[reduce (mixsplit key filter.Seed % 2 ^ 32) filter.BlockLength]? =
      some a)
    (h1 : filter.Fingerprints[(reduce (rotl64 (mixsplit key filter.Seed) 21 % 2 ^ 32)
      filter.BlockLength + filter.BlockLength) % 2 ^ 32]? = some b)
    (h2 : filter.Fingerprints[(reduce (rotl64 (mixsplit key filter.Seed) 42 % 2 ^ 32)
      filter.BlockLength + (2 * filter.BlockLength) % 2 ^ 32) % 2 ^ 32]? = some c) :
    Contains filter key =
      .ret (decide (fingerprint (mixsplit key filter.Seed) % 2 ^ 8 = a ^^^ b ^^^ c)) := by
  unfold Contains
  simp only [h0, h1, h2]

theorem wideFilter_get_low (i : Nat) (hi : i < 4294967296) :
    wideFilter.Fingerprints[i]? = some 0 := by
  unfold wideFilter
  simp only []
  rw [List.getElem?_append_left (by rw [List.length_replicate]; exact hi),
    List.getElem?_replicate, if_pos hi]

theorem wideFilter_get_high (i : Nat) (hi : 4294967296 ≤ i) (hi2 : i < 6442450944) :
    wideFilter.Fingerprints[i]? = some 1 := by
  unfold wideFilter
  simp only []
  rw [List.getElem?_append_right (by rw [List.length_replicate]; exact hi),
    List.getElem?_replicate, List.length_replicate, if_pos (by omega)]

/-- C2, as stated, fails: a filter with `BlockLength = 2^31` and a `Fingerprints`
slice of `3 * 2^31` bytes, the last `2^31` of them one.  For the key 306 the three
reference probes are in range and the reference test holds, but `Contains`, whose
`2*BlockLength` wraps to zero in `uint32`, reads block 0 instead of block 2 and
returns `false`. -/
theorem contains_differs_from_reference :
    (refIndex0 wideFilter 306 = 725411246 ∧ refIndex1 wideFilter 306 = 3050276442 ∧
      refIndex2 wideFilter 306 = 5558418092 ∧ wideFilter.Fingerprints.length = 6442450944) ∧
    ContainsRef wideFilter 306 ∧ Contains wideFilter 306 = .ret false := by
  have r0 : refIndex0 wideFilter 306 = 725411246 := by decide!
  have r1 : refIndex1 wideFilter 306 = 3050276442 := by decide!
  have r2 : refIndex2 wideFilter 306 = 5558418092 := by decide!
  have hd : (refDigest wideFilter 306 ^^^ (refDigest wideFilter 306 >>> 32)) % 2 ^ 8 = 1 := by
    decide!
  have a0 := wideFilter_get_low 725411246 (by norm_num)
  have a1 := wideFilter_get_low 3050276442 (by norm_num)
  have a2 := wideFilter_get_high 5558418092 (by norm_num) (by norm_num)
  have a3 := wideFilter_get_low 1263450796 (by norm_num)
  refine ⟨⟨r0, r1, r2, ?_⟩, ?_, ?_⟩
  · unfold wideFilter
    simp only [List.length_append, List.length_replicate]
  · unfold ContainsRef
    rw [r0, r1, r2, hd, List.getD_eq_getElem?_getD, List.getD_eq_getElem?_getD,
      List.getD_eq_getElem?_getD, a0, a1, a2]
    rfl
  · have c0 : reduce (mixsplit 306 wideFilter.Seed % 2 ^ 32) wideFilter.BlockLength =
        725411246 := by decide!
    have c1 : (reduce (rotl64 (mixsplit 306 wideFilter.Seed) 21 % 2 ^ 32)
        wideFilter.BlockLength + wideFilter.BlockLength) % 2 ^ 32 = 3050276442 := by decide!
    have c2 : (reduce (rotl64 (mixsplit 306 wideFilter.Seed) 42 % 2 ^ 32)
        wideFilter.BlockLength + (2 * wideFilter.BlockLength) % 2 ^ 32) % 2 ^ 32 =
        1263450796 := by decide!
    have c3 : fingerprint (mixsplit 306 wideFilter.Seed) % 2 ^ 8 = 1 := by decide!
    rw [← c0] at a0
    rw [← c1] at a1
    rw [← c2] at a3
    rw [Contains_of_get wideFilter 306 0 0 0 a0 a1 a3, c3]
    rfl

/-- C3 (amended). Duplicate keys are rejected: for every list of fewer than `2^32`
keys in which some value occurs at least twice and for which the computed
`BlockLength` is not zero (`capacity >= 3`), and every builder whose retry budget
is below the largest `int`, `Builder.Populate` returns `ErrTooManyIterations`, so
it neither panics nor returns a filter; and under every seed the peeling attempt
places fewer than `n` keys on the stack. -/
theorem duplicates_rejected (bld : Builder) (keys : List Nat) (hdup : ¬ keys.Nodup)
    (hn : keys.length < 2 ^ 32) (hcap : 3 ≤ capacityFor keys.length)
    (hM : bld.budget < 2 ^ 63 - 1) :
    returned (bld.Populate keys) = .ret (.error .ErrTooManyIterations) ∧
      ∀ seed, AttemptFails (capacityFor keys.length / 3) keys seed := by
  have hc1 := capacityFor_lt keys.length
  have hc2 := capacityFor_div keys.length
  have hpos : 0 < capacityFor keys.length / 3 := by omega
  have hB : 3 * (capacityFor keys.length / 3) ≤ 2 ^ 32 := by omega
  have hfail := stackSizeOf_dup _ keys hpos hB hn hdup
  obtain ⟨bld1, h1⟩ := (Populate_spec bld keys hn hcap hM).1 (fun i _ _ => hfail _)
  exact ⟨returned_of_eq _ _ _ h1,
    fun seed => (attemptFails_iff _ keys hpos hB hn seed).mpr (hfail seed)⟩

/-- C3 (amended), at the key list `[42, 42]` and the zero builder. -/
theorem duplicates_rejected_witness :
    (¬ ([42, 42] : List Nat).Nodup ∧ [42, 42].length < 2 ^ 32 ∧
      3 ≤ capacityFor [42, 42].length ∧
      Builder.budget { MaxIterations := 0, kiStore := [], setStore := [],
                       RandomNumberGeneratorSeed := 0 } < 2 ^ 63 - 1) ∧
    (returned (Builder.Populate { MaxIterations := 0, kiStore := [], setStore := [],
                                  RandomNumberGeneratorSeed := 0 } [42, 42]) =
        .ret (.error .ErrTooManyIterations) ∧
      ∀ seed, AttemptFails (capacityFor [42, 42].length / 3) [42, 42] seed) :=
  ⟨by decide!,
    duplicates_rejected { MaxIterations := 0, kiStore := [], setStore := [],
                          RandomNumberGeneratorSeed := 0 } [42, 42]
      (by decide) (by decide) (by decide!) (by decide)⟩

/-- C3, as stated, fails in two places.  A list of 3491843304 copies of the key 42
gets capacity `32 + 4294967264`, which is zero in `uint32`, so `BlockLength` is zero
and the first access `sets0[hs.h0]` panics.  With `MaxIterations` the largest `int`
the test `iterations > maxIterations` never holds, so on `[42, 42]` the retry loop
uses up every bound. -/
theorem duplicates_panic_or_never_return :
    Builder.Populate { MaxIterations := 0, kiStore := [], setStore := [],
                       RandomNumberGeneratorSeed := 0 } (List.replicate 3491843304 42) = .panic ∧
    Builder.Populate { MaxIterations := 9223372036854775807, kiStore := [], setStore := [],
                       RandomNumberGeneratorSeed := 0 } [42, 42] = .timeout ∧
    ∀ fuel, retry [42, 42] 9223372036854775807 11 fuel 0 (seedNo 1 1) (rngState 1 1)
      (freshWork 2 11) = .timeout := by
  have hfail : ∀ seed, stackSizeOf 11 [42, 42] seed ≠ .ret ([42, 42] : List Nat).length :=
    stackSizeOf_dup 11 [42, 42] (by decide) (by decide) (by decide) (by decide)
  refine ⟨?_, ?_, ?_⟩
  · apply Populate_panic
    · intro h
      have := congrArg List.length h
      rw [List.length_replicate, List.length_nil] at this
      exact absurd this (by decide)
    · rw [List.length_replicate]
      decide!
    · decide
  · apply Populate_timeout
    · decide
    · decide!
    · decide
    · have h3 : capacityFor ([42, 42] : List Nat).length / 3 = 11 := by decide!
      rw [h3]
      exact hfail
  · intro fuel
    exact retry_timeout [42, 42] 11 (by decide) (by decide) (by decide) hfail fuel 0 _ _ _
      (Shape.of_getWork _ _ _)

/-- C4 (amended). Retry budget: for a list of fewer than `2^32` keys with non-zero
`BlockLength` and a builder whose budget `M` (100 when `MaxIterations` is 0) is
below the largest `int`, with `s_1, s_2, ...` the successive `splitmix64` outputs
from the starting state: `Builder.Populate` returns `ErrTooManyIterations` if and
only if the attempt with seed `s_i` fails for every `1 <= i <= M`; otherwise it
returns a filter whose seed is `s_t` for the least successful `t`, and that filter
answers "member" for every key; with a negative budget it returns the error. -/
theorem retry_budget (bld : Builder) (keys : List Nat) (hn : keys.length < 2 ^ 32)
    (hcap : 3 ≤ capacityFor keys.length) (hM : bld.budget < 2 ^ 63 - 1) :
    (returned (bld.Populate keys) = .ret (.error .ErrTooManyIterations) ↔
      ∀ i : Nat, 1 ≤ i → (i : Int) ≤ bld.budget →
        AttemptFails (capacityFor keys.length / 3) keys (seedNo bld.rng0 i)) ∧
    (¬ (∀ i : Nat, 1 ≤ i → (i : Int) ≤ bld.budget →
        AttemptFails (capacityFor keys.length / 3) keys (seedNo bld.rng0 i)) →
      ∃ (t : Nat) (filter : Xor8), 1 ≤ t ∧ (t : Int) ≤ bld.budget ∧
        ¬ AttemptFails (capacityFor keys.length / 3) keys (seedNo bld.rng0 t) ∧
        (∀ i : Nat, 1 ≤ i → i < t →
          AttemptFails (capacityFor keys.length / 3) keys (seedNo bld.rng0 i)) ∧
        returned (bld.Populate keys) = .ret (.ok filter) ∧
        filter.Seed = seedNo bld.rng0 t ∧ ∀ k ∈ keys, Contains filter k = .ret true) ∧
    (bld.budget < 0 → returned (bld.Populate keys) = .ret (.error .ErrTooManyIterations)) := by
  have hc1 := capacityFor_lt keys.length
  have hc2 := capacityFor_div keys.length
  have hpos : 0 < capacityFor keys.length / 3 := by omega
  have hB : 3 * (capacityFor keys.length / 3) ≤ 2 ^ 32 := by omega
  have hiff := attemptFails_iff _ keys hpos hB hn
  obtain ⟨hs1, hs2⟩ := Populate_spec bld keys hn hcap hM
  have herr : (∀ i : Nat, 1 ≤ i → (i : Int) ≤ bld.budget →
        AttemptFails (capacityFor keys.length / 3) keys (seedNo bld.rng0 i)) →
      returned (bld.Populate keys) = .ret (.error .ErrTooManyIterations) := by
    intro hall
    obtain ⟨bld1, h1⟩ := hs1 (fun i hi hiM => (hiff _).mp (hall i hi hiM))
    exact returned_of_eq _ _ _ h1
  have hok : ¬ (∀ i : Nat, 1 ≤ i → (i : Int) ≤ bld.budget →
        AttemptFails (capacityFor keys.length / 3) keys (seedNo bld.rng0 i)) →
      ∃ (t : Nat) (filter : Xor8), 1 ≤ t ∧ (t : Int) ≤ bld.budget ∧
        ¬ AttemptFails (capacityFor keys.length / 3) keys (seedNo bld.rng0 t) ∧
        (∀ i : Nat, 1 ≤ i → i < t →
          AttemptFails (capacityFor keys.length / 3) keys (seedNo bld.rng0 i)) ∧
        returned (bld.Populate keys) = .ret (.ok filter) ∧
        filter.Seed = seedNo bld.rng0 t ∧ ∀ k ∈ keys, Contains filter k = .ret true := by
    intro hnot
    have hex : ∃ t : Nat, 1 ≤ t ∧ (t : Int) ≤ bld.budget ∧
        ¬ AttemptFails (capacityFor keys.length / 3) keys (seedNo bld.rng0 t) := by
      by_contra hcon
      apply hnot
      intro i hi hiM
      by_contra hf
      exact hcon ⟨i, hi, hiM, hf⟩
    classical
    obtain ⟨t, ⟨ht1, htM, htf⟩, hmin⟩ : ∃ t : Nat, (1 ≤ t ∧ (t : Int) ≤ bld.budget ∧
        ¬ AttemptFails (capacityFor keys.length / 3) keys (seedNo bld.rng0 t)) ∧
        ∀ m : Nat, m < t → ¬ (1 ≤ m ∧ (m : Int) ≤ bld.budget ∧
          ¬ AttemptFails (capacityFor keys.length / 3) keys (seedNo bld.rng0 m)) :=
      ⟨Nat.find hex, Nat.find_spec hex, fun m hm => Nat.find_min hex hm⟩
    have hbefore : ∀ i : Nat, 1 ≤ i → i < t →
        AttemptFails (capacityFor keys.length / 3) keys (seedNo bld.rng0 i) := by
      intro i hi hit
      by_contra hf
      exact hmin i hit ⟨hi, by omega, hf⟩
    have hfill : stackSizeOf (capacityFor keys.length / 3) keys (seedNo bld.rng0 t) =
        .ret keys.length := by
      by_contra hne
      exact htf ((hiff _).mpr hne)
    obtain ⟨filter, bld1, h1, h2, _⟩ := hs2 t ht1 htM hfill
      (fun i hi hit => (hiff _).mp (hbefore i hi hit))
    exact ⟨t, filter, ht1, htM, htf, hbefore, returned_of_eq _ _ _ h1, h2,
      Populate_contains bld keys hn filter bld1 h1⟩
  refine ⟨⟨?_, herr⟩, hok, ?_⟩
  · intro hret
    by_contra hnot
    obtain ⟨t, filter, _, _, _, _, h5, _⟩ := hok hnot
    rw [hret] at h5
    simp at h5
  · intro hneg
    apply herr
    intro i hi hiM
    omega

/-- C4 (amended), at the keys 1, 2 and the default budget, from a seed state whose
first attempt fails. -/
theorem retry_budget_witness :
    (([1, 2] : List Nat).length < 2 ^ 32 ∧ 3 ≤ capacityFor ([1, 2] : List Nat).length ∧
      (⟨0, [], [], 12221444612327018433⟩ : Builder).budget < 2 ^ 63 - 1) ∧
    (returned ((⟨0, [], [], 12221444612327018433⟩ : Builder).Populate [1, 2]) =
        .ret (.error .ErrTooManyIterations) ↔
      ∀ i : Nat, 1 ≤ i → (i : Int) ≤ (⟨0, [], [], 12221444612327018433⟩ : Builder).budget →
        AttemptFails (capacityFor ([1, 2] : List Nat).length / 3) [1, 2]
          (seedNo (⟨0, [], [], 12221444612327018433⟩ : Builder).rng0 i)) ∧
    stackSizeOf 11 [1, 2] (seedNo 12221444612327018433 1) = .ret 0 ∧
    stackSizeOf 11 [1, 2] (seedNo 12221444612327018433 2) = .ret 2 ∧
    returned ((⟨0, [], [], 12221444612327018433⟩ : Builder).Populate [1, 2]) =
      .ret (.ok ⟨⟨seedNo 12221444612327018433 2, 11⟩, [147, 0, 220, 0, 0, 0, 0, 0, 0, 0, 0,
        0, 0, 0, 0, 0, 0, 0, 0, 0, 0, 0, 0, 0, 0, 0, 0, 0, 0, 0, 0, 0, 0]⟩) :=
  ⟨by decide!,
    (retry_budget ⟨0, [], [], 12221444612327018433⟩ [1, 2]
      (by decide) (by decide!) (by decide)).1,
    by decide!, by decide!, by decide!⟩

/-- C4, as stated, fails in two places.  For the 3491843305 keys 0, 1, 2, ... the
capacity `32 + 4294967266` is 2 in `uint32`, `BlockLength` is zero and the first
attempt panics: neither the error nor a filter is returned.  With `MaxIterations`
the largest `int` and the keys `[9, 9]` every attempt fails, yet the retry loop
uses up every bound instead of returning the error. -/
theorem budget_panic_or_never_return :
    Builder.Populate { MaxIterations := 5, kiStore := [], setStore := [],
                       RandomNumberGeneratorSeed := 3 } (List.range 3491843305) = .panic ∧
    Builder.Populate { MaxIterations := 9223372036854775807, kiStore := [], setStore := [],
                       RandomNumberGeneratorSeed := 7 } [9, 9] = .timeout ∧
    ∀ fuel, retry [9, 9] 9223372036854775807 11 fuel 0 (seedNo 7 1) (rngState 7 1)
      (freshWork 2 11) = .timeout := by
  have hfail : ∀ seed, stackSizeOf 11 [9, 9] seed ≠ .ret ([9, 9] : List Nat).length :=
    stackSizeOf_dup 11 [9, 9] (by decide) (by decide) (by decide) (by decide)
  refine ⟨?_, ?_, ?_⟩
  · apply Populate_panic
    · intro h
      have := congrArg List.length h
      rw [List.length_range, List.length_nil] at this
      exact absurd this (by decide)
    · rw [List.length_range]
      decide!
    · decide
  · apply Populate_timeout
    · decide
    · decide!
    · decide
    · have h3 : capacityFor ([9, 9] : List Nat).length / 3 = 11 := by decide!
      rw [h3]
      exact hfail
  · intro fuel
    exact retry_timeout [9, 9] 11 (by decide) (by decide) (by decide) hfail fuel 0 _ _ _
      (Shape.of_getWork _ _ _)

/-- C5. `Contains` never fails on a constructed filter: for every filter returned by
`Builder.Populate` (any builder, any key list) and every key, `Contains` returns a
value; the `uint32` sums `h1 + BlockLength`, `2*BlockLength` and
`h2 + 2*BlockLength` do not overflow; and the three indices satisfy
`i0 < BlockLength <= i1 < 2*BlockLength <= i2 < 3*BlockLength = len(Fingerprints)`. -/
theorem contains_never_fails (bld : Builder) (keys : List Nat) (filter : Xor8)
    (h : returned (bld.Populate keys) = .ret (.ok filter)) (key : Nat) :
    (∃ b, Contains filter key = .ret b) ∧
      geth1 filter.toXorFilterCommon (mixsplit key filter.Seed) + filter.BlockLength < 2 ^ 32 ∧
      2 * filter.BlockLength < 2 ^ 32 ∧
      geth2 filter.toXorFilterCommon (mixsplit key filter.Seed) + 2 * filter.BlockLength <
        2 ^ 32 ∧
      geth0 filter.toXorFilterCommon (mixsplit key filter.Seed) < filter.BlockLength ∧
      filter.BlockLength ≤
        geth1 filter.toXorFilterCommon (mixsplit key filter.Seed) + filter.BlockLength ∧
      geth1 filter.toXorFilterCommon (mixsplit key filter.Seed) + filter.BlockLength <
        2 * filter.BlockLength ∧
      2 * filter.BlockLength ≤
        geth2 filter.toXorFilterCommon (mixsplit key filter.Seed) + 2 * filter.BlockLength ∧
      geth2 filter.toXorFilterCommon (mixsplit key filter.Seed) + 2 * filter.BlockLength <
        3 * filter.BlockLength ∧
      3 * filter.BlockLength = filter.Fingerprints.length := by
  obtain ⟨bld1, h1⟩ := returned_ok _ _ h
  obtain ⟨hpos, _, hlen, hB⟩ := Populate_shape bld keys filter bld1 h1
  have s0 := slot_lt filter.toXorFilterCommon 0 (mixsplit key filter.Seed) hpos (by omega)
  have s1 := slot_lt filter.toXorFilterCommon 1 (mixsplit key filter.Seed) hpos (by omega)
  have s2 := slot_lt filter.toXorFilterCommon 2 (mixsplit key filter.Seed) hpos (by omega)
  simp only [slot] at s0 s1 s2
  refine ⟨⟨_, Contains_eq filter hpos (by omega) hlen key⟩, ?_, ?_, ?_, ?_, ?_, ?_, ?_, ?_, ?_⟩ <;>
    omega

/-- C5, at the filter built from no keys by a builder with dirty stores, and the
key 12345. -/
theorem contains_never_fails_witness :
    returned ((⟨1, [⟨1, 2⟩], [⟨3, 4⟩], 0⟩ : Builder).Populate []) = .ret (.ok emptyFilter) ∧
    (∃ b, Contains emptyFilter 12345 = .ret b) ∧
    3 * emptyFilter.BlockLength = emptyFilter.Fingerprints.length :=
  ⟨by decide!,
    (contains_never_fails ⟨1, [⟨1, 2⟩], [⟨3, 4⟩], 0⟩ [] emptyFilter (by decide!) 12345).1,
    (contains_never_fails ⟨1, [⟨1, 2⟩], [⟨3, 4⟩], 0⟩ [] emptyFilter
      (by decide!) 12345).2.2.2.2.2.2.2.2.2⟩

/-- C6. Shape invariant of every constructed filter: for every list of fewer than
`2^32` keys (the empty list included) for which `Builder.Populate` returns a
filter, `len(Fingerprints) = 3 * BlockLength` and `BlockLength >= 10`. -/
theorem constructed_filter_shape (bld : Builder) (keys : List Nat) (filter : Xor8)
    (hn : keys.length < 2 ^ 32) (h : returned (bld.Populate keys) = .ret (.ok filter)) :
    filter.Fingerprints.length = 3 * filter.BlockLength ∧ 10 ≤ filter.BlockLength := by
  obtain ⟨bld1, h1⟩ := returned_ok _ _ h
  obtain ⟨_, hbl, hlen, _, hle, _⟩ := Populate_ok bld keys hn filter bld1 h1
  refine ⟨hlen, ?_⟩
  have hcap := capacityFor_eq keys.length hn
  have hdiv := capacityFor_div keys.length
  rw [hbl] at hle ⊢
  by_cases hw : 32 + (123 * keys.length + 99) / 100 < 2 ^ 32
  · rw [Nat.mod_eq_of_lt hw] at hcap
    omega
  · have hmod : (32 + (123 * keys.length + 99) / 100) % 2 ^ 32 =
        32 + (123 * keys.length + 99) / 100 - 2 ^ 32 := by
      rw [Nat.mod_eq_sub_mod (by omega), Nat.mod_eq_of_lt (by omega)]
    rw [hmod] at hcap
    omega

/-- C6, at the single key 7 and the zero builder. -/
theorem constructed_filter_shape_witness :
    ([7] : List Nat).length < 2 ^ 32 ∧
    returned ((⟨0, [], [], 0⟩ : Builder).Populate [7]) =
      .ret (.ok ⟨⟨10451216379200822465, 11⟩, [0, 0, 0, 0, 0, 141, 0, 0, 0, 0, 0, 0, 0, 0, 0, 0,
        0, 0, 0, 0, 0, 0, 0, 0, 0, 0, 0, 0, 0, 0, 0, 0, 0]⟩) ∧
    ([0, 0, 0, 0, 0, 141, 0, 0, 0, 0, 0, 0, 0, 0, 0, 0,
        0, 0, 0, 0, 0, 0, 0, 0, 0, 0, 0, 0, 0, 0, 0, 0, 0] : List Nat).length = 3 * 11 ∧
    10 ≤ 11 :=
  ⟨by decide, by decide!,
    constructed_filter_shape ⟨0, [], [], 0⟩ [7] ⟨⟨10451216379200822465, 11⟩, _⟩ (by decide)
      (by decide!)⟩

/-- C7. Sizing formula: for a list of `n` keys with `32 + ceil(123*n/100) < 2^32` for
which `Builder.Populate` returns a filter, the `float64` computation
`math.Ceil(1.23*float64(n))` equals the ceiling of the exact product `123*n/100`,
`BlockLength = floor((32 + ceil(123*n/100)) / 3)` and
`len(Fingerprints) = 3 * BlockLength`. -/
theorem sizing_formula (bld : Builder) (keys : List Nat) (filter : Xor8)
    (hfit : 32 + (123 * keys.length + 99) / 100 < 2 ^ 32)
    (h : returned (bld.Populate keys) = .ret (.ok filter)) :
    f64Ceil (f64Mul f64_1_23 (f64OfNat keys.length)) = (123 * keys.length + 99) / 100 ∧
      filter.BlockLength = (32 + (123 * keys.length + 99) / 100) / 3 ∧
      filter.Fingerprints.length = 3 * filter.BlockLength := by
  have hn : keys.length < 2 ^ 32 := by omega
  obtain ⟨bld1, h1⟩ := returned_ok _ _ h
  obtain ⟨_, hbl, hlen, _⟩ := Populate_shape bld keys filter bld1 h1
  refine ⟨ceil_1_23 keys.length hn, ?_, hlen⟩
  rw [hbl, capacityFor_eq keys.length hn]
  omega

/-- C7, at the keys 5, 6 and a builder with budget 5 and seed state 99. -/
theorem sizing_formula_witness :
    32 + (123 * ([5, 6] : List Nat).length + 99) / 100 < 2 ^ 32 ∧
    returned ((⟨5, [], [], 99⟩ : Builder).Populate [5, 6]) =
      .ret (.ok ⟨⟨4824385676517010403, 11⟩, [0, 0, 0, 0, 0, 0, 0, 0, 0, 0, 0, 0, 0, 0, 149, 0,
        0, 0, 0, 0, 0, 51, 0, 0, 0, 0, 0, 0, 0, 0, 0, 0, 0]⟩) ∧
    f64Ceil (f64Mul f64_1_23 (f64OfNat ([5, 6] : List Nat).length)) =
      (123 * ([5, 6] : List Nat).length + 99) / 100 ∧
    11 = (32 + (123 * ([5, 6] : List Nat).length + 99) / 100) / 3 ∧
    ([0, 0, 0, 0, 0, 0, 0, 0, 0, 0, 0, 0, 0, 0, 149, 0,
        0, 0, 0, 0, 0, 51, 0, 0, 0, 0, 0, 0, 0, 0, 0, 0, 0] : List Nat).length = 3 * 11 :=
  ⟨by decide, by decide!,
    sizing_formula ⟨5, [], [], 99⟩ [5, 6] ⟨⟨4824385676517010403, 11⟩, _⟩ (by decide)
      (by decide!)⟩

/-- C8. Empty key set: the package-level `Populate` applied to no keys returns, on
its first attempt, the filter with `BlockLength = 10`, thirty zero bytes and the
first `splitmix64` output from state 1 as seed; on that filter `Contains(k)` is
`true` exactly when the low eight bits of `fingerprint(mixsplit(k, Seed))` are
zero. -/
theorem empty_key_set :
    Populate [] = .ret (.ok emptyFilter) ∧
      emptyFilter.BlockLength = 10 ∧ emptyFilter.Fingerprints = List.replicate 30 0 ∧
      emptyFilter.Seed = (splitmix64 1).1 ∧
      stackSizeOf 10 [] (splitmix64 1).1 = .ret 0 ∧
      ∀ k, Contains emptyFilter k =
        .ret (decide (fingerprint (mixsplit k emptyFilter.Seed) % 2 ^ 8 = 0)) := by
  refine ⟨by decide!, rfl, rfl, by decide!, by decide!, ?_⟩
  intro k
  rw [Contains_eq emptyFilter (by decide) (by decide) (by decide) k]
  congr 1
  simp only [decide_eq_decide, Sat, emptyFilter, getD_replicate_zero]
  exact ⟨fun h => h.symm, fun h => h.symm⟩

/-- C9. Scenario A: the package-level `Populate` applied to the keys 1, 2, 3, 4, 5
returns a filter with a nil error, and `Contains` returns `true` on that filter
for each of the five keys. -/
theorem scenario_A :
    Populate [1, 2, 3, 4, 5] = .ret (.ok scenarioA) ∧
      Contains scenarioA 1 = .ret true ∧ Contains scenarioA 2 = .ret true ∧
      Contains scenarioA 3 = .ret true ∧ Contains scenarioA 4 = .ret true ∧
      Contains scenarioA 5 = .ret true := by
  decide!

/-- C10. Determinism and independence from the scratch buffers: two builders that
agree on `MaxIterations` and `RandomNumberGeneratorSeed`, whatever their `kiStore`
and `setStore` hold, return the same result from `Builder.Populate` on every key
list (the same error, or filters with the same seed, block length and
fingerprints, or the same panic) and are left with the same
`RandomNumberGeneratorSeed`. -/
theorem populate_independent_of_scratch (b1 b2 : Builder) (keys : List Nat)
    (hM : b1.MaxIterations = b2.MaxIterations)
    (hR : b1.RandomNumberGeneratorSeed = b2.RandomNumberGeneratorSeed) :
    observe (b1.Populate keys) = observe (b2.Populate keys) :=
  Populate_observe b1 b2 keys hM hR

/-- C10, at the keys 1, 2, 3: a builder with empty stores and one whose stores are
long enough to be reused and hold old data. -/
theorem populate_independent_of_scratch_witness :
    ((⟨3, [], [], 7⟩ : Builder).MaxIterations =
        (⟨3, List.replicate 50 ⟨99, 7⟩, List.replicate 40 ⟨5, 3⟩, 7⟩ : Builder).MaxIterations ∧
      (⟨3, [], [], 7⟩ : Builder).RandomNumberGeneratorSeed =
        (⟨3, List.replicate 50 ⟨99, 7⟩, List.replicate 40 ⟨5, 3⟩, 7⟩ :
          Builder).RandomNumberGeneratorSeed) ∧
    observe ((⟨3, [], [], 7⟩ : Builder).Populate [1, 2, 3]) =
      observe ((⟨3, List.replicate 50 ⟨99, 7⟩, List.replicate 40 ⟨5, 3⟩, 7⟩ :
        Builder).Populate [1, 2, 3]) ∧
    observe ((⟨3, List.replicate 50 ⟨99, 7⟩, List.replicate 40 ⟨5, 3⟩, 7⟩ :
        Builder).Populate [1, 2, 3]) =
      .ret (.ok ⟨⟨7191089600892374487, 12⟩, [0, 6, 0, 0, 0, 0, 0, 0, 0, 0, 0, 0, 0, 0, 102, 0,
        0, 0, 0, 0, 0, 0, 24, 0, 0, 0, 0, 0, 0, 0, 0, 0, 0, 0, 0, 0]⟩, 11400714819323198492) :=
  ⟨⟨rfl, rfl⟩,
    populate_independent_of_scratch ⟨3, [], [], 7⟩
      ⟨3, List.replicate 50 ⟨99, 7⟩, List.replicate 40 ⟨5, 3⟩, 7⟩ [1, 2, 3] rfl rfl,
    by decide!⟩

/-! ### `murmur64` is a bijection on 64-bit values -/

theorem shiftRight_xor (a b i : Nat) : (a ^^^ b) >>> i = (a >>> i) ^^^ (b >>> i) := by
  apply Nat.eq_of_testBit_eq
  intro j
  simp only [Nat.testBit_shiftRight, Nat.testBit_xor]

theorem xor_mod_two_pow (a b n : Nat) : (a ^^^ b) % 2 ^ n = (a % 2 ^ n) ^^^ (b % 2 ^ n) := by
  apply Nat.eq_of_testBit_eq
  intro j
  simp only [Nat.testBit_mod_two_pow, Nat.testBit_xor]
  by_cases h : j < n <;> simp [h]

/-- The step `h ^= h >> 33` is its own inverse on 64-bit values. -/
theorem xorshift33_invol (x : Nat) (hx : x < 2 ^ 64) :
    (x ^^^ (x >>> 33)) ^^^ ((x ^^^ (x >>> 33)) >>> 33) = x := by
  rw [shiftRight_xor, ← Nat.shiftRight_add]
  have h0 : x >>> (33 + 33) = 0 := by
    rw [Nat.shiftRight_eq_div_pow]
    exact Nat.div_eq_of_lt (by omega)
  rw [h0, Nat.xor_zero, Nat.xor_assoc, Nat.xor_self, Nat.xor_zero]

theorem xorshift33_lt (x : Nat) (hx : x < 2 ^ 64) : x ^^^ (x >>> 33) < 2 ^ 64 := by
  refine Nat.xor_lt_two_pow hx ?_
  rw [Nat.shiftRight_eq_div_pow]
  exact Nat.lt_of_le_of_lt (Nat.div_le_self _ _) hx

/-- Multiplication by a unit modulo `2^64` is undone by its inverse. -/
theorem mul_inv_mod (x c ci : Nat) (hx : x < 2 ^ 64) (h : (c * ci) % 2 ^ 64 = 1) :
    ((x * c) % 2 ^ 64 * ci) % 2 ^ 64 = x := by
  rw [Nat.mod_mul_mod, Nat.mul_assoc, ← Nat.mul_mod_mod, h, Nat.mul_one, Nat.mod_eq_of_lt hx]

theorem murmur64_lt (x : Nat) : murmur64 x < 2 ^ 64 := by
  unfold murmur64
  exact xorshift33_lt _ (Nat.mod_lt _ (by norm_num))

theorem murmur64Inv_lt (x : Nat) : murmur64Inv x < 2 ^ 64 := by
  unfold murmur64Inv
  exact xorshift33_lt _ (Nat.mod_lt _ (by norm_num))

theorem murmur64Inv_murmur64 (x : Nat) (hx : x < 2 ^ 64) : murmur64Inv (murmur64 x) = x := by
  have hm : ∀ y : Nat, y % 2 ^ 64 < 2 ^ 64 := fun y => Nat.mod_lt _ (by norm_num)
  have ha := xorshift33_lt x hx
  unfold murmur64 murmur64Inv
  simp only []
  rw [xorshift33_invol _ (hm _), mul_inv_mod _ _ _ (xorshift33_lt _ (hm _)) (by decide),
    xorshift33_invol _ (hm _), mul_inv_mod _ _ _ ha (by decide), xorshift33_invol _ hx]

theorem murmur64_murmur64Inv (x : Nat) (hx : x < 2 ^ 64) : murmur64 (murmur64Inv x) = x := by
  have hm : ∀ y : Nat, y % 2 ^ 64 < 2 ^ 64 := fun y => Nat.mod_lt _ (by norm_num)
  have ha := xorshift33_lt x hx
  unfold murmur64 murmur64Inv
  simp only []
  rw [xorshift33_invol _ (hm _), mul_inv_mod _ _ _ (xorshift33_lt _ (hm _)) (by decide),
    xorshift33_invol _ (hm _), mul_inv_mod _ _ _ ha (by decide), xorshift33_invol _ hx]

theorem murmur64_inj (x y : Nat) (hx : x < 2 ^ 64) (hy : y < 2 ^ 64)
    (h : murmur64 x = murmur64 y) : x = y := by
  rw [← murmur64Inv_murmur64 x hx, ← murmur64Inv_murmur64 y hy, h]

theorem mixsplit_inj (k1 k2 seed : Nat) (h1 : k1 < 2 ^ 64) (h2 : k2 < 2 ^ 64)
    (h : mixsplit k1 seed = mixsplit k2 seed) : k1 = k2 := by
  unfold mixsplit at h
  have hm : ∀ y : Nat, y % 2 ^ 64 < 2 ^ 64 := fun y => Nat.mod_lt _ (by norm_num)
  have := murmur64_inj _ _ (hm _) (hm _) h
  have e1 : (k1 + seed) % 2 ^ 64 = (k1 + seed % 2 ^ 64) % 2 ^ 64 := by rw [Nat.add_mod_mod]
  have e2 : (k2 + seed) % 2 ^ 64 = (k2 + seed % 2 ^ 64) % 2 ^ 64 := by rw [Nat.add_mod_mod]
  rw [e1, e2] at this
  have hs := hm seed
  omega

/-! ### Counting the keys that the empty filter accepts -/

theorem fingerprint_zero_iff (d : Nat) :
    fingerprint d % 2 ^ 8 = 0 ↔ d % 256 = (d / 4294967296) % 256 := by
  unfold fingerprint
  rw [xor_mod_two_pow, Nat.xor_eq_zero, Nat.shiftRight_eq_div_pow]
  norm_num

/-- Of the `2^64` digests, `2^56` have the 8-bit fingerprint zero. -/
theorem card_fingerprint_zero :
    ((Finset.range (2 ^ 64)).filter fun d => fingerprint d % 2 ^ 8 = 0).card = 2 ^ 56 := by
  have h := Finset.card_nbij' (s := Finset.range 72057594037927936)
    (t := (Finset.range 18446744073709551616).filter fun d => fingerprint d % 2 ^ 8 = 0)
    (fun q => 256 * q + (q / 16777216) % 256) (fun d => d / 256)
    (by
      intro q hq
      simp only [Finset.mem_filter, Finset.mem_range, fingerprint_zero_iff] at hq ⊢
      have hA : (256 * q + (q / 16777216) % 256) / 4294967296 = q / 16777216 := by
        rw [show 4294967296 = 256 * 16777216 from rfl, ← Nat.div_div_eq_div_mul]
        congr 1
        omega
      rw [hA]
      omega)
    (by
      intro d hd
      simp only [Finset.mem_filter, Finset.mem_range, fingerprint_zero_iff] at hd ⊢
      omega)
    (by
      intro q hq
      show (256 * q + (q / 16777216) % 256) / 256 = q
      omega)
    (by
      intro d hd
      simp only [Finset.mem_filter, Finset.mem_range, fingerprint_zero_iff] at hd
      show 256 * (d / 256) + (d / 256 / 16777216) % 256 = d
      rw [Nat.div_div_eq_div_mul]
      omega)
  have e1 : (2 : Nat) ^ 64 = 18446744073709551616 := by norm_num
  have e2 : (2 : Nat) ^ 56 = 72057594037927936 := by norm_num
  rw [e1, e2, ← h, Finset.card_range]

/-- On a filter of three blocks of ten zero fingerprints, `Contains` tests whether
the 8-bit fingerprint of the digest is zero. -/
theorem Contains_zeroFilter (seed k : Nat) :
    Contains { Seed := seed, BlockLength := 10, Fingerprints := List.replicate 30 0 } k =
      .ret (decide (fingerprint (mixsplit k seed) % 2 ^ 8 = 0)) := by
  rw [Contains_eq _ (by norm_num) (by norm_num) (by simp) k]
  congr 1
  simp only [decide_eq_decide, Sat, getD_replicate_zero]
  exact ⟨fun h => h.symm, fun h => h.symm⟩

/-- A filter of three blocks of ten zero fingerprints accepts `2^56` of the `2^64`
keys, whatever its seed. -/
theorem card_acceptedKeys_zeroFilter (seed : Nat) :
    (acceptedKeys { Seed := seed, BlockLength := 10,
                    Fingerprints := List.replicate 30 0 }).card = 2 ^ 56 := by
  rw [← card_fingerprint_zero]
  have hm : ∀ y : Nat, y % 2 ^ 64 < 2 ^ 64 := fun y => Nat.mod_lt _ (by norm_num)
  have hs := hm seed
  have e1 : ∀ k : Nat, (k + seed) % 2 ^ 64 = (k + seed % 2 ^ 64) % 2 ^ 64 :=
    fun k => by rw [Nat.add_mod_mod]
  have back : ∀ d : Nat, ((murmur64Inv d + (2 ^ 64 - seed % 2 ^ 64)) % 2 ^ 64 + seed) % 2 ^ 64 =
      murmur64Inv d := by
    intro d
    have hi := murmur64Inv_lt d
    rw [e1]
    omega
  refine Finset.card_nbij' (fun k => mixsplit k seed)
    (fun d => (murmur64Inv d + (2 ^ 64 - seed % 2 ^ 64)) % 2 ^ 64) ?_ ?_ ?_ ?_
  · intro k hk
    simp only [acceptedKeys, Contains_zeroFilter, Finset.mem_filter, Finset.mem_range,
      Outcome.ret.injEq, decide_eq_true_eq] at hk ⊢
    exact ⟨murmur64_lt _, hk.2⟩
  · intro d hd
    simp only [acceptedKeys, Contains_zeroFilter, Finset.mem_filter, Finset.mem_range,
      Outcome.ret.injEq, decide_eq_true_eq] at hd ⊢
    refine ⟨hm _, ?_⟩
    unfold mixsplit
    rw [back d, murmur64_murmur64Inv d hd.1]
    exact hd.2
  · intro k hk
    simp only [acceptedKeys, Finset.mem_filter, Finset.mem_range] at hk
    show (murmur64Inv (mixsplit k seed) + (2 ^ 64 - seed % 2 ^ 64)) % 2 ^ 64 = k
    unfold mixsplit
    rw [murmur64Inv_murmur64 _ (hm _), e1]
    omega
  · intro d hd
    simp only [Finset.mem_filter, Finset.mem_range] at hd
    show mixsplit ((murmur64Inv d + (2 ^ 64 - seed % 2 ^ 64)) % 2 ^ 64) seed = d
    unfold mixsplit
    rw [back d, murmur64_murmur64Inv d hd.1]

/-! ### The accumulation pass does not depend on the order of the keys -/

theorem addKey_eq (setsi : List xorset) (hi h : Nat) :
    addKey setsi hi h = if hi < setsi.length then .ret (bump setsi hi h) else .panic := by
  unfold addKey bump
  by_cases hlt : hi < setsi.length
  · rw [if_pos hlt, List.getElem?_eq_getElem hlt, List.getD_eq_getElem _ _ hlt]
  · rw [if_neg hlt, List.getElem?_eq_none (by omega)]

theorem bump_length (setsi : List xorset) (hi h : Nat) : (bump setsi hi h).length = setsi.length := by
  unfold bump
  rw [List.length_set]

theorem getD_set_self_xorset (l : List xorset) (i : Nat) (v d : xorset) (hi : i < l.length) :
    (l.set i v).getD i d = v := by
  rw [List.getD_eq_getElem?_getD, List.getElem?_set_self hi]
  rfl

theorem getD_set_ne_xorset (l : List xorset) (i j : Nat) (v d : xorset) (hne : i ≠ j) :
    (l.set i v).getD j d = l.getD j d := by
  rw [List.getD_eq_getElem?_getD, List.getD_eq_getElem?_getD, List.getElem?_set_ne hne]

theorem bump_comm (setsi : List xorset) (i x j y : Nat) :
    bump (bump setsi i x) j y = bump (bump setsi j y) i x := by
  by_cases hij : i = j
  · subst hij
    by_cases hi : i < setsi.length
    · unfold bump
      rw [getD_set_self_xorset _ _ _ _ hi, getD_set_self_xorset _ _ _ _ hi, List.set_set,
        List.set_set]
      congr 2
      rw [Nat.xor_assoc, Nat.xor_assoc, Nat.xor_comm x y]
    · have e : ∀ v : xorset, setsi.set i v = setsi :=
        fun v => List.set_eq_of_length_le (by omega)
      unfold bump
      simp only [e]
  · unfold bump
    rw [getD_set_ne_xorset _ _ _ _ _ hij, getD_set_ne_xorset _ _ _ _ _ (Ne.symm hij),
      List.set_comm _ _ _ hij]

theorem accumulate_cons_eq (f : XorFilterCommon) (k : Nat) (rest : List Nat) (w : work) :
    accumulate f (k :: rest) w =
      if slot f 0 (mixsplit k f.Seed) < w.sets0.length ∧
          slot f 1 (mixsplit k f.Seed) < w.sets1.length ∧
          slot f 2 (mixsplit k f.Seed) < w.sets2.length then
        accumulate f rest
          { w with sets0 := bump w.sets0 (slot f 0 (mixsplit k f.Seed)) (mixsplit k f.Seed),
                   sets1 := bump w.sets1 (slot f 1 (mixsplit k f.Seed)) (mixsplit k f.Seed),
                   sets2 := bump w.sets2 (slot f 2 (mixsplit k f.Seed)) (mixsplit k f.Seed) }
      else .panic := by
  rw [accumulate]
  simp only [geth0h1h2_eq, addKey_eq, slot, geth0, geth1, geth2]
  by_cases h0 : reduce (mixsplit k f.Seed % 2 ^ 32) f.BlockLength < w.sets0.length
  · by_cases h1 : reduce (rotl64 (mixsplit k f.Seed) 21 % 2 ^ 32) f.BlockLength < w.sets1.length
    · by_cases h2 : reduce (rotl64 (mixsplit k f.Seed) 42 % 2 ^ 32) f.BlockLength <
          w.sets2.length
      · simp only [h0, h1, h2, if_true, if_false, and_self, and_true, true_and, and_false,
          false_and, Outcome.ret_bind, Outcome.panic_bind]
      · simp only [h0, h1, h2, if_true, if_false, and_self, and_true, true_and, and_false,
          false_and, Outcome.ret_bind, Outcome.panic_bind]
    · simp only [h0, h1, if_true, if_false, and_self, and_true, true_and, and_false,
        false_and, Outcome.ret_bind, Outcome.panic_bind]
  · simp only [h0, if_true, if_false, and_self, and_true, true_and, and_false,
      false_and, Outcome.ret_bind, Outcome.panic_bind]

theorem accumulate_swap (f : XorFilterCommon) (a b : Nat) (rest : List Nat) (w : work) :
    accumulate f (a :: b :: rest) w = accumulate f (b :: a :: rest) w := by
  simp only [accumulate_cons_eq, bump_length]
  by_cases ha : slot f 0 (mixsplit a f.Seed) < w.sets0.length ∧
      slot f 1 (mixsplit a f.Seed) < w.sets1.length ∧
      slot f 2 (mixsplit a f.Seed) < w.sets2.length
  · by_cases hb : slot f 0 (mixsplit b f.Seed) < w.sets0.length ∧
        slot f 1 (mixsplit b f.Seed) < w.sets1.length ∧
        slot f 2 (mixsplit b f.Seed) < w.sets2.length
    · rw [if_pos ha, if_pos hb, if_pos hb, if_pos ha]
      rw [bump_comm w.sets0, bump_comm w.sets1, bump_comm w.sets2]
    · rw [if_pos ha, if_neg hb, if_neg hb]
  · by_cases hb : slot f 0 (mixsplit b f.Seed) < w.sets0.length ∧
        slot f 1 (mixsplit b f.Seed) < w.sets1.length ∧
        slot f 2 (mixsplit b f.Seed) < w.sets2.length
    · rw [if_neg ha, if_pos hb, if_neg ha]
    · rw [if_neg ha, if_neg hb]

theorem accumulate_perm (f : XorFilterCommon) (l1 l2 : List Nat) (p : l1.Perm l2) :
    ∀ w, accumulate f l1 w = accumulate f l2 w := by
  induction p with
  | nil => intro w; rfl
  | cons x _ ih =>
    intro w
    rw [accumulate_cons_eq, accumulate_cons_eq, ih]
  | swap x y l =>
    intro w
    exact accumulate_swap f y x l w
  | trans _ _ ih1 ih2 =>
    intro w
    rw [ih1, ih2]

theorem attempt_perm (f : XorFilterCommon) (l1 l2 : List Nat) (p : l1.Perm l2) (w : work) :
    attempt f l1 w = attempt f l2 w := by
  unfold attempt
  rw [accumulate_perm f l1 l2 p, p.length_eq]

theorem retry_perm (l1 l2 : List Nat) (p : l1.Perm l2) (M : Int) (B : Nat) (fuel : Nat) :
    ∀ (it : Int) (Seed rng : Nat) (w : work),
      retry l1 M B fuel it Seed rng w = retry l2 M B fuel it Seed rng w := by
  induction fuel with
  | zero => intro it Seed rng w; rfl
  | succ n ih =>
    intro it Seed rng w
    simp only [retry, attempt_perm _ l1 l2 p, p.length_eq, ih]

/-- `Builder.Populate` gives the same result, and leaves the same builder, for two
key lists that are permutations of each other. -/
theorem Populate_perm (bld : Builder) (l1 l2 : List Nat) (p : l1.Perm l2) :
    bld.Populate l1 = bld.Populate l2 := by
  rw [Populate_eq, Populate_eq, retry_perm l1 l2 p, p.length_eq]

/-! ### The stack of a successful `populateCommon` and the assignment pass -/

theorem assignOne_frame (f : XorFilterCommon) (ki : keyindex) (F F1 : List Nat)
    (h : assignOne f ki F = .ret F1) (idx : Nat) (hne : ki.index ≠ idx) :
    F1.getD idx 0 = F.getD idx 0 := by
  unfold assignOne at h
  simp only [] at h
  split at h
  · simp at h
  · split at h
    · simp only [Outcome.ret.injEq] at h
      rw [← h]
      exact getD_set_ne F ki.index idx _ hne
    · simp at h

/-- The part of the assignment pass that handles the stack positions below `j`
leaves every slot alone that is not the recorded index of one of these positions. -/
theorem assign_frame (f : XorFilterCommon) (stack : List keyindex) (j : Nat) :
    ∀ F F1 : List Nat, assign f stack j F = .ret F1 →
      ∀ idx : Nat, (∀ (i : Nat) (e : keyindex), i < j → stack[i]? = some e → e.index ≠ idx) →
        F1.getD idx 0 = F.getD idx 0 := by
  induction j with
  | zero =>
    intro F F1 h idx _
    simp only [assign, Outcome.ret.injEq] at h
    rw [h]
  | succ n ih =>
    intro F F1 h idx hidx
    simp only [assign] at h
    cases hs : stack[n]? with
    | none => rw [hs] at h; simp at h
    | some ki =>
      rw [hs] at h
      simp only [] at h
      cases ha : assignOne f ki F with
      | panic => rw [ha] at h; simp at h
      | timeout => rw [ha] at h; simp at h
      | ret F2 =>
        rw [ha, Outcome.bind_ret_eq] at h
        rw [ih F2 F1 h idx (fun i e hi he => hidx i e (by omega) he)]
        exact assignOne_frame f ki F F2 ha idx (hidx n ki (by omega) hs)

theorem Peeled.stack_length {f : XorFilterCommon} {H : List Nat} {stack : List keyindex}
    (hp : Peeled f H stack) : stack.length = H.length := by
  obtain ⟨P, hs, hperm, _, _⟩ := hp
  have := hperm.length_eq
  rw [hs]
  simpa using this

theorem Peeled.hashes {f : XorFilterCommon} {H : List Nat} {stack : List keyindex}
    (hp : Peeled f H stack) :
    (stack.map keyindex.hash).Perm H ∧ (stack.map keyindex.hash).Nodup := by
  obtain ⟨P, hs, hperm, _, hord⟩ := hp
  have e : stack.map keyindex.hash = (P.map fun e => e.2).reverse := by
    rw [hs, ← List.map_reverse, List.map_map, ← List.map_reverse]
    rfl
  rw [e]
  refine ⟨(List.reverse_perm _).trans hperm, List.nodup_reverse.mpr ?_⟩
  unfold List.Nodup
  rw [List.pairwise_map]
  refine hord.imp ?_
  intro a b hab heq
  exact hab (by rw [heq])

theorem Peeled.home {f : XorFilterCommon} {H : List Nat} {stack : List keyindex}
    (hp : Peeled f H stack) :
    ∀ e ∈ stack, ∃ b, b < 3 ∧ e.index = b * f.BlockLength + slot f b e.hash := by
  obtain ⟨P, hs, _, hb3, _⟩ := hp
  intro e he
  rw [hs, List.mem_reverse, List.mem_map] at he
  obtain ⟨p, hpP, rfl⟩ := he
  exact ⟨p.1, hb3 p hpP, rfl⟩

/-- In a peeled stack the recorded index of an entry is none of the three slots of
an entry further up. -/
theorem Peeled.order {f : XorFilterCommon} {H : List Nat} {stack : List keyindex}
    (hp : Peeled f H stack) (hpos : 0 < f.BlockLength) (hB : 3 * f.BlockLength ≤ 2 ^ 32) :
    ∀ (i j : Nat) (ei ej : keyindex), i < j → stack[i]? = some ei → stack[j]? = some ej →
      ∀ b, b < 3 → ei.index ≠ gslot f b ej.hash := by
  obtain ⟨P, hs, _, hb3, hord⟩ := hp
  have hrev : (P.reverse).Pairwise fun a b => slot f a.1 b.2 ≠ slot f a.1 a.2 := by
    rw [List.pairwise_reverse]
    exact hord
  have hst : stack = P.reverse.map (entry f) := by rw [hs, List.map_reverse]
  intro i j ei ej hij hi hj b hb
  rw [hst, List.getElem?_map] at hi hj
  cases hpi : P.reverse[i]? with
  | none => rw [hpi] at hi; simp at hi
  | some a =>
    cases hpj : P.reverse[j]? with
    | none => rw [hpj] at hj; simp at hj
    | some c =>
      rw [hpi] at hi
      rw [hpj] at hj
      simp only [Option.map_some', Option.some.injEq] at hi hj
      subst hi
      subst hj
      obtain ⟨hil, hia⟩ := List.getElem?_eq_some_iff.mp hpi
      obtain ⟨hjl, hjc⟩ := List.getElem?_eq_some_iff.mp hpj
      have hrel := List.pairwise_iff_getElem.mp hrev i j hil hjl hij
      rw [hia, hjc] at hrel
      have ha3 : a.1 < 3 := hb3 a (List.mem_reverse.mp (hia ▸ List.getElem_mem hil))
      intro heq
      have := gslot_inj f hpos hB a.1 b a.2 c.2 ha3 hb heq
      obtain ⟨rfl, h2⟩ := this
      exact hrel h2.symm

/-- The stack that `populateCommon` returns to `Builder.Populate` is peeled. -/
theorem populateCommon_peeled (bld : Builder) (keys : List Nat) (hn : keys.length < 2 ^ 32)
    (stack : List keyindex) (f1 : XorFilterCommon) (bld1 : Builder)
    (h : populateCommon bld keys { Seed := 0, BlockLength := capacityFor keys.length / 3 } =
      .ret (.ok stack, f1, bld1)) :
    0 < f1.BlockLength ∧ 3 * f1.BlockLength ≤ 2 ^ 32 ∧
      f1.BlockLength = capacityFor keys.length / 3 ∧ Peeled f1 (digests keys f1.Seed) stack := by
  have hc1 := capacityFor_lt keys.length
  have hc2 := capacityFor_div keys.length
  obtain ⟨hpos, hbl, hp⟩ := populateCommon_ok bld keys _ hn (by simp only []; omega)
    (by
      intro hk
      rw [hk]
      simp only [List.length_nil, capacityFor_zero]
      omega) stack f1 bld1 h
  simp only [] at hpos hbl
  exact ⟨by omega, by omega, hbl, hp⟩

/-! ### The block invariant: explicit form of `removeKey`, completeness of the queue -/

section Block2

variable {B : Nat} {g : Nat → Nat} {R Pb : List Nat} {sets : List xorset}
  {Q : List keyindex} {n : Nat}

/-- The result of `removeKey` on a block in which the key is still counted: the
count is at least one, it is lowered by one without wrapping, and the slot is
enqueued when the count was two. -/
theorem BlockInv.removeKey_eq (inv : BlockInv B g R Pb sets Q n) (x : Nat) (hx : x ∈ R)
    (hgx : g x < B) (hlen : (R ++ Pb).length < 2 ^ 32) :
    ∃ s, sets[g x]? = some s ∧ s.count = cnt g (R.erase x) (g x) + 1 ∧
      (s.count = 2 → n < B) ∧
      XorFilter.removeKey sets Q n (g x) x =
        .ret (sets.set (g x) { xormask := s.xormask ^^^ x, count := s.count - 1 },
              (if s.count = 2 then Q.set n { hash := s.xormask ^^^ x, index := g x } else Q),
              (if s.count = 2 then n + 1 else n)) := by
  have hperm : R.Perm (x :: R.erase x) := List.perm_cons_erase hx
  have hp0 : cnt g Pb (g x) = 0 := inv.excl x hx
  have hcR : cnt g R (g x) = 1 + cnt g (R.erase x) (g x) := by
    rw [cnt_perm g hperm, cnt_cons_self]
  have hcL : cnt g (R ++ Pb) (g x) = cnt g (R.erase x) (g x) + 1 := by
    rw [cnt_append, hcR, hp0]; omega
  have hbound : cnt g (R ++ Pb) (g x) < 2 ^ 32 :=
    Nat.lt_of_le_of_lt (cnt_le_length g _ _) hlen
  have hget := inv.get (g x) hgx
  obtain ⟨sets1, Q1, n1, hr, _⟩ := inv.removeKey x hx hgx hlen
  refine ⟨_, hget, hcL, ?_, ?_⟩
  · intro h2
    simp only [] at h2
    unfold XorFilter.removeKey at hr
    rw [hget] at hr
    simp only [] at hr
    have hdec : (cnt g (R ++ Pb) (g x) + (2 ^ 32 - 1)) % 2 ^ 32 = 1 := by omega
    rw [if_pos hdec] at hr
    by_cases hlt : n < Q.length
    · rw [← inv.qlen]; exact hlt
    · rw [if_neg hlt] at hr
      exact absurd hr (by simp)
  · unfold XorFilter.removeKey
    rw [hget]
    simp only []
    have hdec : (cnt g (R ++ Pb) (g x) + (2 ^ 32 - 1)) % 2 ^ 32 = cnt g (R ++ Pb) (g x) - 1 := by
      omega
    rw [hdec]
    by_cases h2 : cnt g (R ++ Pb) (g x) = 2
    · have h1 : cnt g (R ++ Pb) (g x) - 1 = 1 := by omega
      rw [if_pos h1, if_pos h2, if_pos h2]
      by_cases hlt : n < Q.length
      · rw [if_pos hlt]
      · exfalso
        unfold XorFilter.removeKey at hr
        rw [hget] at hr
        simp only [hdec] at hr
        rw [if_pos h1, if_neg hlt] at hr
        exact absurd hr (by simp)
    · have h1 : ¬ cnt g (R ++ Pb) (g x) - 1 = 1 := by omega
      rw [if_neg h1, if_neg h2, if_neg h2]

/-- The accesses of `removeKey` on a block in which the key is still counted are in
order. -/
theorem BlockInv.removeKey_safe (inv : BlockInv B g R Pb sets Q n) (x : Nat) (hx : x ∈ R)
    (hgx : g x < B) (hlen : (R ++ Pb).length < 2 ^ 32) :
    removeKeySafe B sets Q n (g x) := by
  obtain ⟨s, hs, hc, h2, _⟩ := inv.removeKey_eq x hx hgx hlen
  exact ⟨inv.rep.1, inv.qlen, hgx, s, hs, by omega, h2⟩

/-- `removeKey` keeps the sum of the queue size and the pending slots. -/
theorem pending_removeKey (s : xorset) (i : Nat) (Qn : Nat) (a : Nat)
    (hs : sets[i]? = some s) (hc : 1 ≤ s.count) :
    pending (sets.set i { xormask := a, count := s.count - 1 }) +
      (if s.count = 2 then Qn + 1 else Qn) = pending sets + Qn := by
  obtain ⟨hi, hsi⟩ := List.getElem?_eq_some_iff.mp hs
  unfold pending
  rw [List.countP_set _ _ _ _ hi, hsi]
  simp only [decide_eq_true_eq]
  by_cases h2 : 2 ≤ s.count
  · have hpos : 0 < List.countP (fun s => decide (2 ≤ s.count)) sets := by
      rw [List.countP_pos_iff]
      exact ⟨s, hsi ▸ List.getElem_mem hi, by simpa using h2⟩
    rw [if_pos h2]
    by_cases h3 : s.count = 2
    · rw [if_pos h3, if_neg (by omega)]
      omega
    · rw [if_neg h3, if_pos (by omega)]
      omega
  · rw [if_neg h2, if_neg (by omega), if_neg (by omega)]
    omega

/-- Skipping the top entry of a queue whose slot is empty keeps the queue complete. -/
theorem QFull.after_skip (inv : BlockInv B g R Pb sets Q n) (full : QFull B g R Q n) (hn : 0 < n)
    (q : keyindex) (hq : Q[n - 1]? = some q) (hc : cnt g (R ++ Pb) q.index = 0) :
    QFull B g R Q (n - 1) := by
  obtain ⟨q0, h1, h2, _, _⟩ := inv.top hn
  rw [hq] at h1
  cases h1
  intro i hi hci
  obtain ⟨q1, hq1, hqi⟩ := full i hi hci
  rw [h2] at hq1
  rcases List.mem_append.mp hq1 with hq1 | hq1
  · exact ⟨q1, hq1, hqi⟩
  · simp only [List.mem_singleton] at hq1
    subst hq1
    rw [hqi, cnt_append] at hc
    omega

/-- Peeling the key at the top of the block's own queue keeps the queue complete. -/
theorem QFull.after_peel (inv : BlockInv B g R Pb sets Q n) (full : QFull B g R Q n) (hn : 0 < n)
    (q : keyindex) (hq : Q[n - 1]? = some q) (hc : cnt g (R ++ Pb) q.index ≠ 0) :
    QFull B g (R.erase q.hash) Q (n - 1) := by
  obtain ⟨q0, h1, h2, _, _⟩ := inv.top hn
  rw [hq] at h1
  cases h1
  obtain ⟨hmem, hg, _, _, hc1, _⟩ := inv.peel hn q hq hc
  have hperm : R.Perm (q.hash :: R.erase q.hash) := List.perm_cons_erase hmem
  have hcR : cnt g R q.index = 1 + cnt g (R.erase q.hash) q.index := by
    rw [cnt_perm g hperm, ← hg, cnt_cons_self]
  have hc0 : cnt g (R.erase q.hash) q.index = 0 := by
    rw [cnt_append] at hc1
    omega
  intro i hi hci
  have hne : q.index ≠ i := by
    intro heq
    rw [← heq, hc0] at hci
    omega
  have hcRi : cnt g R i = 1 := by
    rw [cnt_perm g hperm, cnt_cons_ne g _ _ _ (by rw [hg]; exact hne)]
    exact hci
  obtain ⟨q1, hq1, hqi⟩ := full i hi hcRi
  rw [h2] at hq1
  rcases List.mem_append.mp hq1 with hq1 | hq1
  · exact ⟨q1, hq1, hqi⟩
  · simp only [List.mem_singleton] at hq1
    subst hq1
    exact absurd hqi hne

/-- Removing a remaining key from one of its two other blocks keeps the queue of
that block complete. -/
theorem QFull.after_removeKey (inv : BlockInv B g R Pb sets Q n) (full : QFull B g R Q n)
    (x : Nat) (hx : x ∈ R) (s : xorset) (a : Nat)
    (hc : s.count = cnt g (R.erase x) (g x) + 1) (h2 : s.count = 2 → n < B) :
    QFull B g (R.erase x)
      (if s.count = 2 then Q.set n { hash := a, index := g x } else Q)
      (if s.count = 2 then n + 1 else n) := by
  have hperm : R.Perm (x :: R.erase x) := List.perm_cons_erase hx
  intro i hi hci
  by_cases hig : g x = i
  · subst hig
    have hs2 : s.count = 2 := by omega
    have hlt : n < Q.length := by rw [inv.qlen]; exact h2 hs2
    rw [if_pos hs2, if_pos hs2, take_set_succ _ _ _ hlt]
    exact ⟨_, List.mem_append_right _ (List.mem_singleton.mpr rfl), rfl⟩
  · have hcRi : cnt g R i = 1 := by
      rw [cnt_perm g hperm, cnt_cons_ne g _ _ _ hig]
      exact hci
    obtain ⟨q1, hq1, hqi⟩ := full i hi hcRi
    by_cases hs2 : s.count = 2
    · have hlt : n < Q.length := by rw [inv.qlen]; exact h2 hs2
      rw [if_pos hs2, if_pos hs2, take_set_succ _ _ _ hlt]
      exact ⟨q1, List.mem_append_left _ hq1, hqi⟩
    · rw [if_neg hs2, if_neg hs2]
      exact ⟨q1, hq1, hqi⟩

/-- A slot that is out of play stays so through `removeKey`: its count stays at
most one and it is not enqueued. -/
theorem retired_removeKey (s : xorset) (i a : Nat) (e : keyindex) (he : e.index = i)
    (hs : sets[i]? = some s) (d : Nat)
    (hD1 : ∀ s1, sets[d]? = some s1 → s1.count ≤ 1)
    (hD2 : ∀ q ∈ Q.take n, q.index ≠ d) (hlt : s.count = 2 → n < Q.length) :
    (∀ s1, (sets.set i { xormask := a, count := s.count - 1 })[d]? = some s1 → s1.count ≤ 1) ∧
      ∀ q ∈ (if s.count = 2 then Q.set n e else Q).take (if s.count = 2 then n + 1 else n),
        q.index ≠ d := by
  obtain ⟨hi, _⟩ := List.getElem?_eq_some_iff.mp hs
  constructor
  · intro s1 hs1
    by_cases hid : i = d
    · subst hid
      rw [List.getElem?_set_self hi] at hs1
      have := hD1 s hs
      cases hs1
      simp only []
      omega
    · rw [List.getElem?_set_ne hid] at hs1
      exact hD1 s1 hs1
  · intro q hq
    by_cases hc2 : s.count = 2
    · rw [if_pos hc2, if_pos hc2, take_set_succ _ _ _ (hlt hc2)] at hq
      rcases List.mem_append.mp hq with hq | hq
      · exact hD2 q hq
      · simp only [List.mem_singleton] at hq
        subst hq
        rw [he]
        intro hid
        subst hid
        have := hD1 s hs
        omega
    · rw [if_neg hc2, if_neg hc2] at hq
      exact hD2 q hq

end Block2

/-! ### One iteration of a drain loop, for every `uint32` block length -/

theorem dequeuesLeft_eq (w : work) {b o1 o2 : Nat} (t : Triple b o1 o2) :
    dequeuesLeft w = w.Qsize b + w.Qsize o1 + w.Qsize o2 +
      (pending (w.sets b) + pending (w.sets o1) + pending (w.sets o2)) := by
  rcases t with ⟨rfl, rfl, rfl⟩ | ⟨rfl, rfl, rfl⟩ | ⟨rfl, rfl, rfl⟩ <;>
    simp only [dequeuesLeft, work.Qsize, work.sets] <;> omega

section StepW

variable {f : XorFilterCommon} {H : List Nat} {w : work} {R : List Nat} {P : List (Nat × Nat)}

theorem InvW.length_eqW (inv : InvW f H w R P) : P.length + R.length = H.length := by
  have := inv.perm.length_eq
  simpa using this

theorem InvW.len_boundW (inv : InvW f H w R P) (b : Nat) :
    (R ++ peeledIn b P).length ≤ H.length := by
  have h1 := inv.length_eqW
  have h2 := peeledIn_length_le b P
  simp only [List.length_append]
  omega

/-- One iteration of a drain loop keeps the invariant, takes one entry off the
drained queue, lowers the potential, makes only accesses that are in order and
lowers the bound on the dequeues to come by one. -/
theorem stepGen_invW (hpos : 0 < f.BlockLength) (hB : f.BlockLength < 2 ^ 32)
    (hH : H.length < 2 ^ 32) {b o1 o2 : Nat} (t : Triple b o1 o2)
    (inv : InvW f H w R P) (hq : 0 < w.Qsize b) :
    ∃ w1 R1 P1, stepGen f b o1 o2 w = .ret w1 ∧ InvW f H w1 R1 P1 ∧
      w1.Qsize b = w.Qsize b - 1 ∧ potential w1 H.length + 1 ≤ potential w H.length ∧
      stepSafe f H.length b o1 o2 w ∧ dequeuesLeft w1 + 1 = dequeuesLeft w ∧
      ∀ D, Retired w D → dequeued (b, w) ∉ D ∧ Retired w1 (dequeued (b, w) :: D) := by
  obtain ⟨hb3, ho1, ho2, hbo1, hbo2, ho12, hall⟩ := t.facts
  have invb := inv.blk b hb3
  obtain ⟨q, hqtop, htake, hqmem, hothers⟩ := invb.top hq
  have hidx := (invb.qok q hqmem).1
  have hget := invb.get q.index hidx
  have hdq : dequeued (b, w) = (b, q.index) := by
    unfold dequeued
    simp only []
    rw [List.getD_eq_getElem?_getD, hqtop]
    rfl
  have hnotin : ∀ D, Retired w D → dequeued (b, w) ∉ D := by
    intro D hD hmem
    rw [hdq] at hmem
    exact (hD _ hmem).2.2 q hqmem rfl
  have hpopped : ∀ q1 ∈ (w.Q b).take (w.Qsize b - 1), q1 ∈ (w.Q b).take (w.Qsize b) := by
    intro q1 hq1
    rw [htake]
    exact List.mem_append_left _ hq1
  unfold stepGen
  rw [hqtop]
  simp only []
  rw [hget]
  simp only []
  by_cases hc : cnt (slot f b) (R ++ peeledIn b P) q.index = 0
  · rw [if_pos hc]
    refine ⟨_, R, P, rfl, ?_, setQsize_Qsize_self _ _ _, ?_, ?_, ?_, ?_⟩
    · refine ⟨by simpa using inv.stackLen, by simpa using inv.stackSize,
        by simpa using inv.stackTake, inv.perm, inv.blk3, inv.ord, ?_, ?_⟩
      · intro c hc3
        by_cases hcb : c = b
        · subst hcb
          rw [setQsize_sets, setQsize_Q, setQsize_Qsize_self]
          exact invb.pop hq
        · rw [setQsize_sets, setQsize_Q, setQsize_Qsize_ne _ _ _ _ hb3 hc3 hcb]
          exact inv.blk c hc3
      · intro c hc3
        by_cases hcb : c = b
        · subst hcb
          rw [setQsize_Q, setQsize_Qsize_self]
          exact QFull.after_skip invb (inv.full c hc3) hq q hqtop hc
        · rw [setQsize_Q, setQsize_Qsize_ne _ _ _ _ hb3 hc3 hcb]
          exact inv.full c hc3
    · rw [potential_eq _ _ t, potential_eq w _ t, setQsize_Qsize_self,
        setQsize_Qsize_ne _ _ _ _ hb3 ho1 (Ne.symm hbo1),
        setQsize_Qsize_ne _ _ _ _ hb3 ho2 (Ne.symm hbo2), setQsize_stacksize]
      omega
    · exact ⟨inv.stackLen, invb.qlen, invb.rep.1, hq, invb.nle, invb.nodup, q, _, hqtop, hidx,
        hget, fun hne => absurd hc hne⟩
    · rw [dequeuesLeft_eq _ t, dequeuesLeft_eq w t, setQsize_Qsize_self,
        setQsize_Qsize_ne _ _ _ _ hb3 ho1 (Ne.symm hbo1),
        setQsize_Qsize_ne _ _ _ _ hb3 ho2 (Ne.symm hbo2), setQsize_sets, setQsize_sets,
        setQsize_sets]
      omega
    · intro D hD
      refine ⟨hnotin D hD, ?_⟩
      rw [hdq]
      intro d hd
      rcases List.mem_cons.mp hd with hdeq | hd
      · subst hdeq
        refine ⟨hb3, ?_, ?_⟩
        · intro s hs
          simp only [setQsize_sets] at hs
          rw [hget] at hs
          cases hs
          simp only []
          omega
        · intro q1 hq1
          simp only [setQsize_Q, setQsize_Qsize_self] at hq1
          exact hothers q1 hq1
      · obtain ⟨d3, dc, dq⟩ := hD d hd
        refine ⟨d3, ?_, ?_⟩
        · intro s hs
          rw [setQsize_sets] at hs
          exact dc s hs
        · intro q1 hq1
          rw [setQsize_Q] at hq1
          by_cases hdb : d.1 = b
          · rw [hdb, setQsize_Qsize_self] at hq1
            exact dq q1 (by rw [hdb]; exact hpopped q1 hq1)
          · rw [setQsize_Qsize_ne _ _ _ _ hb3 d3 hdb] at hq1
            exact dq q1 hq1
  · rw [if_neg hc]
    obtain ⟨hxR, hgx, _, _, _, invb1⟩ := invb.peel hq q hqtop hc
    have hlenPR := inv.length_eqW
    have hRpos : 0 < R.length := List.length_pos_of_mem hxR
    have hstk : w.stacksize < w.stack.length := by
      rw [inv.stackSize, inv.stackLen]; omega
    rw [if_pos hstk]
    -- the two other blocks
    have inv1 := inv.blk o1 ho1
    have inv2 := inv.blk o2 ho2
    have hg1 := slot_lt f o1 q.hash hpos hB
    have hg2 := slot_lt f o2 q.hash hpos hB
    have hl1 := Nat.lt_of_le_of_lt (inv.len_boundW o1) hH
    have hl2 := Nat.lt_of_le_of_lt (inv.len_boundW o2) hH
    obtain ⟨s1, q1, n1, hr1, binv1, hn1, _⟩ := inv1.removeKey q.hash hxR hg1 hl1
    obtain ⟨s2, q2, n2, hr2, binv2, hn2, _⟩ := inv2.removeKey q.hash hxR hg2 hl2
    obtain ⟨x1, hx1, hc1, h21, he1⟩ := inv1.removeKey_eq q.hash hxR hg1 hl1
    obtain ⟨x2, hx2, hc2, h22, he2⟩ := inv2.removeKey_eq q.hash hxR hg2 hl2
    have full1 := QFull.after_removeKey inv1 (inv.full o1 ho1) q.hash hxR x1
      (x1.xormask ^^^ q.hash) hc1 h21
    have full2 := QFull.after_removeKey inv2 (inv.full o2 ho2) q.hash hxR x2
      (x2.xormask ^^^ q.hash) hc2 h22
    have phi1 := @pending_removeKey (w.sets o1) x1 (slot f o1 q.hash) (w.Qsize o1)
      (x1.xormask ^^^ q.hash) hx1 (by omega)
    have phi2 := @pending_removeKey (w.sets o2) x2 (slot f o2 q.hash) (w.Qsize o2)
      (x2.xormask ^^^ q.hash) hx2 (by omega)
    rw [hr1] at he1
    rw [hr2] at he2
    simp only [Outcome.ret.injEq, Prod.mk.injEq] at he1 he2
    obtain ⟨e1a, e1b, e1c⟩ := he1
    obtain ⟨e2a, e2b, e2c⟩ := he2
    rw [← e1b, ← e1c] at full1
    rw [← e2b, ← e2c] at full2
    rw [← e1a, ← e1c] at phi1
    rw [← e2a, ← e2c] at phi2
    have ret1 : ∀ d2 : Nat, (∀ s, (w.sets o1)[d2]? = some s → s.count ≤ 1) →
        (∀ q' ∈ (w.Q o1).take (w.Qsize o1), q'.index ≠ d2) →
        (∀ s, s1[d2]? = some s → s.count ≤ 1) ∧ ∀ q' ∈ q1.take n1, q'.index ≠ d2 := by
      intro d2 hc' hq'
      have := @retired_removeKey (w.sets o1) (w.Q o1) (w.Qsize o1) x1 (slot f o1 q.hash)
        (x1.xormask ^^^ q.hash) { hash := x1.xormask ^^^ q.hash, index := slot f o1 q.hash }
        rfl hx1 d2 hc' hq' (fun h => by rw [inv1.qlen]; exact h21 h)
      rw [← e1a, ← e1b, ← e1c] at this
      exact this
    have ret2 : ∀ d2 : Nat, (∀ s, (w.sets o2)[d2]? = some s → s.count ≤ 1) →
        (∀ q' ∈ (w.Q o2).take (w.Qsize o2), q'.index ≠ d2) →
        (∀ s, s2[d2]? = some s → s.count ≤ 1) ∧ ∀ q' ∈ q2.take n2, q'.index ≠ d2 := by
      intro d2 hc' hq'
      have := @retired_removeKey (w.sets o2) (w.Q o2) (w.Qsize o2) x2 (slot f o2 q.hash)
        (x2.xormask ^^^ q.hash) { hash := x2.xormask ^^^ q.hash, index := slot f o2 q.hash }
        rfl hx2 d2 hc' hq' (fun h => by rw [inv2.qlen]; exact h22 h)
      rw [← e2a, ← e2b, ← e2c] at this
      exact this
    rw [hr1, Outcome.bind_ret_eq, hr2, Outcome.bind_ret_eq]
    simp only []
    have hperm : R.Perm (q.hash :: R.erase q.hash) := List.perm_cons_erase hxR
    refine ⟨_, R.erase q.hash, (b, q.hash) :: P, rfl, ?_, ?_, ?_, ?_, ?_, ?_⟩
    · refine ⟨?_, ?_, ?_, ?_, ?_, ?_, ?_, ?_⟩
      · simpa using inv.stackLen
      · simpa using inv.stackSize
      · simp only [setBlk_stack, setBlk_stacksize, push_stack, push_stacksize, setQsize_stack,
          setQsize_stacksize]
        rw [take_set_succ _ _ _ hstk, inv.stackTake]
        simp only [List.map_cons, List.reverse_cons, entryW]
        rw [hgx]
      · simp only [List.map_cons, List.cons_append]
        refine List.Perm.trans ?_ inv.perm
        refine List.Perm.trans
          (@List.perm_middle _ q.hash (P.map fun e => e.2) (R.erase q.hash)).symm ?_
        exact List.Perm.append_left _ hperm.symm
      · intro e he
        rcases List.mem_cons.mp he with rfl | he
        · exact hb3
        · exact inv.blk3 e he
      · refine List.pairwise_cons.mpr ⟨?_, inv.ord⟩
        intro e he
        have h0 := (inv.blk e.1 (inv.blk3 e he)).excl q.hash hxR
        have := (cnt_eq_zero_iff _ _ _).mp h0 e.2 (mem_peeledIn e P he)
        exact fun heq => this heq.symm
      · intro c hc3
        rcases hall c hc3 with rfl | rfl | rfl
        · rw [(setBlk_ne _ _ _ _ _ _ ho2 hb3 hbo2).1, (setBlk_ne _ _ _ _ _ _ ho2 hb3 hbo2).2.1,
            (setBlk_ne _ _ _ _ _ _ ho2 hb3 hbo2).2.2,
            (setBlk_ne _ _ _ _ _ _ ho1 hb3 hbo1).1, (setBlk_ne _ _ _ _ _ _ ho1 hb3 hbo1).2.1,
            (setBlk_ne _ _ _ _ _ _ ho1 hb3 hbo1).2.2, push_sets, push_Q, push_Qsize,
            setQsize_sets, setQsize_Q, setQsize_Qsize_self, peeledIn_cons_self]
          exact invb1
        · rw [(setBlk_ne _ _ _ _ _ _ ho2 ho1 ho12).1, (setBlk_ne _ _ _ _ _ _ ho2 ho1 ho12).2.1,
            (setBlk_ne _ _ _ _ _ _ ho2 ho1 ho12).2.2,
            (setBlk_self _ _ _ _ _).1, (setBlk_self _ _ _ _ _).2.1, (setBlk_self _ _ _ _ _).2.2,
            peeledIn_cons_ne _ _ _ _ hbo1]
          exact binv1
        · rw [(setBlk_self _ _ _ _ _).1, (setBlk_self _ _ _ _ _).2.1, (setBlk_self _ _ _ _ _).2.2,
            peeledIn_cons_ne _ _ _ _ hbo2]
          exact binv2
      · intro c hc3
        rcases hall c hc3 with rfl | rfl | rfl
        · rw [(setBlk_ne _ _ _ _ _ _ ho2 hb3 hbo2).2.1,
            (setBlk_ne _ _ _ _ _ _ ho2 hb3 hbo2).2.2,
            (setBlk_ne _ _ _ _ _ _ ho1 hb3 hbo1).2.1,
            (setBlk_ne _ _ _ _ _ _ ho1 hb3 hbo1).2.2, push_Q, push_Qsize,
            setQsize_Q, setQsize_Qsize_self]
          exact QFull.after_peel invb (inv.full c hc3) hq q hqtop hc
        · rw [(setBlk_ne _ _ _ _ _ _ ho2 ho1 ho12).2.1,
            (setBlk_ne _ _ _ _ _ _ ho2 ho1 ho12).2.2,
            (setBlk_self _ _ _ _ _).2.1, (setBlk_self _ _ _ _ _).2.2]
          exact full1
        · rw [(setBlk_self _ _ _ _ _).2.1, (setBlk_self _ _ _ _ _).2.2]
          exact full2
    · rw [(setBlk_ne _ _ _ _ _ _ ho2 hb3 hbo2).2.2, (setBlk_ne _ _ _ _ _ _ ho1 hb3 hbo1).2.2,
        push_Qsize, setQsize_Qsize_self]
    · rw [potential_eq _ _ t, potential_eq w _ t]
      rw [(setBlk_ne _ _ _ _ _ _ ho2 hb3 hbo2).2.2, (setBlk_ne _ _ _ _ _ _ ho1 hb3 hbo1).2.2,
        push_Qsize, setQsize_Qsize_self,
        (setBlk_ne _ _ _ _ _ _ ho2 ho1 ho12).2.2, (setBlk_self _ _ _ _ _).2.2,
        (setBlk_self _ _ _ _ _).2.2]
      simp only [setBlk_stacksize, push_stacksize, setQsize_stacksize]
      have : w.stacksize < H.length := by rw [inv.stackSize]; omega
      omega
    · refine ⟨inv.stackLen, invb.qlen, invb.rep.1, hq, invb.nle, invb.nodup, q, _, hqtop, hidx,
        hget, fun _ => ⟨?_, ?_, ?_⟩⟩
      · rw [← inv.stackLen]; exact hstk
      · exact inv1.removeKey_safe q.hash hxR hg1 hl1
      · exact inv2.removeKey_safe q.hash hxR hg2 hl2
    · rw [dequeuesLeft_eq _ t, dequeuesLeft_eq w t]
      rw [(setBlk_ne _ _ _ _ _ _ ho2 hb3 hbo2).2.2, (setBlk_ne _ _ _ _ _ _ ho1 hb3 hbo1).2.2,
        push_Qsize, setQsize_Qsize_self,
        (setBlk_ne _ _ _ _ _ _ ho2 ho1 ho12).2.2, (setBlk_self _ _ _ _ _).2.2,
        (setBlk_self _ _ _ _ _).2.2,
        (setBlk_ne _ _ _ _ _ _ ho2 hb3 hbo2).1, (setBlk_ne _ _ _ _ _ _ ho1 hb3 hbo1).1,
        push_sets, setQsize_sets,
        (setBlk_ne _ _ _ _ _ _ ho2 ho1 ho12).1, (setBlk_self _ _ _ _ _).1,
        (setBlk_self _ _ _ _ _).1]
      omega
    · intro D hD
      refine ⟨hnotin D hD, ?_⟩
      rw [hdq]
      have hcb : cnt (slot f b) (R ++ peeledIn b P) q.index = 1 :=
        (invb.peel hq q hqtop hc).2.2.2.2.1
      intro d hd
      rcases List.mem_cons.mp hd with hdeq | hd
      · subst hdeq
        refine ⟨hb3, ?_, ?_⟩
        · intro s hs
          simp only [] at hs
          rw [(setBlk_ne _ _ _ _ _ _ ho2 hb3 hbo2).1, (setBlk_ne _ _ _ _ _ _ ho1 hb3 hbo1).1,
            push_sets, setQsize_sets, hget] at hs
          cases hs
          simp only []
          omega
        · intro q' hq'
          simp only [] at hq'
          rw [(setBlk_ne _ _ _ _ _ _ ho2 hb3 hbo2).2.1, (setBlk_ne _ _ _ _ _ _ ho2 hb3 hbo2).2.2,
            (setBlk_ne _ _ _ _ _ _ ho1 hb3 hbo1).2.1, (setBlk_ne _ _ _ _ _ _ ho1 hb3 hbo1).2.2,
            push_Q, push_Qsize, setQsize_Q, setQsize_Qsize_self] at hq'
          exact hothers q' hq'
      · obtain ⟨d3, dc, dq⟩ := hD d hd
        refine ⟨d3, ?_, ?_⟩
        · intro s hs
          rcases hall d.1 d3 with hdb | hdb | hdb
          · rw [hdb, (setBlk_ne _ _ _ _ _ _ ho2 hb3 hbo2).1,
              (setBlk_ne _ _ _ _ _ _ ho1 hb3 hbo1).1, push_sets, setQsize_sets] at hs
            exact dc s (by rw [hdb]; exact hs)
          · rw [hdb, (setBlk_ne _ _ _ _ _ _ ho2 ho1 ho12).1, (setBlk_self _ _ _ _ _).1] at hs
            exact (ret1 d.2 (by rw [← hdb]; exact dc) (by rw [← hdb]; exact dq)).1 s hs
          · rw [hdb, (setBlk_self _ _ _ _ _).1] at hs
            exact (ret2 d.2 (by rw [← hdb]; exact dc) (by rw [← hdb]; exact dq)).1 s hs
        · intro q' hq'
          rcases hall d.1 d3 with hdb | hdb | hdb
          · rw [hdb, (setBlk_ne _ _ _ _ _ _ ho2 hb3 hbo2).2.1,
              (setBlk_ne _ _ _ _ _ _ ho2 hb3 hbo2).2.2,
              (setBlk_ne _ _ _ _ _ _ ho1 hb3 hbo1).2.1,
              (setBlk_ne _ _ _ _ _ _ ho1 hb3 hbo1).2.2,
              push_Q, push_Qsize, setQsize_Q, setQsize_Qsize_self] at hq'
            exact dq q' (by rw [hdb]; exact hpopped q' hq')
          · rw [hdb, (setBlk_ne _ _ _ _ _ _ ho2 ho1 ho12).2.1,
              (setBlk_ne _ _ _ _ _ _ ho2 ho1 ho12).2.2,
              (setBlk_self _ _ _ _ _).2.1, (setBlk_self _ _ _ _ _).2.2] at hq'
            exact (ret1 d.2 (by rw [← hdb]; exact dc) (by rw [← hdb]; exact dq)).2 q' hq'
          · rw [hdb, (setBlk_self _ _ _ _ _).2.1, (setBlk_self _ _ _ _ _).2.2] at hq'
            exact (ret2 d.2 (by rw [← hdb]; exact dc) (by rw [← hdb]; exact dq)).2 q' hq'

end StepW

/-! ### The scan fills the queues completely -/

theorem scanCountFrom_full {B : Nat} {g : Nat → Nat} {R : List Nat} {sets : List xorset}
    (hrep : SetsRep B g R sets) (hB : B < 2 ^ 32) (pre suffix : List xorset)
    (hsets : sets = pre ++ suffix) (Q : List keyindex) (n : Nat) (hQ : Q.length = B)
    (hn : n ≤ pre.length)
    (hfull : ∀ j, j < pre.length → cnt g R j = 1 → ∃ q ∈ Q.take n, q.index = j)
    (Q1 : List keyindex) (n1 : Nat)
    (h : scanCountFrom pre.length suffix Q n = .ret (Q1, n1)) :
    QFull B g R Q1 n1 ∧ n1 = n + suffix.countP fun s => decide (s.count = 1) := by
  induction suffix generalizing pre Q n with
  | nil =>
    have hlen : pre.length = B := by rw [← hrep.1, hsets]; simp
    simp only [scanCountFrom, Outcome.ret.injEq, Prod.mk.injEq] at h
    obtain ⟨rfl, rfl⟩ := h
    refine ⟨?_, by simp⟩
    intro i hi hc
    exact hfull i (by omega) hc
  | cons s rest ih =>
    have hlen : pre.length + (rest.length + 1) = B := by rw [← hrep.1, hsets]; simp
    have hi : pre.length < B := by omega
    have hs : sets[pre.length]? = some s := by
      rw [hsets, List.getElem?_append_right (Nat.le_refl _)]; simp
    have hs2 := hrep.2 _ hi
    rw [hs] at hs2
    have hs3 : s = { xormask := msk g R pre.length, count := cnt g R pre.length } :=
      Option.some.inj hs2
    have hsets2 : sets = (pre ++ [s]) ++ rest := by rw [hsets]; simp
    have hpl : (pre ++ [s]).length = pre.length + 1 := by simp
    unfold scanCountFrom at h
    by_cases hc : s.count = 1
    · have hnQ : n < Q.length := by omega
      rw [if_pos hc, if_pos hnQ, ← hpl] at h
      have htake := take_set_succ Q n
        { hash := s.xormask, index := pre.length % 2 ^ 32 } hnQ
      have hmod : pre.length % 2 ^ 32 = pre.length := Nat.mod_eq_of_lt (by omega)
      have := ih (pre ++ [s]) hsets2 (Q.set n { hash := s.xormask, index := pre.length % 2 ^ 32 })
        (n + 1) (by rw [List.length_set]; exact hQ) (by rw [hpl]; omega)
        (by
          intro j hj hcj
          rw [htake]
          rw [hpl] at hj
          by_cases hjp : j < pre.length
          · obtain ⟨q, hq, hqi⟩ := hfull j hjp hcj
            exact ⟨q, List.mem_append_left _ hq, hqi⟩
          · refine ⟨_, List.mem_append_right _ (List.mem_singleton.mpr rfl), ?_⟩
            simp only [hmod]
            omega) h
      refine ⟨this.1, ?_⟩
      rw [this.2, List.countP_cons_of_pos _ _ (by simpa using hc)]
      omega
    · rw [if_neg hc, ← hpl] at h
      have := ih (pre ++ [s]) hsets2 Q n hQ (by rw [hpl]; omega)
        (by
          intro j hj hcj
          rw [hpl] at hj
          by_cases hjp : j < pre.length
          · exact hfull j hjp hcj
          · have hje : j = pre.length := by omega
            rw [hje] at hcj
            rw [hs3] at hc
            exact absurd hcj hc) h
      refine ⟨this.1, ?_⟩
      rw [this.2, List.countP_cons_of_neg _ _ (by simpa using hc)]

theorem scanCount_full {B : Nat} {g : Nat → Nat} {R : List Nat} {sets : List xorset}
    (hrep : SetsRep B g R sets) (hB : B < 2 ^ 32) (Q : List keyindex) (hQ : Q.length = B)
    (Q1 : List keyindex) (n1 : Nat) (h : scanCount Q sets = .ret (Q1, n1)) :
    QFull B g R Q1 n1 ∧ n1 + pending sets ≤ B := by
  have := scanCountFrom_full hrep hB [] sets rfl Q 0 hQ (Nat.le_refl _)
    (fun j hj => absurd hj (by simp)) Q1 n1 h
  refine ⟨this.1, ?_⟩
  rw [this.2, ← hrep.1]
  have hle : ∀ l : List xorset,
      (l.countP fun s => decide (s.count = 1)) + pending l ≤ l.length := by
    intro l
    unfold pending
    induction l with
    | nil => simp
    | cons s l ih =>
      by_cases h1 : s.count = 1
      · rw [List.countP_cons_of_pos _ _ (by simpa using h1),
          List.countP_cons_of_neg _ _ (by simp; omega)]
        simp only [List.length_cons]
        omega
      · by_cases h2 : 2 ≤ s.count
        · rw [List.countP_cons_of_neg _ _ (by simpa using h1),
            List.countP_cons_of_pos _ _ (by simpa using h2)]
          simp only [List.length_cons]
          omega
        · rw [List.countP_cons_of_neg _ _ (by simpa using h1),
            List.countP_cons_of_neg _ _ (by simpa using h2)]
          simp only [List.length_cons]
          omega
  have := hle sets
  omega

/-! ### The drain loops, the peel loop and one attempt, with their traces -/

section LoopsW

variable {f : XorFilterCommon} {H : List Nat}

theorem drainGen_invW (hpos : 0 < f.BlockLength) (hB : f.BlockLength < 2 ^ 32)
    (hH : H.length < 2 ^ 32) {b o1 o2 : Nat} (t : Triple b o1 o2) (fuel : Nat)
    {w : work} {R : List Nat} {P : List (Nat × Nat)}
    (inv : InvW f H w R P) (hq : w.Qsize b ≤ fuel) :
    ∃ w1 R1 P1, drainGen f b o1 o2 fuel w = .ret w1 ∧ InvW f H w1 R1 P1 ∧
      w1.Qsize b = 0 ∧ potential w1 H.length + w.Qsize b ≤ potential w H.length ∧
      (w.Qsize b = 0 → w1 = w) ∧
      (∀ e ∈ drainGenTrace f b o1 o2 fuel w, traceSafe f H.length e) ∧
      (drainGenTrace f b o1 o2 fuel w).length + dequeuesLeft w1 = dequeuesLeft w ∧
      ∀ D : List (Nat × Nat), D.Nodup → Retired w D →
        Retired w1 (((drainGenTrace f b o1 o2 fuel w).map dequeued).reverse ++ D) ∧
        (((drainGenTrace f b o1 o2 fuel w).map dequeued).reverse ++ D).Nodup := by
  induction fuel generalizing w R P with
  | zero =>
    have h0 : w.Qsize b = 0 := by omega
    refine ⟨w, R, P, ?_, inv, h0, by omega, fun _ => rfl, ?_, ?_, ?_⟩
    · simp [drainGen, h0]
    · simp [drainGenTrace]
    · simp [drainGenTrace]
    · intro D hnd hD
      simpa [drainGenTrace] using And.intro hD hnd
  | succ n ih =>
    by_cases h0 : w.Qsize b = 0
    · refine ⟨w, R, P, ?_, inv, h0, by omega, fun _ => rfl, ?_, ?_, ?_⟩
      · simp [drainGen, h0]
      · simp [drainGenTrace, h0]
      · simp [drainGenTrace, h0]
      · intro D hnd hD
        simpa [drainGenTrace, h0] using And.intro hD hnd
    · have hq0 : 0 < w.Qsize b := Nat.pos_of_ne_zero h0
      obtain ⟨w1, R1, P1, hs, inv1, hqs, hpot, hsafe, hphi, hret⟩ :=
        stepGen_invW hpos hB hH t inv hq0
      obtain ⟨w2, R2, P2, hd, inv2, hq2, hpot2, _, htr, hlen, hret2⟩ := ih inv1 (by omega)
      have htrace : drainGenTrace f b o1 o2 (n + 1) w = (b, w) :: drainGenTrace f b o1 o2 n w1 := by
        simp only [drainGenTrace, hq0, if_true, hs]
      refine ⟨w2, R2, P2, ?_, inv2, hq2, by omega, fun h => absurd h h0, ?_, ?_, ?_⟩
      · simp only [drainGen, hq0, if_true, hs, Outcome.bind_ret_eq, hd]
      · intro e he
        rw [htrace] at he
        rcases List.mem_cons.mp he with rfl | he
        · exact ⟨o1, o2, t, hsafe⟩
        · exact htr e he
      · rw [htrace, List.length_cons]
        omega
      · intro D hnd hD
        obtain ⟨hnot, hD1⟩ := hret D hD
        have := hret2 (dequeued (b, w) :: D) (List.nodup_cons.mpr ⟨hnot, hnd⟩) hD1
        rw [htrace, List.map_cons, List.reverse_cons, List.append_assoc]
        exact this

theorem peel_invW (hpos : 0 < f.BlockLength) (hB : f.BlockLength < 2 ^ 32)
    (hH : H.length < 2 ^ 32) (fuel : Nat)
    {w : work} {R : List Nat} {P : List (Nat × Nat)}
    (inv : InvW f H w R P) (hfuel : potential w H.length ≤ fuel) :
    ∃ w1 R1 P1, peel f fuel w = .ret w1 ∧ InvW f H w1 R1 P1 ∧
      w1.Q0size + w1.Q1size + w1.Q2size = 0 ∧
      (∀ e ∈ peelTrace f fuel w, traceSafe f H.length e) ∧
      (peelTrace f fuel w).length + dequeuesLeft w1 = dequeuesLeft w ∧
      ∀ D : List (Nat × Nat), D.Nodup → Retired w D →
        Retired w1 (((peelTrace f fuel w).map dequeued).reverse ++ D) ∧
        (((peelTrace f fuel w).map dequeued).reverse ++ D).Nodup := by
  induction fuel generalizing w R P with
  | zero =>
    have h0 : w.Q0size + w.Q1size + w.Q2size = 0 := by
      simp only [potential] at hfuel; omega
    refine ⟨w, R, P, ?_, inv, h0, ?_, ?_, ?_⟩
    · simp [peel, h0]
    · simp [peelTrace]
    · simp [peelTrace]
    · intro D hnd hD
      simpa [peelTrace] using And.intro hD hnd
  | succ n ih =>
    by_cases h0 : w.Q0size + w.Q1size + w.Q2size = 0
    · refine ⟨w, R, P, ?_, inv, h0, ?_, ?_, ?_⟩
      · simp [peel, h0]
      · simp [peelTrace, h0]
      · simp [peelTrace, h0]
      · intro D hnd hD
        simpa [peelTrace, h0] using And.intro hD hnd
    · have hsum : w.Q0size + w.Q1size + w.Q2size > 0 := Nat.pos_of_ne_zero h0
      obtain ⟨w1, R1, P1, hd1, inv1, _, hp1, he1, ht1, hl1, hr1⟩ :=
        drainGen_invW hpos hB hH (Or.inl ⟨rfl, rfl, rfl⟩) (w.Qsize 0) inv (Nat.le_refl _)
      obtain ⟨w2, R2, P2, hd2, inv2, _, hp2, he2, ht2, hl2, hr2⟩ :=
        drainGen_invW hpos hB hH (Or.inr (Or.inl ⟨rfl, rfl, rfl⟩)) (w1.Qsize 1) inv1
          (Nat.le_refl _)
      obtain ⟨w3, R3, P3, hd3, inv3, _, hp3, he3, ht3, hl3, hr3⟩ :=
        drainGen_invW hpos hB hH (Or.inr (Or.inr ⟨rfl, rfl, rfl⟩)) (w2.Qsize 2) inv2
          (Nat.le_refl _)
      have hdec : potential w3 H.length + 1 ≤ potential w H.length := by
        by_cases a0 : w.Qsize 0 = 0
        · have e1 := he1 a0
          subst e1
          by_cases a1 : w1.Qsize 1 = 0
          · have e2 := he2 a1
            subst e2
            have a2 : 0 < w2.Qsize 2 := by
              simp only [work.Qsize] at a0 a1 ⊢
              omega
            omega
          · omega
        · omega
      obtain ⟨w4, R4, P4, hp4, inv4, hz4, ht4, hl4, hr4⟩ := ih inv3 (by omega)
      simp only [work.Qsize] at hd1 hd2 hd3 ht1 ht2 ht3 hl1 hl2 hl3 hr1 hr2 hr3
      have htrace : peelTrace f (n + 1) w =
          drainGenTrace f 0 1 2 w.Q0size w ++ (drainGenTrace f 1 0 2 w1.Q1size w1 ++
            (drainGenTrace f 2 0 1 w2.Q2size w2 ++ peelTrace f n w3)) := by
        simp only [peelTrace, hsum, if_true, drainQ0_eq, drainQ1_eq, drainQ2_eq, hd1, hd2, hd3]
      refine ⟨w4, R4, P4, ?_, inv4, hz4, ?_, ?_, ?_⟩
      · simp only [peel, hsum, if_true, drainQ0_eq, drainQ1_eq, drainQ2_eq, Outcome.ret_bind,
          hd1, hd2, hd3, hp4, bind_pure_comp]
      · intro e he
        rw [htrace] at he
        rcases List.mem_append.mp he with he | he
        · exact ht1 e he
        · rcases List.mem_append.mp he with he | he
          · exact ht2 e he
          · rcases List.mem_append.mp he with he | he
            · exact ht3 e he
            · exact ht4 e he
      · rw [htrace]
        simp only [List.length_append]
        omega
      · intro D hnd hD
        obtain ⟨a1, b1⟩ := hr1 D hnd hD
        obtain ⟨a2, b2⟩ := hr2 _ b1 a1
        obtain ⟨a3, b3⟩ := hr3 _ b2 a2
        obtain ⟨a4, b4⟩ := hr4 _ b3 a3
        rw [htrace]
        simp only [List.map_append, List.reverse_append, List.append_assoc] at a4 b4 ⊢
        exact ⟨a4, b4⟩

end LoopsW

/-! ### One attempt: invariant at the end, trace, and the residual core -/

section AttemptW

variable {f : XorFilterCommon} {keys : List Nat} {w : work}

/-- An attempt on well-shaped working slices returns with the peel invariant and
three empty queues; every iteration of its drain loops is in order, and there are
at most `3 * BlockLength` of them. -/
theorem attempt_specW (hpos : 0 < f.BlockLength) (hB : f.BlockLength < 2 ^ 32)
    (hn : keys.length < 2 ^ 32) (hw : Shape f.BlockLength keys.length w) :
    ∃ w0 w1 R P, scanned f keys w = .ret w0 ∧ attempt f keys w = .ret w1 ∧
      InvW f (digests keys f.Seed) w1 R P ∧
      w1.Q0size + w1.Q1size + w1.Q2size = 0 ∧
      (∀ e ∈ attemptTrace f keys w, traceSafe f keys.length e) ∧
      (attemptTrace f keys w).length ≤ 3 * f.BlockLength ∧
      ((attemptTrace f keys w).map dequeued).Nodup := by
  have hHlen : (digests keys f.Seed).length = keys.length := by simp [digests]
  obtain ⟨wa, hacc, hrep, hst, hq0, hq1, hq2, hk, hs⟩ :=
    accumulate_spec f hpos hB keys [] w (by simpa using hn)
      (fun b hb => by rw [(hw.2 b hb).2]; exact SetsRep.zero _ _)
  have hrep1 : ∀ b, b < 3 → SetsRep f.BlockLength (slot f b) (digests keys f.Seed) (wa.sets b) :=
    fun b hb => by simpa [digests] using hrep b hb
  obtain ⟨Q0, n0, hs0, b0⟩ := scanCount_spec (hrep1 0 (by omega)) hB wa.Q0
    (by rw [hq0]; exact (hw.2 0 (by omega)).1)
  obtain ⟨Q1, n1, hs1, b1⟩ := scanCount_spec (hrep1 1 (by omega)) hB wa.Q1
    (by rw [hq1]; exact (hw.2 1 (by omega)).1)
  obtain ⟨Q2, n2, hs2, b2⟩ := scanCount_spec (hrep1 2 (by omega)) hB wa.Q2
    (by rw [hq2]; exact (hw.2 2 (by omega)).1)
  obtain ⟨c0, d0⟩ := scanCount_full (hrep1 0 (by omega)) hB wa.Q0
    (by rw [hq0]; exact (hw.2 0 (by omega)).1) Q0 n0 hs0
  obtain ⟨c1, d1⟩ := scanCount_full (hrep1 1 (by omega)) hB wa.Q1
    (by rw [hq1]; exact (hw.2 1 (by omega)).1) Q1 n1 hs1
  obtain ⟨c2, d2⟩ := scanCount_full (hrep1 2 (by omega)) hB wa.Q2
    (by rw [hq2]; exact (hw.2 2 (by omega)).1) Q2 n2 hs2
  simp only [work.sets] at hs0 hs1 hs2 b0 b1 b2 c0 c1 c2 d0 d1 d2
  have inv0 : InvW f (digests keys f.Seed)
      { wa with Q0 := Q0, Q0size := n0, Q1 := Q1, Q1size := n1, Q2 := Q2, Q2size := n2,
                stacksize := 0 } (digests keys f.Seed) [] := by
    refine ⟨by simp only []; rw [hst, hw.1, hHlen], rfl, by simp, by simp, by simp,
      List.Pairwise.nil, ?_, ?_⟩
    · intro b hb
      interval_cases b
      · exact b0
      · exact b1
      · exact b2
    · intro b hb
      interval_cases b
      · exact c0
      · exact c1
      · exact c2
  obtain ⟨w1, R1, P1, hp, inv1, hz, htr, hlen, hret⟩ :=
    peel_invW hpos hB (by rw [hHlen]; exact hn) (n0 + n1 + n2 + 2 * keys.length) inv0
      (by simp only [potential, hHlen]; omega)
  have hsc : scanned f keys w = .ret
      { wa with Q0 := Q0, Q0size := n0, Q1 := Q1, Q1size := n1, Q2 := Q2, Q2size := n2,
                stacksize := 0 } := by
    simp only [scanned, hacc, Outcome.ret_bind, hs0, hs1, hs2, Outcome.pure_eq]
  have htrace : attemptTrace f keys w = peelTrace f (n0 + n1 + n2 + 2 * keys.length)
      { wa with Q0 := Q0, Q0size := n0, Q1 := Q1, Q1size := n1, Q2 := Q2, Q2size := n2,
                stacksize := 0 } := by
    simp only [attemptTrace, hsc]
  refine ⟨_, w1, R1, P1, hsc, ?_, inv1, hz, ?_, ?_, ?_⟩
  · simp only [attempt, hacc, Outcome.ret_bind, hs0, hs1, hs2, hp]
  · intro e he
    rw [htrace] at he
    have := htr e he
    rwa [hHlen] at this
  · rw [htrace]
    simp only [dequeuesLeft] at hlen
    omega
  · rw [htrace]
    have := (hret [] List.nodup_nil (fun d hd => absurd hd (List.not_mem_nil d))).2
    rw [List.append_nil] at this
    exact List.nodup_reverse.mp this

end AttemptW

section Core

variable {f : XorFilterCommon} {H : List Nat} {w : work} {R : List Nat} {P : List (Nat × Nat)}

/-- With three empty queues, every remaining digest shares each of its three slots
with another remaining digest. -/
theorem InvW.core (inv : InvW f H w R P) (hpos : 0 < f.BlockLength)
    (hB : f.BlockLength < 2 ^ 32) (hz : w.Q0size + w.Q1size + w.Q2size = 0) :
    ∀ h ∈ R, ∀ b, b < 3 → 2 ≤ cnt (slot f b) R (slot f b h) := by
  intro h hh b hb
  have hq : w.Qsize b = 0 := by
    interval_cases b <;> simp only [work.Qsize] <;> omega
  have hne : cnt (slot f b) R (slot f b h) ≠ 0 := by
    intro h0
    exact (cnt_eq_zero_iff _ _ _).mp h0 h hh rfl
  have hne1 : cnt (slot f b) R (slot f b h) ≠ 1 := by
    intro h1
    obtain ⟨q, hq1, _⟩ := inv.full b hb _ (slot_lt f b h hpos hB) h1
    rw [hq] at hq1
    simp at hq1
  omega

theorem InvW.stack_hashes (inv : InvW f H w R P) :
    (w.stack.take w.stacksize).map keyindex.hash = (P.map fun e => e.2).reverse := by
  rw [inv.stackTake, ← List.map_reverse, List.map_map, ← List.map_reverse]
  rfl

/-- A stack filled by an attempt gives a peeling order. -/
theorem InvW.peelable (inv : InvW f H w R P) (hs : w.stacksize = H.length) :
    Peelable f H := by
  have hlen := inv.length_eqW
  have hR : R = [] := by
    apply List.eq_nil_of_length_eq_zero
    have := inv.stackSize
    omega
  refine ⟨P.reverse, ?_, ?_, ?_⟩
  · have := inv.perm
    rw [hR, List.append_nil] at this
    rw [List.map_reverse]
    exact (List.reverse_perm _).trans this
  · intro e he
    exact inv.blk3 e (List.mem_reverse.mp he)
  · rw [List.pairwise_reverse]
    exact inv.ord

/-- Digests that pairwise share all their slots cannot be part of a peeling order. -/
theorem core_not_peelable (f : XorFilterCommon) (O : List (Nat × Nat))
    (hb3 : ∀ e ∈ O, e.1 < 3)
    (hord : O.Pairwise fun e1 e2 => slot f e1.1 e2.2 ≠ slot f e1.1 e1.2) :
    ∀ R : List Nat, R.Subperm (O.map fun e => e.2) →
      (∀ h ∈ R, ∀ b, b < 3 → 2 ≤ cnt (slot f b) R (slot f b h)) → R = [] := by
  induction O with
  | nil =>
    intro R hsub _
    exact List.subperm_nil.mp (by simpa using hsub)
  | cons e O ih =>
    intro R hsub hcore
    obtain ⟨hhead, htail⟩ := List.pairwise_cons.mp hord
    have hnot : e.2 ∉ R := by
      intro hmem
      have h2 := hcore e.2 hmem e.1 (hb3 e (List.mem_cons_self _ _))
      have hperm : R.Perm (e.2 :: R.erase e.2) := List.perm_cons_erase hmem
      rw [cnt_perm _ hperm, cnt_cons_self] at h2
      have hne : cnt (slot f e.1) (R.erase e.2) (slot f e.1 e.2) ≠ 0 := by omega
      rw [Ne, cnt_eq_zero_iff] at hne
      push_neg at hne
      obtain ⟨h', hh', hs'⟩ := hne
      have hsub2 := hsub.erase e.2
      simp only [List.map_cons, List.erase_cons_head] at hsub2
      have hin := hsub2.subset hh'
      obtain ⟨e2, he2, rfl⟩ := List.mem_map.mp hin
      exact hhead e2 he2 hs'
    have hsub2 := hsub.erase e.2
    simp only [List.map_cons, List.erase_cons_head] at hsub2
    rw [List.erase_of_not_mem hnot] at hsub2
    exact ih (fun e' he' => hb3 e' (List.mem_cons_of_mem _ he')) htail R hsub2 hcore

/-- The stack is filled exactly when the digests can be peeled. -/
theorem InvW.full_iff (inv : InvW f H w R P) (hpos : 0 < f.BlockLength)
    (hB : f.BlockLength < 2 ^ 32) (hz : w.Q0size + w.Q1size + w.Q2size = 0) :
    w.stacksize = H.length ↔ Peelable f H := by
  refine ⟨inv.peelable, ?_⟩
  rintro ⟨O, hperm, hb3, hord⟩
  have hsub : R.Subperm (O.map fun e => e.2) := by
    refine (List.Perm.subperm_left hperm.symm).mp ?_
    refine (List.Perm.subperm_left inv.perm).mp ?_
    exact (List.sublist_append_right _ _).subperm
  have hR := core_not_peelable f O hb3 hord R hsub (inv.core hpos hB hz)
  have hlen := inv.length_eqW
  rw [hR] at hlen
  rw [inv.stackSize]
  simpa using hlen

end Core

/-! ### `Builder.Populate` returns -/

theorem InvW.shape_afterW {f : XorFilterCommon} {H : List Nat} {w : work} {R : List Nat}
    {P : List (Nat × Nat)} (inv : InvW f H w R P) :
    Shape f.BlockLength H.length
      { w with sets0 := resetSets w.sets0, sets1 := resetSets w.sets1,
               sets2 := resetSets w.sets2 } := by
  have hr : ∀ (s : List xorset), s.length = f.BlockLength →
      resetSets s = List.replicate f.BlockLength xorset.zero := by
    intro s hs
    unfold resetSets
    rw [← hs]
    exact List.map_const' s xorset.zero
  refine ⟨inv.stackLen, ?_⟩
  intro b hb
  have hbi := inv.blk b hb
  interval_cases b
  · exact ⟨hbi.qlen, hr _ hbi.rep.1⟩
  · exact ⟨hbi.qlen, hr _ hbi.rep.1⟩
  · exact ⟨hbi.qlen, hr _ hbi.rep.1⟩

/-- With a budget below the largest `int` and a block length that is not zero,
`Builder.Populate` returns. -/
theorem Populate_returns (bld : Builder) (keys : List Nat) (hn : keys.length < 2 ^ 32)
    (hcap : 3 ≤ capacityFor keys.length) (hM : bld.budget < 2 ^ 63 - 1) :
    ∃ r, bld.Populate keys = .ret r := by
  obtain ⟨hs1, hs2⟩ := Populate_spec bld keys hn hcap hM
  by_cases hall : ∀ i : Nat, 1 ≤ i → (i : Int) ≤ bld.budget →
      stackSizeOf (capacityFor keys.length / 3) keys (seedNo bld.rng0 i) ≠ .ret keys.length
  · obtain ⟨b1, h⟩ := hs1 hall
    exact ⟨_, h⟩
  · have hex : ∃ t : Nat, 1 ≤ t ∧ (t : Int) ≤ bld.budget ∧
        stackSizeOf (capacityFor keys.length / 3) keys (seedNo bld.rng0 t) =
          .ret keys.length := by
      by_contra hcon
      apply hall
      intro i hi hiM hs
      exact hcon ⟨i, hi, hiM, hs⟩
    classical
    obtain ⟨t, ⟨ht1, htM, hts⟩, hmin⟩ : ∃ t : Nat, (1 ≤ t ∧ (t : Int) ≤ bld.budget ∧
        stackSizeOf (capacityFor keys.length / 3) keys (seedNo bld.rng0 t) =
          .ret keys.length) ∧
        ∀ m : Nat, m < t → ¬ (1 ≤ m ∧ (m : Int) ≤ bld.budget ∧
          stackSizeOf (capacityFor keys.length / 3) keys (seedNo bld.rng0 m) =
            .ret keys.length) :=
      ⟨Nat.find hex, Nat.find_spec hex, fun m hm => Nat.find_min hex hm⟩
    obtain ⟨filter, b1, h, _⟩ := hs2 t ht1 htM hts
      (fun i hi hit hs => hmin i hit ⟨hi, by omega, hs⟩)
    exact ⟨_, h⟩

/-- With a budget of zero attempts `Builder.Populate` returns the error at once. -/
theorem Populate_no_budget (bld : Builder) (keys : List Nat) (hM : bld.budget < 1) :
    ∃ bld1, bld.Populate keys = .ret (.error .ErrTooManyIterations, bld1) := by
  have h0 : bld.budget.toNat = 0 := by omega
  have h1 : incInt 0 = 1 := by decide
  rw [Populate_eq, h0]
  unfold retry
  simp only []
  rw [h1, if_pos (by omega)]
  exact ⟨_, rfl⟩

/-- With a budget below the largest `int`, the retry loop of `Builder.Populate`
stops within the rounds that the budget allows. -/
theorem Populate_ne_timeout (bld : Builder) (keys : List Nat) (hn : keys.length < 2 ^ 32)
    (hM : bld.budget < 2 ^ 63 - 1) : bld.Populate keys ≠ .timeout := by
  by_cases hcap : 3 ≤ capacityFor keys.length
  · obtain ⟨r, h⟩ := Populate_returns bld keys hn hcap hM
    rw [h]
    simp
  · have hc2 := capacityFor_div keys.length
    have hc0 : capacityFor keys.length = 0 := by omega
    have hk : keys ≠ [] := by
      intro hk
      rw [hk] at hc0
      simp only [List.length_nil, capacityFor_zero] at hc0
      omega
    by_cases hb : 1 ≤ bld.budget
    · rw [Populate_panic bld keys hk hc0 hb]
      simp
    · obtain ⟨b1, h⟩ := Populate_no_budget bld keys (by omega)
      rw [h]
      simp

/-- A returned result of `Builder.Populate` is a returned result of its retry loop
within `max(M, 0) + 1` rounds. -/
theorem Populate_retry (bld : Builder) (keys : List Nat)
    (r : Except Error Xor8 × Builder) (h : bld.Populate keys = .ret r) :
    ∃ x, retry keys bld.budget (capacityFor keys.length / 3) (bld.budget.toNat + 1) 0
      (seedNo bld.rng0 1) (rngState bld.rng0 1)
      (getWork bld keys.length (capacityFor keys.length / 3)) = .ret x := by
  rw [Populate_eq] at h
  cases hr : retry keys bld.budget (capacityFor keys.length / 3) (bld.budget.toNat + 1) 0
      (seedNo bld.rng0 1) (rngState bld.rng0 1)
      (getWork bld keys.length (capacityFor keys.length / 3)) with
  | panic => rw [hr] at h; simp at h
  | timeout => rw [hr] at h; simp at h
  | ret x => exact ⟨x, rfl⟩

/-- The filter that `Builder.Populate` builds from no keys has three blocks of ten
zero fingerprints. -/
theorem Populate_nil_shape (bld : Builder) (filter : Xor8) (bld1 : Builder)
    (h : bld.Populate [] = .ret (.ok filter, bld1)) :
    ∃ seed, filter = { Seed := seed, BlockLength := 10, Fingerprints := List.replicate 30 0 } := by
  rw [Populate_eq] at h
  simp only [List.length_nil, capacityFor_zero] at h
  cases hr : retry [] bld.budget (30 / 3) (bld.budget.toNat + 1) 0
      (seedNo bld.rng0 1) (rngState bld.rng0 1) (getWork bld 0 (30 / 3)) with
  | panic => rw [hr] at h; simp at h
  | timeout => rw [hr] at h; simp at h
  | ret x =>
    obtain ⟨r, S, g, w⟩ := x
    rw [hr] at h
    cases r with
    | error e => simp at h
    | ok stack =>
      simp only [Outcome.bind_ret_eq, assign, Outcome.ret.injEq, Prod.mk.injEq,
        Except.ok.injEq] at h
      exact ⟨S, h.1.symm⟩

/-! ## The claims on defaults, range reduction, the empty filter and the stack -/

/-- `Builder.Populate` reads of the builder the budget, the starting generator
state and the two stores; the field `MaxIterations` is handed back unchanged. -/
theorem Populate_config (b1 b2 : Builder) (keys : List Nat) (hM : b1.budget = b2.budget)
    (hR : b1.rng0 = b2.rng0) (hk : b1.kiStore = b2.kiStore) (hs : b1.setStore = b2.setStore) :
    b1.Populate keys =
      (b2.Populate keys).bind fun r => .ret (r.1, { r.2 with MaxIterations := b1.MaxIterations }) := by
  have hw : ∀ n B, getWork b1 n B = getWork b2 n B := by
    intro n B
    unfold getWork
    rw [hk, hs]
  rw [Populate_eq, Populate_eq, hM, hR, hw]
  cases retry keys b2.budget (capacityFor keys.length / 3) (b2.budget.toNat + 1) 0
      (seedNo b2.rng0 1) (rngState b2.rng0 1)
      (getWork b2 keys.length (capacityFor keys.length / 3)) with
  | panic => rfl
  | timeout => rfl
  | ret x =>
    obtain ⟨r, S, g, w⟩ := x
    cases r with
    | error e => rfl
    | ok stack =>
      simp only [Outcome.bind_ret_eq]
      cases assign { Seed := S, BlockLength := capacityFor keys.length / 3 } stack keys.length
        (List.replicate (capacityFor keys.length) 0) with
      | panic => rfl
      | timeout => rfl
      | ret F => rfl

/-- C11. Defaults: the package-level `Populate` returns what a fresh builder with
`MaxIterations = 100` and `RandomNumberGeneratorSeed = 1` returns; a builder with
`MaxIterations = 0` behaves like the same builder with `MaxIterations = 100`, up to
that field, which the call hands back unchanged; a builder with
`RandomNumberGeneratorSeed = 0` behaves exactly like the same builder with
`RandomNumberGeneratorSeed = 1`; and the generator state a call starts from is
never zero. -/
theorem populate_defaults (keys : List Nat) (bld : Builder) :
    Populate keys = returned (Builder.Populate ⟨100, [], [], 1⟩ keys) ∧
      Builder.Populate { bld with MaxIterations := 0 } keys =
        (Builder.Populate { bld with MaxIterations := 100 } keys).bind
          (fun r => .ret (r.1, { r.2 with MaxIterations := 0 })) ∧
      Builder.Populate { bld with RandomNumberGeneratorSeed := 0 } keys =
        Builder.Populate { bld with RandomNumberGeneratorSeed := 1 } keys ∧
      bld.rng0 ≠ 0 := by
  refine ⟨?_, ?_, ?_, ?_⟩
  · unfold Populate returned
    simp only []
    rw [Populate_config ⟨0, [], [], 0⟩ ⟨100, [], [], 1⟩ keys rfl rfl rfl rfl]
    cases Builder.Populate ⟨100, [], [], 1⟩ keys with
    | panic => rfl
    | timeout => rfl
    | ret r => rfl
  · exact Populate_config { bld with MaxIterations := 0 } { bld with MaxIterations := 100 }
      keys rfl rfl rfl rfl
  · rw [Populate_eq, Populate_eq]
    rfl
  · unfold Builder.rng0
    split
    · decide
    · assumption

/-- C12. Range reduction: for `uint32` values `hash` and `n` the 64-bit product does
not overflow, `reduce(hash, n)` is `floor(hash * n / 2^32)` and is below `n` when
`n > 0`; hence for every digest and every block length `n > 0` each of `geth0`,
`geth1`, `geth2` returns an index below `n`. -/
theorem range_reduction (hash n : Nat) (hh : hash < 2 ^ 32) (hn : n < 2 ^ 32) :
    hash * n < 2 ^ 64 ∧ reduce hash n = hash * n / 2 ^ 32 ∧ (0 < n → reduce hash n < n) ∧
      ∀ seed digest : Nat, 0 < n →
        geth0 { Seed := seed, BlockLength := n } digest < n ∧
        geth1 { Seed := seed, BlockLength := n } digest < n ∧
        geth2 { Seed := seed, BlockLength := n } digest < n := by
  refine ⟨?_, reduce_eq hash n hh hn, reduce_lt hash n hh hn, ?_⟩
  · calc hash * n < 2 ^ 32 * 2 ^ 32 := Nat.mul_lt_mul'' hh hn
      _ = 2 ^ 64 := by norm_num
  · intro seed digest hpos
    exact ⟨slot_lt { Seed := seed, BlockLength := n } 0 digest hpos hn,
      slot_lt { Seed := seed, BlockLength := n } 1 digest hpos hn,
      slot_lt { Seed := seed, BlockLength := n } 2 digest hpos hn⟩

/-- C12, at the largest `uint32` hash and the block length 13. -/
theorem range_reduction_witness :
    ((4294967295 : Nat) < 2 ^ 32 ∧ (13 : Nat) < 2 ^ 32) ∧
    reduce 4294967295 13 = 12 ∧
    (4294967295 * 13 < 2 ^ 64 ∧ reduce 4294967295 13 = 4294967295 * 13 / 2 ^ 32 ∧
      (0 < 13 → reduce 4294967295 13 < 13) ∧
      ∀ seed digest : Nat, 0 < 13 →
        geth0 { Seed := seed, BlockLength := 13 } digest < 13 ∧
        geth1 { Seed := seed, BlockLength := 13 } digest < 13 ∧
        geth2 { Seed := seed, BlockLength := 13 } digest < 13) :=
  ⟨by decide, by decide, range_reduction 4294967295 13 (by decide) (by decide)⟩

/-- C13. False-positive rate of the empty filter: the filter that `Builder.Populate`
returns for the empty key list holds 30 zero fingerprints in three blocks of ten,
and `Contains` is true on it for exactly `2^56` of the `2^64` keys; the same count
holds for such a filter under every seed. -/
theorem empty_filter_accepts (bld : Builder) (filter : Xor8)
    (h : returned (bld.Populate []) = .ret (.ok filter)) :
    filter.BlockLength = 10 ∧ filter.Fingerprints = List.replicate 30 0 ∧
      (acceptedKeys filter).card = 2 ^ 56 ∧ (Finset.range (2 ^ 64)).card = 2 ^ 64 ∧
      ∀ seed, (acceptedKeys { Seed := seed, BlockLength := 10,
                              Fingerprints := List.replicate 30 0 }).card = 2 ^ 56 := by
  obtain ⟨bld1, h1⟩ := returned_ok _ _ h
  obtain ⟨seed, rfl⟩ := Populate_nil_shape bld filter bld1 h1
  exact ⟨rfl, rfl, card_acceptedKeys_zeroFilter seed, Finset.card_range _,
    card_acceptedKeys_zeroFilter⟩

/-- C13, at the zero builder. -/
theorem empty_filter_accepts_witness :
    returned ((⟨0, [], [], 0⟩ : Builder).Populate []) = .ret (.ok emptyFilter) ∧
    emptyFilter.Fingerprints = List.replicate 30 0 ∧
    (acceptedKeys emptyFilter).card = 2 ^ 56 :=
  ⟨by decide!,
    (empty_filter_accepts ⟨0, [], [], 0⟩ emptyFilter (by decide!)).2.1,
    (empty_filter_accepts ⟨0, [], [], 0⟩ emptyFilter (by decide!)).2.2.1⟩

/-- C14. Reverse-peel order makes assignments final: in the stack that
`populateCommon` returns to `Builder.Populate` for fewer than `2^32` keys, the
recorded index of position `i` is none of the three slots of the digest at a
position `j > i`; hence the part of the assignment pass that follows the write for
position `j`, which handles the positions below `j`, leaves the three slots of
that digest as they are; and the whole pass returns. -/
theorem reverse_peel_order (bld : Builder) (keys : List Nat) (stack : List keyindex)
    (f1 : XorFilterCommon) (bld1 : Builder) (hn : keys.length < 2 ^ 32)
    (h : populateCommon bld keys { Seed := 0, BlockLength := capacityFor keys.length / 3 } =
      .ret (.ok stack, f1, bld1)) :
    (∀ (i j : Nat) (ei ej : keyindex), i < j → stack[i]? = some ei → stack[j]? = some ej →
        ∀ b, b < 3 → ei.index ≠ gslot f1 b ej.hash) ∧
      (∀ (j : Nat) (ej : keyindex), stack[j]? = some ej →
        ∀ F F1 : List Nat, assign f1 stack j F = .ret F1 →
          ∀ b, b < 3 → F1.getD (gslot f1 b ej.hash) 0 = F.getD (gslot f1 b ej.hash) 0) ∧
      ∃ F1, assign f1 stack keys.length (List.replicate (capacityFor keys.length) 0) = .ret F1 := by
  obtain ⟨hpos, hB, hbl, hp⟩ := populateCommon_peeled bld keys hn stack f1 bld1 h
  have hord := hp.order hpos hB
  refine ⟨hord, ?_, ?_⟩
  · intro j ej hj F F1 ha b hb
    refine assign_frame f1 stack j F F1 ha _ ?_
    intro i e hi he
    exact hord i j e ej hi he hj b hb
  · have hc := capacityFor_div keys.length
    obtain ⟨F1, hF, _⟩ := assign_peeled f1 hpos hB _ stack hp
      (List.replicate (capacityFor keys.length) 0)
      (by rw [List.length_replicate, hbl]; omega)
    rw [digests_length] at hF
    exact ⟨F1, hF⟩

/-- C14, at the keys 1 and 2 and the zero builder: the index 9 recorded at position
0 is none of the slots of the digest at position 1. -/
theorem reverse_peel_order_witness :
    ([1, 2] : List Nat).length < 2 ^ 32 ∧
    populateCommon ⟨0, [], [], 0⟩ [1, 2]
        { Seed := 0, BlockLength := capacityFor ([1, 2] : List Nat).length / 3 } =
      .ret (.ok stackOfTwoKeys, ⟨10451216379200822465, 11⟩, builderAfterTwoKeys) ∧
    (∀ b, b < 3 → (9 : Nat) ≠ gslot ⟨10451216379200822465, 11⟩ b 7178537244092407270) ∧
    ∃ F1, assign ⟨10451216379200822465, 11⟩ stackOfTwoKeys ([1, 2] : List Nat).length
      (List.replicate (capacityFor ([1, 2] : List Nat).length) 0) = .ret F1 :=
  ⟨by decide, by decide!,
    (reverse_peel_order ⟨0, [], [], 0⟩ [1, 2] stackOfTwoKeys ⟨10451216379200822465, 11⟩
      builderAfterTwoKeys (by decide) (by decide!)).1 0 1 ⟨7639283029843589050, 9⟩
      ⟨7178537244092407270, 0⟩ (by decide) rfl rfl,
    (reverse_peel_order ⟨0, [], [], 0⟩ [1, 2] stackOfTwoKeys ⟨10451216379200822465, 11⟩
      builderAfterTwoKeys (by decide) (by decide!)).2.2⟩

/-- C15. Stack contents after a successful attempt: the stack that `populateCommon`
returns to `Builder.Populate` for `n < 2^32` keys has `n` entries, its hashes are
the digests of the keys under the returned seed, each once, every entry's index is
`b * BlockLength` plus the slot of its digest in block `b` for one of the three
blocks `b`, and the recorded indices are pairwise distinct. -/
theorem stack_contents (bld : Builder) (keys : List Nat) (stack : List keyindex)
    (f1 : XorFilterCommon) (bld1 : Builder) (hn : keys.length < 2 ^ 32)
    (h : populateCommon bld keys { Seed := 0, BlockLength := capacityFor keys.length / 3 } =
      .ret (.ok stack, f1, bld1)) :
    stack.length = keys.length ∧
      (stack.map keyindex.hash).Perm (keys.map fun k => mixsplit k f1.Seed) ∧
      (stack.map keyindex.hash).Nodup ∧
      (∀ e ∈ stack, ∃ b, b < 3 ∧ e.index = b * f1.BlockLength + slot f1 b e.hash) ∧
      (stack.map keyindex.index).Nodup := by
  obtain ⟨hpos, hB, _, hp⟩ := populateCommon_peeled bld keys hn stack f1 bld1 h
  have hl := hp.stack_length
  rw [digests_length] at hl
  exact ⟨hl, hp.hashes.1, hp.hashes.2, hp.home, (hp.length_le hpos hB).2.1⟩

/-- C15, at the keys 1 and 2 and the zero builder. -/
theorem stack_contents_witness :
    ([1, 2] : List Nat).length < 2 ^ 32 ∧
    populateCommon ⟨0, [], [], 0⟩ [1, 2]
        { Seed := 0, BlockLength := capacityFor ([1, 2] : List Nat).length / 3 } =
      .ret (.ok stackOfTwoKeys, ⟨10451216379200822465, 11⟩, builderAfterTwoKeys) ∧
    stackOfTwoKeys.length = ([1, 2] : List Nat).length ∧
    (stackOfTwoKeys.map keyindex.hash).Perm
      (([1, 2] : List Nat).map fun k => mixsplit k 10451216379200822465) ∧
    (stackOfTwoKeys.map keyindex.index).Nodup :=
  ⟨by decide, by decide!,
    (stack_contents ⟨0, [], [], 0⟩ [1, 2] stackOfTwoKeys ⟨10451216379200822465, 11⟩
      builderAfterTwoKeys (by decide) (by decide!)).1,
    (stack_contents ⟨0, [], [], 0⟩ [1, 2] stackOfTwoKeys ⟨10451216379200822465, 11⟩
      builderAfterTwoKeys (by decide) (by decide!)).2.1,
    (stack_contents ⟨0, [], [], 0⟩ [1, 2] stackOfTwoKeys ⟨10451216379200822465, 11⟩
      builderAfterTwoKeys (by decide) (by decide!)).2.2.2.2⟩

/-! ## The claims on peeling, safety, termination, key order and digests -/

/-- C16. Peeling is complete: for fewer than `2^32` keys, every seed and every
`uint32` block length above zero, one attempt on well-shaped working slices
returns with `stacksize <= n`; `stacksize = n` holds if and only if the digests
can be ordered, each with one of its three blocks, so that no later digest maps to
the slot an earlier one has in its block, a condition that does not mention the
order of the drain loops; and the digests `R` that are not on the stack share
each of their three slots with another digest of `R`. -/
theorem peeling_complete (f : XorFilterCommon) (keys : List Nat) (w : work)
    (hpos : 0 < f.BlockLength) (hB : f.BlockLength < 2 ^ 32) (hn : keys.length < 2 ^ 32)
    (hw : Shape f.BlockLength keys.length w) :
    ∃ w1, attempt f keys w = .ret w1 ∧ w1.stacksize ≤ keys.length ∧
      (w1.stacksize = keys.length ↔ Peelable f (digests keys f.Seed)) ∧
      ∃ R : List Nat,
        ((w1.stack.take w1.stacksize).map keyindex.hash ++ R).Perm (digests keys f.Seed) ∧
        ∀ h ∈ R, ∀ b, b < 3 → 2 ≤ cnt (slot f b) R (slot f b h) := by
  obtain ⟨w0, w1, R, P, _, ha, inv, hz, _, _, _⟩ := attempt_specW hpos hB hn hw
  have hlen := inv.length_eqW
  rw [digests_length] at hlen
  refine ⟨w1, ha, by rw [inv.stackSize]; omega, ?_, R, ?_, inv.core hpos hB hz⟩
  · have := inv.full_iff hpos hB hz
    rwa [digests_length] at this
  · rw [inv.stack_hashes]
    exact ((List.reverse_perm _).append_right R).trans inv.perm

/-- C16, at the keys 1 and 2 with block length 11: under the first seed from state 1
the attempt fills the stack. -/
theorem peeling_complete_witness :
    ((0 : Nat) < 11 ∧ (11 : Nat) < 2 ^ 32 ∧ ([1, 2] : List Nat).length < 2 ^ 32 ∧
      Shape 11 ([1, 2] : List Nat).length (freshWork 2 11)) ∧
    stackSizeOf 11 [1, 2] 10451216379200822465 = .ret 2 ∧
    ∃ w1, attempt ⟨10451216379200822465, 11⟩ [1, 2] (freshWork 2 11) = .ret w1 ∧
      w1.stacksize ≤ ([1, 2] : List Nat).length ∧
      (w1.stacksize = ([1, 2] : List Nat).length ↔
        Peelable ⟨10451216379200822465, 11⟩ (digests [1, 2] 10451216379200822465)) ∧
      ∃ R : List Nat,
        ((w1.stack.take w1.stacksize).map keyindex.hash ++ R).Perm
          (digests [1, 2] 10451216379200822465) ∧
        ∀ h ∈ R, ∀ b, b < 3 →
          2 ≤ cnt (slot ⟨10451216379200822465, 11⟩ b) R (slot ⟨10451216379200822465, 11⟩ b h) :=
  ⟨⟨by decide, by decide, by decide, Shape.of_getWork _ 2 11⟩, by decide!,
    peeling_complete ⟨10451216379200822465, 11⟩ [1, 2] (freshWork 2 11) (by decide) (by decide)
      (by decide) (Shape.of_getWork _ 2 11)⟩

/-- C17 (amended). Construction never indexes out of range or underflows: for
fewer than `2^32` keys whose computed block length is not zero, every seed and
well-shaped working slices, the attempt returns, so no index of the accumulation
pass, the scans or the peel loop is out of range; the slots of every key are below
`BlockLength`; every iteration of a drain loop reads and writes within the stack,
the queues and the accumulators and applies `count--` only to a count of at least
one; no slot is taken off a queue twice in an attempt; the slices are well shaped
at the start of every attempt. -/
theorem construction_in_range (keys : List Nat) (seed : Nat) (w : work)
    (hn : keys.length < 2 ^ 32) (hcap : 3 ≤ capacityFor keys.length)
    (hw : Shape (capacityFor keys.length / 3) keys.length w) :
    (∃ w1, attempt ⟨seed, capacityFor keys.length / 3⟩ keys w = .ret w1 ∧
        Shape (capacityFor keys.length / 3) keys.length
          { w1 with sets0 := resetSets w1.sets0, sets1 := resetSets w1.sets1,
                    sets2 := resetSets w1.sets2 }) ∧
      (∀ k ∈ keys, ∀ b, b < 3 →
        slot ⟨seed, capacityFor keys.length / 3⟩ b (mixsplit k seed) <
          capacityFor keys.length / 3) ∧
      (∀ e ∈ attemptTrace ⟨seed, capacityFor keys.length / 3⟩ keys w,
        traceSafe ⟨seed, capacityFor keys.length / 3⟩ keys.length e) ∧
      ((attemptTrace ⟨seed, capacityFor keys.length / 3⟩ keys w).map dequeued).Nodup ∧
      ∀ bld : Builder, Shape (capacityFor keys.length / 3) keys.length
        (getWork bld keys.length (capacityFor keys.length / 3)) := by
  have hc1 := capacityFor_lt keys.length
  have hpos : 0 < capacityFor keys.length / 3 := by omega
  have hB : capacityFor keys.length / 3 < 2 ^ 32 := by omega
  obtain ⟨w0, w1, R, P, _, ha, inv, _, htr, _, hnd⟩ :=
    @attempt_specW ⟨seed, capacityFor keys.length / 3⟩ keys w hpos hB hn hw
  have hsh := inv.shape_afterW
  rw [digests_length] at hsh
  exact ⟨⟨w1, ha, hsh⟩,
    fun k _ b _ => slot_lt ⟨seed, capacityFor keys.length / 3⟩ b _ hpos hB, htr, hnd,
    fun bld => Shape.of_getWork bld _ _⟩

/-- C17 (amended), at the keys 1 to 5 under the first seed from state 1: the first
iteration of the drain loop of block 0 is in order. -/
theorem construction_in_range_witness :
    (([1, 2, 3, 4, 5] : List Nat).length < 2 ^ 32 ∧
      3 ≤ capacityFor ([1, 2, 3, 4, 5] : List Nat).length ∧
      Shape (capacityFor ([1, 2, 3, 4, 5] : List Nat).length / 3)
        ([1, 2, 3, 4, 5] : List Nat).length (freshWork 5 13)) ∧
    (attemptTrace ⟨10451216379200822465, 13⟩ [1, 2, 3, 4, 5] (freshWork 5 13)).length = 12 ∧
    ∀ e ∈ attemptTrace
        ⟨10451216379200822465, capacityFor ([1, 2, 3, 4, 5] : List Nat).length / 3⟩
        [1, 2, 3, 4, 5] (freshWork 5 13),
      traceSafe ⟨10451216379200822465, capacityFor ([1, 2, 3, 4, 5] : List Nat).length / 3⟩
        ([1, 2, 3, 4, 5] : List Nat).length e :=
  ⟨⟨by decide, by decide!, Shape.of_getWork _ 5 13⟩, by decide!,
    (construction_in_range [1, 2, 3, 4, 5] 10451216379200822465 (freshWork 5 13) (by decide)
      (by decide!) (Shape.of_getWork _ 5 13)).2.2.1⟩

/-- C17, as stated, fails: for 3491843304 keys the capacity `32 + 4294967264` is zero
in `uint32`, the block length that `Builder.Populate` chooses is zero, no slot
index is below it, and the first access `sets0[hs.h0]` of the attempt is out of
range. -/
theorem construction_index_out_of_range :
    capacityFor 3491843304 / 3 = 0 ∧
    (∀ seed, ¬ geth0 ⟨seed, capacityFor 3491843304 / 3⟩ (mixsplit 1 seed) <
      capacityFor 3491843304 / 3) ∧
    ∀ seed, attempt ⟨seed, capacityFor 3491843304 / 3⟩ (List.replicate 3491843304 1)
      (freshWork 3491843304 (capacityFor 3491843304 / 3)) = .panic := by
  have hc : capacityFor 3491843304 / 3 = 0 := by decide!
  refine ⟨hc, ?_, ?_⟩
  · intro seed
    rw [hc]
    exact Nat.not_lt_zero _
  · intro seed
    rw [hc]
    have hne : List.replicate 3491843304 1 ≠ [] := by
      intro h
      have := congrArg List.length h
      rw [List.length_replicate, List.length_nil] at this
      exact absurd this (by decide)
    obtain ⟨k, rest, hr⟩ := List.exists_cons_of_ne_nil hne
    rw [hr]
    apply attempt_panic
    have := ((Shape.of_getWork ⟨0, [], [], 0⟩ 3491843304 0).2 0 (by omega)).2
    simpa [work.sets] using this

/-- C18 (amended). `Builder.Populate` terminates: for fewer than `2^32` keys and a
budget `M` below the largest `int`, the retry loop stops within `max(M, 0) + 1`
rounds, the last of which only tests the budget, so at most `max(M, 0)` attempts
are made, and `Builder.Populate` returns when the block length is not zero; each
attempt returns after at most `n` peels and at most `3 * BlockLength` dequeues. -/
theorem populate_terminates (bld : Builder) (keys : List Nat) (hn : keys.length < 2 ^ 32)
    (hM : bld.budget < 2 ^ 63 - 1) :
    bld.Populate keys ≠ .timeout ∧
      (3 ≤ capacityFor keys.length →
        ∃ r x, bld.Populate keys = .ret r ∧
          retry keys bld.budget (capacityFor keys.length / 3) (bld.budget.toNat + 1) 0
            (seedNo bld.rng0 1) (rngState bld.rng0 1)
            (getWork bld keys.length (capacityFor keys.length / 3)) = .ret x) ∧
      ∀ (f : XorFilterCommon) (w : work), 0 < f.BlockLength → f.BlockLength < 2 ^ 32 →
        Shape f.BlockLength keys.length w →
        ∃ w1, attempt f keys w = .ret w1 ∧ w1.stacksize ≤ keys.length ∧
          (attemptTrace f keys w).length ≤ 3 * f.BlockLength := by
  refine ⟨Populate_ne_timeout bld keys hn hM, ?_, ?_⟩
  · intro hcap
    obtain ⟨r, hr⟩ := Populate_returns bld keys hn hcap hM
    obtain ⟨x, hx⟩ := Populate_retry bld keys r hr
    exact ⟨r, x, hr, hx⟩
  · intro f w hpos hB hw
    obtain ⟨w0, w1, R, P, _, ha, inv, _, _, hlen, _⟩ := attempt_specW hpos hB hn hw
    have hl := inv.length_eqW
    rw [digests_length] at hl
    exact ⟨w1, ha, by rw [inv.stackSize]; omega, hlen⟩

/-- C18 (amended), at the keys 1, 2, 3 and a builder with a budget of two attempts. -/
theorem populate_terminates_witness :
    (([1, 2, 3] : List Nat).length < 2 ^ 32 ∧
      (⟨2, [], [], 5⟩ : Builder).budget < 2 ^ 63 - 1) ∧
    (⟨2, [], [], 5⟩ : Builder).Populate [1, 2, 3] ≠ .timeout ∧
    (attemptTrace ⟨seedNo 5 1, 12⟩ [1, 2, 3] (freshWork 3 12)).length ≤ 3 * 12 :=
  ⟨by decide,
    (populate_terminates ⟨2, [], [], 5⟩ [1, 2, 3] (by decide) (by decide)).1,
    by decide!⟩

/-- C18, as stated, fails: with `MaxIterations` the largest `int` the test
`iterations > maxIterations` never holds, and on the keys `[7, 7]`, for which every
attempt fails, the retry loop uses up every bound on its rounds. -/
theorem populate_never_returns :
    Builder.Populate { MaxIterations := 9223372036854775807, kiStore := [], setStore := [],
                       RandomNumberGeneratorSeed := 2 } [7, 7] = .timeout ∧
    ∀ fuel, retry [7, 7] 9223372036854775807 11 fuel 0 (seedNo 2 1) (rngState 2 1)
      (freshWork 2 11) = .timeout := by
  have hfail : ∀ seed, stackSizeOf 11 [7, 7] seed ≠ .ret ([7, 7] : List Nat).length :=
    stackSizeOf_dup 11 [7, 7] (by decide) (by decide) (by decide) (by decide)
  refine ⟨?_, ?_⟩
  · apply Populate_timeout
    · decide
    · decide!
    · decide
    · have h3 : capacityFor ([7, 7] : List Nat).length / 3 = 11 := by decide!
      rw [h3]
      exact hfail
  · intro fuel
    exact retry_timeout [7, 7] 11 (by decide) (by decide) (by decide) hfail fuel 0 _ _ _
      (Shape.of_getWork _ _ _)

/-- C19. The result depends on the key set, not the key order: for a key list and a
permutation of it, `Builder.Populate` returns the same outcome and leaves the same
builder; and two builders that agree on `MaxIterations` and
`RandomNumberGeneratorSeed` return the same error or the same filter (seed, block
length and fingerprints) and are left with the same generator state. -/
theorem populate_order_independent (b1 b2 : Builder) (keys1 keys2 : List Nat)
    (hp : keys1.Perm keys2) (hM : b1.MaxIterations = b2.MaxIterations)
    (hR : b1.RandomNumberGeneratorSeed = b2.RandomNumberGeneratorSeed) :
    b1.Populate keys1 = b1.Populate keys2 ∧
      observe (b1.Populate keys1) = observe (b2.Populate keys2) := by
  refine ⟨Populate_perm b1 keys1 keys2 hp, ?_⟩
  rw [Populate_perm b1 keys1 keys2 hp]
  exact Populate_observe b1 b2 keys2 hM hR

/-- C19, at the keys 1, 2, 3 and 3, 1, 2. -/
theorem populate_order_independent_witness :
    (([1, 2, 3] : List Nat).Perm [3, 1, 2] ∧
      (⟨3, [], [], 7⟩ : Builder).MaxIterations = (⟨3, [⟨1, 1⟩], [], 7⟩ : Builder).MaxIterations ∧
      (⟨3, [], [], 7⟩ : Builder).RandomNumberGeneratorSeed =
        (⟨3, [⟨1, 1⟩], [], 7⟩ : Builder).RandomNumberGeneratorSeed) ∧
    observe ((⟨3, [], [], 7⟩ : Builder).Populate [1, 2, 3]) =
      observe ((⟨3, [⟨1, 1⟩], [], 7⟩ : Builder).Populate [3, 1, 2]) ∧
    observe ((⟨3, [⟨1, 1⟩], [], 7⟩ : Builder).Populate [3, 1, 2]) =
      .ret (.ok ⟨⟨7191089600892374487, 12⟩, [0, 6, 0, 0, 0, 0, 0, 0, 0, 0, 0, 0, 0, 0, 102, 0,
        0, 0, 0, 0, 0, 0, 24, 0, 0, 0, 0, 0, 0, 0, 0, 0, 0, 0, 0, 0]⟩, 11400714819323198492) :=
  ⟨⟨by decide, rfl, rfl⟩,
    (populate_order_independent ⟨3, [], [], 7⟩ ⟨3, [⟨1, 1⟩], [], 7⟩ [1, 2, 3] [3, 1, 2]
      (by decide) rfl rfl).2,
    by decide!⟩

/-- C20. Digests are collision-free: `murmur64` is a bijection on 64-bit values,
with `murmur64Inv` as its inverse, so for every seed two `uint64` keys with the
same digest `mixsplit(k, seed)` are the same key. -/
theorem digests_collision_free (k1 k2 seed : Nat) (h1 : k1 < 2 ^ 64) (h2 : k2 < 2 ^ 64) :
    (∀ x, x < 2 ^ 64 → murmur64 x < 2 ^ 64 ∧ murmur64Inv x < 2 ^ 64 ∧
        murmur64Inv (murmur64 x) = x ∧ murmur64 (murmur64Inv x) = x) ∧
      (mixsplit k1 seed = mixsplit k2 seed → k1 = k2) :=
  ⟨fun x hx => ⟨murmur64_lt x, murmur64Inv_lt x, murmur64Inv_murmur64 x hx,
      murmur64_murmur64Inv x hx⟩,
    mixsplit_inj k1 k2 seed h1 h2⟩

/-- C20, at the keys 1 and 2 under the seed 5. -/
theorem digests_collision_free_witness :
    ((1 : Nat) < 2 ^ 64 ∧ (2 : Nat) < 2 ^ 64) ∧
    mixsplit 1 5 ≠ mixsplit 2 5 ∧
    (mixsplit 1 5 = mixsplit 2 5 → (1 : Nat) = 2) :=
  ⟨by decide, by decide!,
    (digests_collision_free 1 2 5 (by decide) (by decide)).2⟩

end XorFilter
